import Mathlib

/-! Klondike Solitaire runtime (`src/game.js`): embedding and verified properties.

The game state of `game.js` is one mutable object `state`; every DOM handler reads and
writes it synchronously.  It is embedded here as a record `State` and each handler as a
total function `State → State`.  JavaScript arrays are lists whose *last* element is
the top of the pile (`push` appends, `pop` removes the last element).  Rendering and
highlighting only touch the DOM and are left out; what the DOM contributes to the
behaviour (which cards carry listeners, which pile a handler is attached to, the clock,
the random source) appears as explicit inputs.
-/

namespace Solitaire

/-! ## Cards -/

/-- The four suits, in the order of the array `SUITS` (♠, ♥, ♦, ♣). -/
inductive Suit where
  | spades
  | hearts
  | diamonds
  | clubs
  deriving DecidableEq

/-- The two values of the `COLORS` table. -/
inductive Color where
  | black
  | red
  deriving DecidableEq

/-- The array `SUITS`: spades, hearts, diamonds, clubs, in this order. -/
def SUITS : List Suit := [Suit.spades, Suit.hearts, Suit.diamonds, Suit.clubs]

/-- The array `RANKS = [1, ..., 13]`.  Ranks are JavaScript numbers; they are integers here so
that `rank - 1` is the true difference. -/
def RANKS : List Int := [1, 2, 3, 4, 5, 6, 7, 8, 9, 10, 11, 12, 13]

/-- The table `COLORS`: ♠ and ♣ are black, ♥ and ♦ are red. -/
def COLORS : Suit → Color
  | Suit.spades => Color.black
  | Suit.clubs => Color.black
  | Suit.hearts => Color.red
  | Suit.diamonds => Color.red

/-- The card id built in `makeDeck`: the template string `${s}${r}-${nonce}`, kept as its
three components.  The string determines the components (one suit character, the decimal
rank, a dash, the rest), so two id strings are equal exactly when the components are. -/
structure CardId where
  suit : Suit
  rank : Int
  nonce : String
  deriving DecidableEq

/-- The typedef `Card = {id, suit, rank, faceUp}`. -/
structure Card where
  id : CardId
  suit : Suit
  rank : Int
  faceUp : Bool
  deriving DecidableEq

/-- A pile is a JavaScript array of cards; the top card is the last element. -/
abbrev Pile := List Card

/-- Embeds `topCard(arr)`: the last element, or `null` for an empty array. -/
def topCard (arr : Pile) : Option Card := arr.getLast?

/-! ## Rule predicates -/

/-- Embeds `canPlaceOnTableau(destTop, movingTop)`; `null` arguments are `none`. -/
def canPlaceOnTableau (destTop movingTop : Option Card) : Bool :=
  match movingTop with
  | none => false
  | some m =>
    match destTop with
    | none => m.rank == 13
    | some d => COLORS d.suit != COLORS m.suit && m.rank == d.rank - 1

/-- Embeds `canPlaceOnFoundation(destTop, movingTop)`; `null` arguments are `none`. -/
def canPlaceOnFoundation (destTop movingTop : Option Card) : Bool :=
  match movingTop with
  | none => false
  | some m =>
    match destTop with
    | none => m.rank == 1
    | some d => m.suit == d.suit && m.rank == d.rank + 1

/-! ## Deck factory -/

/-- One value returned by `Math.random()`: a double in `[0, 1)`.  A double is an integer
significand below `2 ^ 53` times a power of two that is no finer than `2 ^ -1074` (the
smallest subnormal), so the values in `[0, 1)` are exactly the `man / 2 ^ exp` below. -/
structure Rnd where
  man : Nat
  exp : Nat
  man_lt : man < 2 ^ 53
  exp_le : exp ≤ 1074
  lt_one : man < 2 ^ exp

/-- The values `Math.random()` returns during one call of `makeDeck`, in the two ways the
code uses them: the call made for the `k`-th card id through the string
`Math.random().toString(36).slice(2)` it yields, and the call made in the `k`-th shuffle
iteration through its numeric value. -/
structure Tape where
  nonce : Nat → String
  pick : Nat → Rnd

/-- The number of low bits of `p` that do not fit a 53-bit significand: how often `p` is
halved until it is below `2 ^ 53`, with at most `fuel` halvings (`excessBits_spec`: the
`fuel` that `randIndex` passes is always enough). -/
def excessBits : Nat → Nat → Nat
  | 0, _ => 0
  | fuel + 1, p => if p < 2 ^ 53 then 0 else excessBits fuel (p / 2) + 1

/-- The rounding of IEEE 754 arithmetic (to nearest, ties to even) applied to the integer
`p`: with `s = excessBits fuel p`, the multiple of `2 ^ s` nearest to `p`, the even
multiple when `p` lies halfway between two of them. -/
def roundToDouble (fuel p : Nat) : Nat :=
  let s := excessBits fuel p
  let q := p / 2 ^ s
  let r := p % 2 ^ s
  if 2 * r < 2 ^ s then q * 2 ^ s
  else if 2 * r = 2 ^ s ∧ q % 2 = 0 then q * 2 ^ s
  else (q + 1) * 2 ^ s

/-- The swap index `(Math.random() * (i + 1)) | 0`.  The operator `*` returns the double
nearest to the exact product `man * (i + 1) / 2 ^ exp` (both factors are doubles, and the
product is in the normal range whenever it needs rounding): `roundToDouble` on the
numerator.  The operator `| 0` then drops the fraction (the loop has `i ≤ 51`, so the
value is far below `2 ^ 31`). -/
def randIndex (r : Rnd) (i : Nat) : Nat :=
  roundToDouble (i + 1) (r.man * (i + 1)) / 2 ^ r.exp

/-- The destructuring swap `[deck[i], deck[j]] = [deck[j], deck[i]]`.  Both indices are
inside the array whenever `makeDeck` runs it (`randIndex_le`); outside, where JavaScript
would store `undefined`, the list is returned as it is. -/
def swapAt (deck : Pile) (i j : Nat) : Pile :=
  match deck[i]?, deck[j]? with
  | some a, some b => (deck.set i b).set j a
  | _, _ => deck

/-- The nested `for` loops of `makeDeck` that push the 52 face-down cards, suit by suit;
the `k`-th card pushed takes the `k`-th id nonce. -/
def freshDeck (nonce : Nat → String) : Pile :=
  SUITS.enum.flatMap fun si =>
    RANKS.enum.map fun ri =>
      { id := ⟨si.2, ri.2, nonce (13 * si.1 + ri.1)⟩, suit := si.2, rank := ri.2,
        faceUp := false }

/-- The shuffle loop `for (let i = n; i > 0; i--)` of `makeDeck`; `k` counts the calls of
`Math.random()` made so far by the loop. -/
def shuffleFrom (pick : Nat → Rnd) : Nat → Nat → Pile → Pile
  | 0, _, deck => deck
  | i + 1, k, deck => shuffleFrom pick i (k + 1) (swapAt deck (i + 1) (randIndex (pick k) (i + 1)))

/-- Embeds `makeDeck()`. -/
def makeDeck (tape : Tape) : Pile :=
  let deck := freshDeck tape.nonce
  shuffleFrom tape.pick (deck.length - 1) 0 deck

/-! ## Game state -/

/-- The pile roles named by the strings `waste`, `tableau` and `foundation`. -/
inductive PileKind where
  | waste
  | tableau
  | foundation
  deriving DecidableEq

/-- The value of `state.selected` when it is not `null`: `{from, index, start}`. -/
structure Selection where
  frm : PileKind
  index : Nat
  start : Nat
  deriving DecidableEq

/-- An element of `state.moves`, by its `type` field. -/
inductive Entry where
  | deal (card : CardId)
  | recycle
  | move (frm : PileKind) (fromIndex : Nat) (startIndex : Nat) (dest : PileKind) (toIndex : Nat)
      (count : Int) (flippedOnSource : Bool)
  | flip (tableau : Nat)
  deriving DecidableEq

/-- The text `el.winStatus.textContent` last written by the code. -/
inductive WinStatus where
  | gameOn
  | youWin
  | paused
  deriving DecidableEq

/-- The object `state`, with `winStatus` for the status text.  `timer` tells whether an
interval handle is stored (`state.timer !== 0`), `drag` whether `state.drag` is non-null
(its `active` flag is then always `true`). -/
structure State where
  stock : Pile
  waste : Pile
  foundations : List Pile
  tableau : List Pile
  selected : Option Selection
  moves : List Entry
  moveCount : Nat
  startTs : Int
  timer : Bool
  paused : Bool
  pauseAt : Int
  drag : Bool
  winStatus : WinStatus
  deriving DecidableEq

/-- The initial value of `state` in the source (the status text is not yet written). -/
def initialState : State :=
  { stock := [], waste := [], foundations := [[], [], [], []],
    tableau := [[], [], [], [], [], [], []], selected := none, moves := [], moveCount := 0,
    startTs := 0, timer := false, paused := false, pauseAt := 0, drag := false,
    winStatus := WinStatus.gameOn }

/-- Reading `piles[i]`.  Every index the handlers use is inside the array (4 foundations,
7 tableau columns); outside, where JavaScript would throw, the empty pile is read. -/
def pileAt (piles : List Pile) (i : Nat) : Pile := piles.getD i []

/-- The conditional that picks the source array: `state.waste` when `from` is `waste`,
`state.tableau[index]` when it is `tableau`, else `state.foundations[index]`. -/
def sourcePile (s : State) (frm : PileKind) (index : Nat) : Pile :=
  match frm with
  | PileKind.waste => s.waste
  | PileKind.tableau => pileAt s.tableau index
  | PileKind.foundation => pileAt s.foundations index

/-- Storing the new contents of the array chosen by `sourcePile`. -/
def setSourcePile (s : State) (frm : PileKind) (index : Nat) (p : Pile) : State :=
  match frm with
  | PileKind.waste => { s with waste := p }
  | PileKind.tableau => { s with tableau := s.tableau.set index p }
  | PileKind.foundation => { s with foundations := s.foundations.set index p }

/-- The conditional that picks the destination array: `state.foundations[toIndex]` when
`to` is `foundation`, else `state.tableau[toIndex]`. -/
def destPile (s : State) (dest : PileKind) (toIndex : Nat) : Pile :=
  if dest = PileKind.foundation then pileAt s.foundations toIndex else pileAt s.tableau toIndex

/-- Storing the new contents of the array chosen by `destPile`. -/
def setDestPile (s : State) (dest : PileKind) (toIndex : Nat) (p : Pile) : State :=
  if dest = PileKind.foundation then { s with foundations := s.foundations.set toIndex p }
  else { s with tableau := s.tableau.set toIndex p }

/-- The method `Array.prototype.splice(start, count)` on a list: the removed elements and what is
left.  A negative `start` counts from the end, and both arguments are clamped as the
language prescribes. -/
def splice (l : Pile) (start count : Int) : Pile × Pile :=
  let len : Int := l.length
  let a : Nat := (if start < 0 then max (len + start) 0 else min start len).toNat
  let dc : Nat := (min (max count 0) (len - a)).toNat
  ((l.drop a).take dc, l.take a ++ l.drop (a + dc))

/-- Writing the `faceUp` field of the last card of a pile (`p[p.length - 1].faceUp = b`). -/
def setTopFaceUp (b : Bool) : Pile → Pile
  | [] => []
  | [c] => [{ c with faceUp := b }]
  | c :: d :: cs => c :: setTopFaceUp b (d :: cs)

/-! ## Moves -/

/-- Embeds `clearSelections()`: the DOM classes aside, `state.selected = null`. -/
def clearSelections (s : State) : State := { s with selected := none }

/-- Embeds `select(sel)`: `state.selected = sel` (`updateHighlights` only touches the DOM). -/
def select (s : State) (sel : Selection) : State := { s with selected := some sel }

/-- Embeds `stopTimer()`. -/
def stopTimer (s : State) : State := { s with timer := false }

/-- Embeds `startTimer()`, with `now` the value of `Date.now()`. -/
def startTimer (s : State) (now : Int) : State := { s with startTs := now, timer := true }

/-- The condition `done` of `checkWin`: every foundation is non-empty with a rank-13 card
on top. -/
def isDone (s : State) : Bool :=
  s.foundations.all fun p =>
    match topCard p with
    | some c => c.rank == 13
    | none => false

/-- Embeds `checkWin()`. -/
def checkWin (s : State) : State :=
  if isDone s then stopTimer { s with winStatus := WinStatus.youWin }
  else { s with winStatus := WinStatus.gameOn }

/-- The body of the loop of `ensureTopFaceUp` for column `t`. -/
def ensureTopFaceUpAt (s : State) (t : Nat) : State :=
  let pile := pileAt s.tableau t
  match topCard pile with
  | some c =>
    if !c.faceUp then
      { s with tableau := s.tableau.set t (setTopFaceUp true pile),
               moves := s.moves ++ [Entry.flip t] }
    else s
  | none => s

/-- Embeds `ensureTopFaceUp()`: the loop over the columns `t = 0, ..., 6`. -/
def ensureTopFaceUp (s : State) : State := (List.range 7).foldl ensureTopFaceUpAt s

/-- Embeds `afterAnyMove()`: `ensureTopFaceUp(); render(); checkWin(); updateHighlights()`. -/
def afterAnyMove (s : State) : State := checkWin (ensureTopFaceUp s)

/-- The first half of `doMove`: the cards are spliced off the source and pushed on the
destination, the move is logged and counted, the selection cleared.  The destination
array is read after the source has been spliced, as in the source (they may be the same
array). -/
def movedState (s : State) (frm : PileKind) (fromIndex startIndex : Nat) (dest : PileKind)
    (toIndex : Nat) (count : Int) : State :=
  let cut := splice (sourcePile s frm fromIndex) startIndex count
  let s1 := setSourcePile s frm fromIndex cut.2
  let s2 := setDestPile s1 dest toIndex (destPile s1 dest toIndex ++ cut.1)
  clearSelections { s2 with
    moves := s2.moves ++ [Entry.move frm fromIndex startIndex dest toIndex count false],
    moveCount := s2.moveCount + 1 }

/-- Embeds `doMove({from, fromIndex, startIndex, to, toIndex, count})`: the transfer, then
`render(); afterAnyMove()`. -/
def doMove (s : State) (frm : PileKind) (fromIndex startIndex : Nat) (dest : PileKind)
    (toIndex : Nat) (count : Int) : State :=
  afterAnyMove (movedState s frm fromIndex startIndex dest toIndex count)

/-- The assignment `last.flippedOnSource = true` on the last log entry.  On an entry that is
not a move the property is never read, so the entry is left as it is. -/
def markFlipped : List Entry → List Entry
  | [] => []
  | [Entry.move frm fi si dest ti count _] => [Entry.move frm fi si dest ti count true]
  | [e] => [e]
  | e :: f :: es => e :: markFlipped (f :: es)

/-- Embeds `postMoveFlipIfNeeded(from, index)`. -/
def postMoveFlipIfNeeded (s : State) (frm : PileKind) (index : Nat) : State :=
  if frm = PileKind.tableau then
    let p := pileAt s.tableau index
    match topCard p with
    | some c =>
      if !c.faceUp then
        { s with tableau := s.tableau.set index (setTopFaceUp true p),
                 moves := markFlipped s.moves }
      else s
    | none => s
  else s

/-- The result `{where, idx, iCard}` of `findCard`. -/
structure Loc where
  whr : PileKind
  idx : Nat
  iCard : Nat
  deriving DecidableEq

/-- The loops of `findCard` over the piles of one kind, for the pile indices listed. -/
def findInPiles (kind : PileKind) (piles : List Pile) (cardId : CardId) : List Nat → Option Loc
  | [] => none
  | f :: fs =>
    match (pileAt piles f).findIdx? (fun c => c.id == cardId) with
    | some i => some ⟨kind, f, i⟩
    | none => findInPiles kind piles cardId fs

/-- Embeds `findCard(cardId)`: waste first, then foundations 0..3, then tableau columns 0..6. -/
def findCard (s : State) (cardId : CardId) : Option Loc :=
  match s.waste.findIdx? (fun c => c.id == cardId) with
  | some i => some ⟨PileKind.waste, 0, i⟩
  | none =>
    match findInPiles PileKind.foundation s.foundations cardId (List.range 4) with
    | some loc => some loc
    | none => findInPiles PileKind.tableau s.tableau cardId (List.range 7)

/-- Embeds `getSelectedTop()`: `arr[start] || null` for the selected pile. -/
def getSelectedTop (s : State) : Option Card :=
  match s.selected with
  | none => none
  | some sel => (sourcePile s sel.frm sel.index)[sel.start]?

/-- Embeds `commitSelectedTo(to, toIndex)`.  Every caller has checked that `state.selected` is
not `null` (destructuring `null` would throw); without a selection the state is returned. -/
def commitSelectedTo (s : State) (dest : PileKind) (toIndex : Nat) : State :=
  match s.selected with
  | none => s
  | some sel =>
    let fromArr := sourcePile s sel.frm sel.index
    let count : Int := (fromArr.length : Int) - sel.start
    postMoveFlipIfNeeded (doMove s sel.frm sel.index sel.start dest toIndex count) sel.frm
      sel.index

/-- The test `moving.every((c, k) => k === 0 || (COLORS[moving[k - 1].suit] !==
COLORS[c.suit] && c.rank === moving[k - 1].rank - 1))` of the click handlers. -/
def runOk : Pile → Bool
  | [] => true
  | [_] => true
  | a :: b :: rest => (COLORS a.suit != COLORS b.suit && b.rank == a.rank - 1) && runOk (b :: rest)

/-! ## Handlers -/

/-- The second half of `onCardClick`: the clicked card becomes the selection. -/
def selectClicked (s : State) (loc : Loc) : State :=
  match loc.whr with
  | PileKind.waste => select s ⟨PileKind.waste, 0, loc.iCard⟩
  | PileKind.foundation => select s ⟨PileKind.foundation, loc.idx, loc.iCard⟩
  | PileKind.tableau =>
    let moving := (pileAt s.tableau loc.idx).drop loc.iCard
    if !runOk moving && moving.length != 1 then s
    else select s ⟨PileKind.tableau, loc.idx, loc.iCard⟩

/-- Embeds `onCardClick(ev)` for a node whose `data-id` is `cardId`. -/
def onCardClick (s : State) (cardId : CardId) : State :=
  if s.paused then s
  else if s.drag then s
  else
    match findCard s cardId with
    | none => s
    | some loc =>
      if s.selected.isSome
          && loc.whr == PileKind.foundation
          && canPlaceOnFoundation (topCard (pileAt s.foundations loc.idx)) (getSelectedTop s) then
        commitSelectedTo s PileKind.foundation loc.idx
      else if s.selected.isSome
          && loc.whr == PileKind.tableau
          && canPlaceOnTableau (topCard (pileAt s.tableau loc.idx)) (getSelectedTop s) then
        commitSelectedTo s PileKind.tableau loc.idx
      else selectClicked s loc

/-- The first foundation `f = 0, ..., 3` on which `card` can be placed. -/
def firstFoundation (s : State) (card : Option Card) : Option Nat :=
  (List.range 4).find? fun f => canPlaceOnFoundation (topCard (pileAt s.foundations f)) card

/-- The first tableau column `t = 0, ..., 6` on which `card` can be placed. -/
def firstTableau (s : State) (card : Option Card) : Option Nat :=
  (List.range 7).find? fun t => canPlaceOnTableau (topCard (pileAt s.tableau t)) card

/-- Embeds `onCardDoubleClick(ev)` for a node whose `data-id` is `cardId`. -/
def onCardDoubleClick (s : State) (cardId : CardId) : State :=
  if s.paused then s
  else
    match findCard s cardId with
    | none => s
    | some loc =>
      let card : Option Card :=
        match loc.whr with
        | PileKind.waste => s.waste[loc.iCard]?
        | PileKind.tableau => (pileAt s.tableau loc.idx)[loc.iCard]?
        | PileKind.foundation => none
      match card with
      | none => s
      | some c =>
        match firstFoundation s (some c) with
        | some f =>
          postMoveFlipIfNeeded (doMove s loc.whr loc.idx loc.iCard PileKind.foundation f 1)
            loc.whr loc.idx
        | none =>
          match firstTableau s (some c) with
          | some t =>
            postMoveFlipIfNeeded (doMove s loc.whr loc.idx loc.iCard PileKind.tableau t 1)
              loc.whr loc.idx
          | none => s

/-- The click handler of `#stock`: draw one card, or recycle the waste. -/
def onStockClick (s : State) : State :=
  if s.paused then s
  else
    match topCard s.stock with
    | some c =>
      afterAnyMove
        { s with stock := s.stock.dropLast,
                 waste := s.waste ++ [{ c with faceUp := true }],
                 moves := s.moves ++ [Entry.deal c.id],
                 moveCount := s.moveCount + 1 }
    | none =>
      if s.waste.length != 0 then
        afterAnyMove
          { s with stock := s.stock ++ s.waste.reverse.map (fun c => { c with faceUp := false }),
                   waste := [],
                   moves := s.moves ++ [Entry.recycle],
                   moveCount := s.moveCount + 1 }
      else s

/-- The click handler of `#waste`. -/
def onWasteClick (s : State) : State :=
  if s.paused then s
  else if s.waste.length != 0 && s.selected.isNone then
    select s ⟨PileKind.waste, 0, s.waste.length - 1⟩
  else s

/-- The click handler of the foundation pile element number `fIdx`. -/
def onFoundationClick (s : State) (fIdx : Nat) : State :=
  if s.paused || s.selected.isNone then s
  else if canPlaceOnFoundation (topCard (pileAt s.foundations fIdx)) (getSelectedTop s) then
    commitSelectedTo s PileKind.foundation fIdx
  else s

/-- The click handler of the tableau pile element number `tIdx`. -/
def onTableauClick (s : State) (tIdx : Nat) : State :=
  if s.paused || s.selected.isNone then s
  else if canPlaceOnTableau (topCard (pileAt s.tableau tIdx)) (getSelectedTop s) then
    commitSelectedTo s PileKind.tableau tIdx
  else s

/-- The inversion of one popped log entry in `undo`. -/
def undoEntry (s : State) : Entry → State
  | Entry.deal card =>
    match s.waste.findIdx? (fun c => c.id == card) with
    | none => s
    | some idx =>
      match splice s.waste idx 1 with
      | (c :: _, rest) => { s with waste := rest, stock := s.stock ++ [{ c with faceUp := false }] }
      | ([], _) => s
  | Entry.recycle =>
    let temp := s.stock.reverse
    { s with stock := [],
             waste := s.waste ++ temp.reverse.map (fun c => { c with faceUp := true }) }
  | Entry.move frm fromIndex _ dest toIndex count flippedOnSource =>
    let dst := destPile s dest toIndex
    let cut := splice dst ((dst.length : Int) - count) count
    let s1 := setDestPile s dest toIndex cut.2
    let s2 := setSourcePile s1 frm fromIndex (sourcePile s1 frm fromIndex ++ cut.1)
    if flippedOnSource && frm == PileKind.tableau then
      { s2 with tableau := s2.tableau.set fromIndex (setTopFaceUp false (pileAt s2.tableau fromIndex)) }
    else s2
  | Entry.flip t =>
    { s with tableau := s.tableau.set t (setTopFaceUp false (pileAt s.tableau t)) }

/-- Embeds `undo()`.  The counter is a natural number, so `moveCount - 1` stops at 0 as
`Math.max(0, state.moveCount - 1)` does. -/
def undo (s : State) : State :=
  if s.paused then s
  else
    match s.moves.getLast? with
    | none => s
    | some last =>
      let s1 := undoEntry { s with moves := s.moves.dropLast } last
      afterAnyMove (clearSelections { s1 with moveCount := s1.moveCount - 1 })

/-- The waste part of one pass of `autoMove`: the waste top goes to the first foundation
that takes it. -/
def autoWaste (s : State) : Option State :=
  match topCard s.waste with
  | none => none
  | some w =>
    match firstFoundation s (some w) with
    | some f => some (doMove s PileKind.waste 0 (s.waste.length - 1) PileKind.foundation f 1)
    | none => none

/-- The tableau part of one pass of `autoMove`, over the columns listed: the first column
whose top card some foundation takes gives the move. -/
def autoTableau (s : State) : List Nat → Option State
  | [] => none
  | t :: ts =>
    match topCard (pileAt s.tableau t) with
    | some tt =>
      match firstFoundation s (some tt) with
      | some f =>
        some (doMove s PileKind.tableau t ((pileAt s.tableau t).length - 1) PileKind.foundation f 1)
      | none => autoTableau s ts
    | none => autoTableau s ts

/-- One execution of the body of the `do ... while` loop of `autoMove`: the state after
the move when `moved` is true, `none` when the pass moved nothing. -/
def autoPass (s : State) : Option State :=
  match autoWaste s with
  | some s1 => some s1
  | none => autoTableau s (List.range 7)

/-- The loop `do { ... steps++ } while (moved && steps < 200)`, with `n` the number of
passes still allowed (`200 - steps`). -/
def autoLoop : Nat → State → State
  | 0, s => s
  | n + 1, s =>
    match autoPass s with
    | some s1 => if n = 0 then s1 else autoLoop n s1
    | none => s

/-- Embeds `autoMove()`. -/
def autoMove (s : State) : State :=
  if s.paused then s else afterAnyMove (autoLoop 200 s)

/-- The selection `sel` computed by `onCardPointerDown` for the card found at `loc`
(`null` is `none`): the top card of the waste or of a foundation, or a tableau run. -/
def pointerSelection (s : State) (loc : Loc) : Option Selection :=
  match loc.whr with
  | PileKind.waste =>
    if loc.iCard != s.waste.length - 1 then none
    else some ⟨PileKind.waste, 0, loc.iCard⟩
  | PileKind.foundation =>
    if loc.iCard != (pileAt s.foundations loc.idx).length - 1 then none
    else some ⟨PileKind.foundation, loc.idx, loc.iCard⟩
  | PileKind.tableau =>
    let moving := (pileAt s.tableau loc.idx).drop loc.iCard
    if !runOk moving && moving.length != 1 then none
    else some ⟨PileKind.tableau, loc.idx, loc.iCard⟩

/-- Embeds `onCardPointerDown(e)` with the left button on a node whose `data-id` is `cardId`; of
the drag record only its presence is kept. -/
def onCardPointerDown (s : State) (cardId : CardId) : State :=
  if s.paused then s
  else
    match findCard s cardId with
    | none => s
    | some loc =>
      match pointerSelection s loc with
      | none => s
      | some sel => { select s sel with drag := true }

/-- The drop of `onDragEnd` on the pile `target` names (`getDropTarget` returns a
foundation or tableau pile, or `null`). -/
def dropOn (s : State) (target : Option (PileKind × Nat)) : State :=
  match target with
  | none => s
  | some t =>
    if t.1 == PileKind.foundation
        && canPlaceOnFoundation (topCard (pileAt s.foundations t.2)) (getSelectedTop s) then
      commitSelectedTo s PileKind.foundation t.2
    else if t.1 == PileKind.tableau
        && canPlaceOnTableau (topCard (pileAt s.tableau t.2)) (getSelectedTop s) then
      commitSelectedTo s PileKind.tableau t.2
    else s

/-- Embeds `onDragEnd(e)`, with `target` the result of `getDropTarget`. -/
def onDragEnd (s : State) (target : Option (PileKind × Nat)) : State :=
  if !s.drag then s else { dropOn s target with drag := false }

/-- Embeds `setPaused(val)`, with `now` the value of `Date.now()` while the handler runs. -/
def setPaused (s : State) (val : Bool) (now : Int) : State :=
  if val = s.paused then s
  else if val then
    { stopTimer { s with pauseAt := now, paused := true } with winStatus := WinStatus.paused }
  else
    let delta : Int := if s.pauseAt ≠ 0 then now - s.pauseAt else 0
    checkWin (startTimer { s with startTs := s.startTs + delta, pauseAt := 0, paused := false } now)

/-- The inner loop `for (k = ...; k <= col; k++)` of `dealNewGame`, with `n` iterations
left: pop a card from the deck, set its face, push it on the column.  The deck never runs
out (52 cards, 28 dealt); on an empty deck the loop stops. -/
def dealColumn (col : Nat) : Nat → Nat → Pile → Pile → Pile × Pile
  | 0, _, deck, pile => (deck, pile)
  | n + 1, k, deck, pile =>
    match deck.getLast? with
    | some c => dealColumn col n (k + 1) deck.dropLast (pile ++ [{ c with faceUp := k == col }])
    | none => (deck, pile)

/-- The outer loop of `dealNewGame` over the columns listed. -/
def dealColumns : List Nat → Pile → List Pile → Pile × List Pile
  | [], deck, tab => (deck, tab)
  | col :: cols, deck, tab =>
    let r := dealColumn col (col + 1) 0 deck (pileAt tab col)
    dealColumns cols r.1 (tab.set col r.2)

/-- Embeds `dealNewGame()`, with `now` the clock and `tape` the random values of this call. -/
def dealNewGame (s : State) (now : Int) (tape : Tape) : State :=
  let s1 := stopTimer (setPaused s false now)
  let s2 := clearSelections
    { s1 with stock := [], waste := [], foundations := [[], [], [], []],
              tableau := [[], [], [], [], [], [], []], moves := [], moveCount := 0 }
  let r := dealColumns (List.range 7) (makeDeck tape) s2.tableau
  startTimer { s2 with tableau := r.2, stock := s2.stock ++ r.1.reverse,
                       winStatus := WinStatus.gameOn } now

/-! ## Events and reachable states -/

/-- The user gestures the page reacts to, with what the DOM supplies to the handler. -/
inductive Event where
  | stockClick
  | wasteClick
  | cardClick (cardId : CardId)
  | cardDoubleClick (cardId : CardId)
  | cardPointerDown (cardId : CardId)
  | dragEnd (target : Option (PileKind × Nat))
  | foundationClick (fIdx : Nat)
  | tableauClick (tIdx : Nat)
  | undo
  | autoMove
  | togglePause (now : Int)
  | newGame (now : Int) (tape : Tape)

/-- The function `cardNode` attaches the card handlers only to a node drawn face-up: `render` draws
every waste and foundation card face-up, a tableau card as it is, and no node for a stock
card.  This tells whether some node with `data-id = cardId` carries the handlers. -/
def hasListeners (s : State) (cardId : CardId) : Bool :=
  s.waste.any (fun c => c.id == cardId)
    || s.foundations.any (fun p => p.any fun c => c.id == cardId)
    || s.tableau.any (fun p => p.any fun c => c.faceUp && c.id == cardId)

/-- A drop target names one of the 4 foundation or 7 tableau pile elements. -/
def validTarget : Option (PileKind × Nat) → Bool
  | none => true
  | some (PileKind.foundation, i) => i < 4
  | some (PileKind.tableau, i) => i < 7
  | some (PileKind.waste, _) => false

/-- The effect of one event: the handler the page has registered for it.  An event the
page cannot deliver (a card node without handlers, a pile element that does not exist)
leaves the state as it is. -/
def step (s : State) : Event → State
  | Event.stockClick => onStockClick s
  | Event.wasteClick => onWasteClick s
  | Event.cardClick cardId => if hasListeners s cardId then onCardClick s cardId else s
  | Event.cardDoubleClick cardId => if hasListeners s cardId then onCardDoubleClick s cardId else s
  | Event.cardPointerDown cardId => if hasListeners s cardId then onCardPointerDown s cardId else s
  | Event.dragEnd target => if validTarget target then onDragEnd s target else s
  | Event.foundationClick fIdx => if fIdx < 4 then onFoundationClick s fIdx else s
  | Event.tableauClick tIdx => if tIdx < 7 then onTableauClick s tIdx else s
  | Event.undo => undo s
  | Event.autoMove => autoMove s
  | Event.togglePause now => setPaused s (!s.paused) now
  | Event.newGame now tape => dealNewGame s now tape

/-- The states of a session: the page boots with `dealNewGame()` on the initial `state`,
then handles events one after the other. -/
inductive Reachable : State → Prop where
  | boot (now : Int) (tape : Tape) : Reachable (dealNewGame initialState now tape)
  | step {s : State} (e : Event) : Reachable s → Reachable (step s e)

/-- Running a list of events in order. -/
def run (s : State) (es : List Event) : State := es.foldl step s

/-! ## Vocabulary of the properties -/

/-- The suit-rank pair printed on a card. -/
def Card.key (c : Card) : Suit × Int := (c.suit, c.rank)

/-- The 52 suit-rank pairs of a standard deck. -/
def standardDeck : List (Suit × Int) := SUITS.flatMap fun s => RANKS.map fun r => (s, r)

/-- All cards of a state: stock, waste, the foundations and the tableau columns. -/
def allCards (s : State) : Pile :=
  s.stock ++ s.waste ++ s.foundations.flatten ++ s.tableau.flatten

/-- How many cards of a pile carry the pair `k`. -/
def pileCount (k : Suit × Int) (p : Pile) : Nat := (p.map Card.key).count k

/-- How many cards of a list of piles carry the pair `k`. -/
def pilesCount (k : Suit × Int) (ps : List Pile) : Nat := (ps.map (pileCount k)).sum

/-- How many cards of a state carry the pair `k`. -/
def countAll (k : Suit × Int) (s : State) : Nat :=
  pileCount k s.stock + pileCount k s.waste + pilesCount k s.foundations + pilesCount k s.tableau

/-- The top card of the pile, if there is one, is face-up. -/
def topOk (p : Pile) : Bool :=
  match topCard p with
  | some c => c.faceUp
  | none => true

/-- Every non-empty tableau pile has a face-up top card. -/
def TopsFaceUp (s : State) : Prop := ∀ p ∈ s.tableau, topOk p = true

/-- The cards `cs` continue a same-suit run upwards from `prev`, one rank at a time. -/
def ascendsFrom (prev : Card) : Pile → Bool
  | [] => true
  | c :: cs => c.suit == prev.suit && c.rank == prev.rank + 1 && ascendsFrom c cs

/-- A foundation pile as the rules want it: empty, or a same-suit run that starts with
rank 1 at the bottom and goes up by exactly 1. -/
def foundationRun : Pile → Bool
  | [] => true
  | c :: cs => c.rank == 1 && ascendsFrom c cs

/-- Every foundation pile of the state is a `foundationRun`. -/
def FoundationsOk (s : State) : Prop := ∀ p ∈ s.foundations, foundationRun p = true

/-- A pile reference `(kind, index)` names an existing pile. -/
def pileRefOk : PileKind → Nat → Bool
  | PileKind.waste, _ => true
  | PileKind.tableau, i => i < 7
  | PileKind.foundation, i => i < 4

/-- A destination reference names an existing pile, read the way `doMove` reads it. -/
def destRefOk (dest : PileKind) (i : Nat) : Bool :=
  if dest = PileKind.foundation then i < 4 else i < 7

/-- The pile references of a log entry name existing piles. -/
def entryOk : Entry → Bool
  | Entry.move frm fromIndex _ dest toIndex _ _ => pileRefOk frm fromIndex && destRefOk dest toIndex
  | _ => true

/-- The state is well formed: four foundations and seven columns, the selection and the
log refer to existing piles, and every suit-rank pair is on exactly as many cards as in
the standard deck. -/
structure Wf (s : State) : Prop where
  nFound : s.foundations.length = 4
  nTab : s.tableau.length = 7
  selOk : ∀ sel, s.selected = some sel → pileRefOk sel.frm sel.index = true
  logOk : ∀ e ∈ s.moves, entryOk e = true
  cards : ∀ k, countAll k s = standardDeck.count k

/-- What every reachable state satisfies: it is well formed and its tableau tops are
face-up. -/
structure Inv (s : State) : Prop where
  wf : Wf s
  tops : TopsFaceUp s

/-- The pile contents, face-up flags and move counter of a state. -/
def board (s : State) : Pile × Pile × List Pile × List Pile × Nat :=
  (s.stock, s.waste, s.foundations, s.tableau, s.moveCount)


/-! ## Concrete sessions -/

/-- A random source whose every value is 0: each shuffle swap takes index 0 and every id
nonce is the empty string. -/
def zeroTape : Tape :=
  { nonce := fun _ => "", pick := fun _ => ⟨0, 0, by decide, by decide, by decide⟩ }

/-- The double `0.95`, that is `8556839292003942 / 2 ^ 53`. -/
def ninetyFive : Rnd := ⟨8556839292003942, 53, by decide, by decide, by decide⟩

/-- The double `0.6666666666666666`, that is `6004799503160661 / 2 ^ 53`: three times
this value is `3 - 2 ^ -53`, which lies halfway between the doubles `2 - 2 ^ -52` and
`2`. -/
def twoThirds : Rnd := ⟨6004799503160661, 53, by decide, by decide, by decide⟩

/-- A random source that returns 0 in the shuffle iterations `i = 51, ..., 13` and `0.95`
in the iterations `i = 12, ..., 1` (where the swap index is then `i` itself); the deck it
gives has A♥ on top of the stock and 2♠ below it. -/
def aceTape : Tape :=
  { nonce := fun _ => "",
    pick := fun k => if k < 39 then ⟨0, 0, by decide, by decide, by decide⟩ else ninetyFive }

/-- The state after booting with `zeroTape`: the tableau tops are A♠, Q♣, 9♣, 5♣, K♦, 7♦,
K♥ and the stock has 2♠ on top. -/
def zeroGame : State := dealNewGame initialState 0 zeroTape

/-- The state after booting with `aceTape`. -/
def aceGame : State := dealNewGame initialState 0 aceTape

/-- Select Q♣ on column 1 by a click, then click K♦ on column 4: the Queen moves onto
the King and uncovers the face-down K♣.  Each card click is followed by the click the
page delivers to the pile element under the card. -/
def queenOntoKing : List Event :=
  [Event.cardClick ⟨Suit.clubs, 12, ""⟩, Event.tableauClick 1,
   Event.cardClick ⟨Suit.diamonds, 13, ""⟩, Event.tableauClick 4]

/-- Draw A♥, select it on the waste by a click, draw 2♠ on top of it, then click the empty
foundation 0. -/
def aceThenDraw : List Event :=
  [Event.stockClick, Event.cardClick ⟨Suit.hearts, 1, ""⟩, Event.wasteClick, Event.stockClick,
   Event.foundationClick 0]

/-! ## Vocabulary of the later properties -/

/-- The elapsed time, in milliseconds, that the interval callback of `startTimer` turns
into the display: `Date.now() - state.startTs`. -/
def elapsedMs (s : State) (now : Int) : Int := now - s.startTs

/-- The test the click and drop handlers run on the pile `(kind, idx)` before they commit
a selection whose first card is `moving` there: `canPlaceOnFoundation` or
`canPlaceOnTableau` on the top of that pile and `moving`.  The waste is never a
destination. -/
def legalOn (s : State) (kind : PileKind) (idx : Nat) (moving : Option Card) : Bool :=
  match kind with
  | PileKind.foundation => canPlaceOnFoundation (topCard (pileAt s.foundations idx)) moving
  | PileKind.tableau => canPlaceOnTableau (topCard (pileAt s.tableau idx)) moving
  | PileKind.waste => false

/-- The first card of a selection: `arr[start]` in the selected pile, if there is one. -/
def selectionFirst (s : State) (sel : Selection) : Option Card :=
  (sourcePile s sel.frm sel.index)[sel.start]?

/-- No top card can go to a foundation: neither the waste top nor the top of any tableau
column passes `canPlaceOnFoundation` on any of the four foundations. -/
def NothingPlayable (s : State) : Prop :=
  (∀ f, f < 4 →
    canPlaceOnFoundation (topCard (pileAt s.foundations f)) (topCard s.waste) = false)
  ∧ (∀ t, t < 7 → ∀ f, f < 4 →
    canPlaceOnFoundation (topCard (pileAt s.foundations f)) (topCard (pileAt s.tableau t)) = false)

/-- The game `zeroGame` paused at time 10. -/
def pausedGame : State := step zeroGame (Event.togglePause 10)

/-- The game `zeroGame` after a click on Q♣ (top of column 1) has selected it. -/
def queenSelected : State :=
  run zeroGame [Event.cardClick ⟨Suit.clubs, 12, ""⟩, Event.tableauClick 1]

/-- The game `zeroGame` after `autoMove` has sent A♠ to a foundation. -/
def aceHome : State := step zeroGame Event.autoMove

/-- The game `zeroGame` after A♠ has gone to a foundation (column 0 is empty), Q♣ has
been moved onto K♦ in column 4, and a click on K♦ has selected the run K♦, Q♣ that
starts at offset 4 of column 4, above the face-down A♣. -/
def kingRunSelected : State :=
  run zeroGame (Event.autoMove :: queenOntoKing
    ++ [Event.cardClick ⟨Suit.diamonds, 13, ""⟩, Event.tableauClick 4])

/-- The game `aceGame` after A♥ has been drawn and selected on the waste and 2♠ has been
drawn on top of it: the first four events of `aceThenDraw`. -/
def aceSelectedThenDraw : State :=
  run aceGame [Event.stockClick, Event.cardClick ⟨Suit.hearts, 1, ""⟩, Event.wasteClick,
    Event.stockClick]

/-! ## Vocabulary of the stock cycle and of `autoMove` -/

/-- Every card of the stock is face-down. -/
def StockDown (s : State) : Prop := ∀ c ∈ s.stock, c.faceUp = false

/-- The event list of `n` consecutive clicks on the stock. -/
def stockClicks (n : Nat) : List Event := List.replicate n Event.stockClick

/-- The state after `k` passes of the loop of `autoMove` that each made a move, if the
first `k` passes from `s` all do. -/
def autoPasses : Nat → State → Option State
  | 0, s => some s
  | k + 1, s =>
    match autoPass s with
    | some s1 => autoPasses k s1
    | none => none

/-- How many cards lie on the foundations. -/
def onFoundations (s : State) : Nat := s.foundations.flatten.length

/-- The pass of `autoMove` from `a` to `b` moves the top card `c` of the waste, or of a
tableau column, to a foundation `f` that accepts it: `b` is the result of `doMove` for the
last index of the source with count 1, and foundation `f` gains `c`. -/
def TopCardToFoundation (a b : State) : Prop :=
  ∃ (c : Card) (f : Nat), f < 4
    ∧ canPlaceOnFoundation (topCard (pileAt a.foundations f)) (some c) = true
    ∧ b.foundations = a.foundations.set f (pileAt a.foundations f ++ [c])
    ∧ ((topCard a.waste = some c
        ∧ b = doMove a PileKind.waste 0 (a.waste.length - 1) PileKind.foundation f 1
        ∧ b.waste = a.waste.dropLast)
      ∨ ∃ t, t < 7 ∧ topCard (pileAt a.tableau t) = some c
        ∧ b = doMove a PileKind.tableau t ((pileAt a.tableau t).length - 1)
            PileKind.foundation f 1
        ∧ (pileAt b.tableau t).map Card.id = ((pileAt a.tableau t).dropLast).map Card.id)

/-- The game `zeroGame` after its 24 stock cards have been drawn: the stock is empty and
the waste holds 2♠ (bottom) up to Q♥ (top). -/
def allDrawn : State := run zeroGame (stockClicks 24)

/-- The game `aceHome` (A♠ on foundation 0) after 2♠ and 3♠ have been drawn: the waste is
2♠, 3♠, and the foundation accepts 2♠, which is not the waste top.  The two clicks that
precede a double-click on the 2♠ node are included, each followed by the click the page
delivers to the waste element. -/
def twoUnderThree : State :=
  run aceHome [Event.stockClick, Event.stockClick,
    Event.cardClick ⟨Suit.spades, 2, ""⟩, Event.wasteClick,
    Event.cardClick ⟨Suit.spades, 2, ""⟩, Event.wasteClick]

/-! ## Sessions for the click and the win properties -/

/-- The game `aceGame` after this play: `autoMove` sends A♠ to foundation 0; three stock
clicks draw A♥, 2♠, 3♠; a double-click on the 2♠ node (its two clicks first, each followed
by the click the page delivers to the waste element) sends 2♠ from the middle of the waste
onto A♠; `undo` pushes 2♠ back at the end of the waste, which is now A♥, 3♠, 2♠; a click
on A♥ selects it and a click on the empty foundation 1 moves the three cards there; a
click on Q♣, the top of column 1, selects it.  Foundation 1 holds A♥, 3♠, 2♠ and Q♣ is
the selection. -/
def queenOverBrokenPile : State :=
  run aceGame
    [Event.autoMove, Event.stockClick, Event.stockClick, Event.stockClick,
     Event.cardClick ⟨Suit.spades, 2, ""⟩, Event.wasteClick,
     Event.cardClick ⟨Suit.spades, 2, ""⟩, Event.wasteClick,
     Event.cardDoubleClick ⟨Suit.spades, 2, ""⟩,
     Event.undo,
     Event.cardClick ⟨Suit.hearts, 1, ""⟩, Event.wasteClick, Event.foundationClick 1,
     Event.cardClick ⟨Suit.clubs, 12, ""⟩, Event.tableauClick 1]

/-- The `click` event of one mouse click on the node of `cardId` inside foundation pile
`fIdx`: the handler of the card node runs first, then, as the event bubbles, the click
handler of the pile element that contains the node. -/
def clickOnFoundationCard (cardId : CardId) (fIdx : Nat) : List Event :=
  [Event.cardClick cardId, Event.foundationClick fIdx]

/-- A play that wins `zeroGame`: `autoMove` sends A♠ home; K♦ goes from column 4 to the
empty column 0 and `autoMove` sends all clubs home; K♥ goes from column 6 to the empty
column 1 and `autoMove` sends all diamonds home; then each of the 24 stock cards (2♠ to
K♠, A♥ to Q♥) is drawn and sent home by `autoMove`, the last one followed by K♥. -/
def winningPlay : List Event :=
  [Event.autoMove,
   Event.cardClick ⟨Suit.diamonds, 13, ""⟩, Event.tableauClick 4, Event.tableauClick 0,
   Event.autoMove,
   Event.cardClick ⟨Suit.hearts, 13, ""⟩, Event.tableauClick 6, Event.tableauClick 1,
   Event.autoMove]
  ++ (List.replicate 24 [Event.stockClick, Event.autoMove]).flatten

/-- The game `zeroGame` after `winningPlay`: all 52 cards are on the foundations. -/
def wonGame : State := run zeroGame winningPlay

/-! ## Rule predicates -/

/-- C1. `canPlaceOnFoundation` is true exactly when the destination is empty and the moving
card is an Ace, or the destination top has the moving card's suit and the rank just
below; a 5 on an empty foundation is refused, 2♠ on A♠ accepted, 2♥ on A♠ refused. -/
theorem canPlaceOnFoundation_spec :
    (∀ (destTop : Option Card) (moving : Card),
      canPlaceOnFoundation destTop (some moving) = true ↔
        (destTop = none ∧ moving.rank = 1) ∨
        (∃ d, destTop = some d ∧ moving.suit = d.suit ∧ moving.rank = d.rank + 1))
    ∧ (∀ c : Card, canPlaceOnFoundation none (some { c with rank := 5 }) = false)
    ∧ (∀ (i j : CardId) (a b : Bool),
        canPlaceOnFoundation (some ⟨i, Suit.spades, 1, a⟩) (some ⟨j, Suit.spades, 2, b⟩) = true)
    ∧ (∀ (i j : CardId) (a b : Bool),
        canPlaceOnFoundation (some ⟨i, Suit.spades, 1, a⟩) (some ⟨j, Suit.hearts, 2, b⟩) = false) := by
  refine ⟨?_, ?_, ?_, ?_⟩
  · intro destTop moving
    cases destTop with
    | none => simp [canPlaceOnFoundation]
    | some d => simp [canPlaceOnFoundation]
  · intro c; simp [canPlaceOnFoundation]
  · intro i j a b; simp [canPlaceOnFoundation]
  · intro i j a b; simp [canPlaceOnFoundation]

/-- C2. `canPlaceOnTableau` is true exactly when the destination is empty and the moving
card is a King, or the destination top has the other colour and the rank just above; a
Queen on an empty column is refused, a King accepted. -/
theorem canPlaceOnTableau_spec :
    (∀ (destTop : Option Card) (moving : Card),
      canPlaceOnTableau destTop (some moving) = true ↔
        (destTop = none ∧ moving.rank = 13) ∨
        (∃ d, destTop = some d ∧ COLORS d.suit ≠ COLORS moving.suit ∧ moving.rank = d.rank - 1))
    ∧ (∀ c : Card, canPlaceOnTableau none (some { c with rank := 12 }) = false)
    ∧ (∀ c : Card, canPlaceOnTableau none (some { c with rank := 13 }) = true)
    ∧ COLORS Suit.spades = Color.black ∧ COLORS Suit.clubs = Color.black
    ∧ COLORS Suit.hearts = Color.red ∧ COLORS Suit.diamonds = Color.red := by
  refine ⟨?_, ?_, ?_, rfl, rfl, rfl, rfl⟩
  · intro destTop moving
    cases destTop with
    | none => simp [canPlaceOnTableau]
    | some d => simp [canPlaceOnTableau]
  · intro c; simp [canPlaceOnTableau]
  · intro c; simp [canPlaceOnTableau]

/-! ## Lists of a known length -/

theorem forall_length_succ {α : Type} {P : List α → Prop} {n : Nat} :
    (∀ l : List α, l.length = n + 1 → P l) ↔ ∀ (a : α) (t : List α), t.length = n → P (a :: t) := by
  constructor
  · intro h a t ht
    exact h (a :: t) (by simp [ht])
  · intro h l hl
    cases l with
    | nil => simp at hl
    | cons a t => exact h a t (by simpa using hl)

theorem forall_length_zero {α : Type} {P : List α → Prop} :
    (∀ l : List α, l.length = 0 → P l) ↔ P [] := by
  constructor
  · intro h; exact h [] rfl
  · intro h l hl
    rw [List.eq_nil_of_length_eq_zero hl]; exact h

/-! ## Counting cards -/

theorem pileCount_append (k : Suit × Int) (p q : Pile) :
    pileCount k (p ++ q) = pileCount k p + pileCount k q := by
  simp [pileCount]

theorem pileCount_nil (k : Suit × Int) : pileCount k [] = 0 := rfl

theorem pileCount_reverse (k : Suit × Int) (p : Pile) : pileCount k p.reverse = pileCount k p := by
  simp [pileCount]

theorem pileCount_setFace (k : Suit × Int) (b : Bool) (p : Pile) :
    pileCount k (p.map fun c => { c with faceUp := b }) = pileCount k p := by
  simp only [pileCount, List.map_map]
  rfl

theorem key_setTopFaceUp (b : Bool) : ∀ p : Pile, (setTopFaceUp b p).map Card.key = p.map Card.key
  | [] => rfl
  | [c] => rfl
  | c :: d :: cs => by
    simp only [setTopFaceUp, List.map_cons, key_setTopFaceUp b (d :: cs)]

theorem pileCount_setTopFaceUp (k : Suit × Int) (b : Bool) (p : Pile) :
    pileCount k (setTopFaceUp b p) = pileCount k p := by
  simp [pileCount, key_setTopFaceUp]

theorem pileCount_take_drop (k : Suit × Int) (p : Pile) (n : Nat) :
    pileCount k (p.take n) + pileCount k (p.drop n) = pileCount k p := by
  rw [← pileCount_append, List.take_append_drop]

theorem pileCount_splice (k : Suit × Int) (l : Pile) (a c : Int) :
    pileCount k (splice l a c).1 + pileCount k (splice l a c).2 = pileCount k l := by
  simp only [splice, pileCount_append]
  generalize (if a < 0 then max ((l.length : Int) + a) 0 else min a l.length).toNat = i
  generalize (min (max c 0) ((l.length : Int) - i)).toNat = n
  have h1 := pileCount_take_drop k l i
  have h2 := pileCount_take_drop k (l.drop i) n
  rw [List.drop_drop] at h2
  omega

theorem pilesCount_set (k : Suit × Int) (p : Pile) :
    ∀ (ps : List Pile) (i : Nat), i < ps.length →
      pilesCount k (ps.set i p) + pileCount k (pileAt ps i) = pilesCount k ps + pileCount k p
  | [], i, h => by simp at h
  | q :: qs, 0, _ => by
    simp [pilesCount, pileAt]; omega
  | q :: qs, i + 1, h => by
    have ih := pilesCount_set k p qs i (by simpa using h)
    simp [pilesCount, pileAt] at ih ⊢
    omega

theorem pileAt_of_le (ps : List Pile) (i : Nat) (h : ps.length ≤ i) : pileAt ps i = [] := by
  simp [pileAt, List.getElem?_eq_none h]

theorem pileAt_mem (ps : List Pile) (i : Nat) (h : i < ps.length) : pileAt ps i ∈ ps := by
  simp [pileAt, List.getElem?_eq_getElem h]

theorem pileAt_set_self (ps : List Pile) (i : Nat) (p : Pile) (h : i < ps.length) :
    pileAt (ps.set i p) i = p := by
  simp [pileAt, h]

theorem pilesCount_set_key (k : Suit × Int) (ps : List Pile) (i : Nat) (p : Pile)
    (hp : pileCount k p = pileCount k (pileAt ps i)) : pilesCount k (ps.set i p) = pilesCount k ps := by
  by_cases h : i < ps.length
  · have := pilesCount_set k p ps i h
    omega
  · rw [List.set_eq_of_length_le (by omega)]

theorem pileCount_flatten (k : Suit × Int) (ps : List Pile) :
    pileCount k ps.flatten = pilesCount k ps := by
  induction ps with
  | nil => rfl
  | cons p ps ih => simp [pilesCount, pileCount_append, ih] at *

theorem count_allCards (k : Suit × Int) (s : State) :
    ((allCards s).map Card.key).count k = countAll k s := by
  have h := pileCount_append k
  simp only [pileCount] at h
  simp only [allCards, countAll, h]
  simp only [← pileCount_flatten, pileCount]

/-! ## Face-up tops -/

theorem topCard_setTopFaceUp (b : Bool) :
    ∀ p : Pile, topCard (setTopFaceUp b p) = (topCard p).map fun c => { c with faceUp := b }
  | [] => rfl
  | [c] => rfl
  | c :: d :: cs => by
    have ih := topCard_setTopFaceUp b (d :: cs)
    cases h : setTopFaceUp b (d :: cs) with
    | nil => cases cs <;> simp [setTopFaceUp] at h
    | cons x xs =>
      simp only [topCard, setTopFaceUp, h, List.getLast?_cons_cons] at ih ⊢
      exact ih

theorem topOk_setTopFaceUp (p : Pile) : topOk (setTopFaceUp true p) = true := by
  simp only [topOk, topCard_setTopFaceUp]
  cases topCard p <;> simp

theorem setTopFaceUp_of_topOk : ∀ p : Pile, topOk p = true → setTopFaceUp true p = p
  | [], _ => rfl
  | [c], h => by
    simp [topOk, topCard] at h
    simp [setTopFaceUp, ← h]
  | c :: d :: cs, h => by
    have : topOk (d :: cs) = true := by simpa [topOk, topCard] using h
    simp [setTopFaceUp, setTopFaceUp_of_topOk (d :: cs) this]

/-! ## Deck factory -/

/-- With enough halvings allowed, `excessBits` is the shift that leaves a 53-bit
significand: `p < 2 ^ (53 + s)`, and `2 ^ (52 + s) ≤ p` unless `s = 0`. -/
theorem excessBits_spec : ∀ (fuel p : Nat), p < 2 ^ 53 * 2 ^ fuel →
    p < 2 ^ 53 * 2 ^ excessBits fuel p
    ∧ (excessBits fuel p ≠ 0 → 2 ^ 52 * 2 ^ excessBits fuel p ≤ p)
  | 0, p, h => by
    simp only [excessBits, pow_zero, Nat.mul_one, ne_eq, not_true_eq_false, false_implies,
      and_true]
    simpa using h
  | fuel + 1, p, h => by
    unfold excessBits
    split
    · next hp =>
      simp only [pow_zero, Nat.mul_one, ne_eq, not_true_eq_false, false_implies, and_true]
      exact hp
    · next hp =>
      have hf : 2 ^ (fuel + 1) = 2 ^ fuel * 2 := pow_succ _ _
      have h2 : p / 2 < 2 ^ 53 * 2 ^ fuel := by
        rw [hf] at h
        omega
      obtain ⟨ih1, ih2⟩ := excessBits_spec fuel (p / 2) h2
      have hs : 2 ^ (excessBits fuel (p / 2) + 1) = 2 ^ excessBits fuel (p / 2) * 2 :=
        pow_succ _ _
      rw [hs]
      refine ⟨by omega, fun _ => ?_⟩
      by_cases h0 : excessBits fuel (p / 2) = 0
      · have h1 : 2 ^ excessBits fuel (p / 2) = 1 := by rw [h0]; rfl
        omega
      · have := ih2 h0
        omega

/-- The rounded product is a multiple of `2 ^ s` within half of `2 ^ s` of the exact
product, and on a tie the multiplier is even. -/
theorem roundToDouble_near (fuel p : Nat) :
    ∃ k, roundToDouble fuel p = k * 2 ^ excessBits fuel p
      ∧ 2 * roundToDouble fuel p ≤ 2 * p + 2 ^ excessBits fuel p
      ∧ 2 * p ≤ 2 * roundToDouble fuel p + 2 ^ excessBits fuel p
      ∧ (2 * p = 2 * roundToDouble fuel p + 2 ^ excessBits fuel p
          ∨ 2 * roundToDouble fuel p = 2 * p + 2 ^ excessBits fuel p → k % 2 = 0)
      ∧ (k = p / 2 ^ excessBits fuel p ∨ k = p / 2 ^ excessBits fuel p + 1) := by
  have hS : 0 < 2 ^ excessBits fuel p := Nat.two_pow_pos _
  have hdm := Nat.div_add_mod p (2 ^ excessBits fuel p)
  have hr := Nat.mod_lt p hS
  have hc : 2 ^ excessBits fuel p * (p / 2 ^ excessBits fuel p)
      = p / 2 ^ excessBits fuel p * 2 ^ excessBits fuel p := Nat.mul_comm _ _
  have hsucc : (p / 2 ^ excessBits fuel p + 1) * 2 ^ excessBits fuel p
      = p / 2 ^ excessBits fuel p * 2 ^ excessBits fuel p + 2 ^ excessBits fuel p :=
    Nat.succ_mul _ _
  unfold roundToDouble
  simp only
  split
  · exact ⟨p / 2 ^ excessBits fuel p, rfl, by omega, by omega, by omega, Or.inl rfl⟩
  · split
    · next h1 h2 =>
      exact ⟨p / 2 ^ excessBits fuel p, rfl, by omega, by omega, fun _ => h2.2, Or.inl rfl⟩
    · next h1 h2 =>
      refine ⟨p / 2 ^ excessBits fuel p + 1, rfl, by omega, by omega, ?_, Or.inr rfl⟩
      intro h3
      have h4 : 2 * (p % 2 ^ excessBits fuel p) = 2 ^ excessBits fuel p := by omega
      have h5 : ¬ (p / 2 ^ excessBits fuel p) % 2 = 0 := fun h6 => h2 ⟨h4, h6⟩
      omega

/-- A value that already fits 53 bits is not changed by the rounding. -/
theorem roundToDouble_exact (fuel p : Nat) (h : p < 2 ^ 53) : roundToDouble fuel p = p := by
  have h0 : excessBits fuel p = 0 := by
    cases fuel with
    | zero => rfl
    | succ n => simp only [excessBits, h, if_true]
  simp [roundToDouble, h0, Nat.mod_one]

/-- The fuel `i + 1` that `randIndex` passes covers the product of a 53-bit significand
with `i + 1`. -/
theorem product_fuel (r : Rnd) (i : Nat) : r.man * (i + 1) < 2 ^ 53 * 2 ^ (i + 1) := by
  have hm := r.man_lt
  have hp : r.man * (i + 1) < 2 ^ 53 * (i + 1) := Nat.mul_lt_mul_of_pos_right hm (by omega)
  have hn : i + 1 < 2 ^ (i + 1) := Nat.lt_two_pow (i + 1)
  have : 2 ^ 53 * (i + 1) < 2 ^ 53 * 2 ^ (i + 1) :=
    Nat.mul_lt_mul_of_pos_left hn (by decide)
  omega

/-- The rounded product `Math.random() * (i + 1)` is below `i + 1`, so its integer part is
at most `i`: rounding to nearest cannot reach `i + 1`. -/
theorem randIndex_le (r : Rnd) (i : Nat) : randIndex r i ≤ i := by
  have hm := r.man_lt
  have he := r.lt_one
  have hE : 0 < 2 ^ r.exp := Nat.two_pow_pos _
  have hp : r.man * (i + 1) < 2 ^ 53 * (i + 1) := Nat.mul_lt_mul_of_pos_right hm (by omega)
  obtain ⟨s1, s2⟩ := excessBits_spec (i + 1) (r.man * (i + 1)) (product_fuel r i)
  obtain ⟨k, _, hup, _, _, _⟩ := roundToDouble_near (i + 1) (r.man * (i + 1))
  have hpe : (r.man + 1) * (i + 1) ≤ 2 ^ r.exp * (i + 1) := Nat.mul_le_mul_right _ he
  rw [Nat.succ_mul] at hpe
  have hlt : roundToDouble (i + 1) (r.man * (i + 1)) < (i + 1) * 2 ^ r.exp := by
    rw [Nat.mul_comm (i + 1)]
    by_cases h0 : excessBits (i + 1) (r.man * (i + 1)) = 0
    · rw [h0] at hup
      simp only [pow_zero] at hup
      omega
    · have := s2 h0
      omega
  have : randIndex r i < i + 1 := by
    unfold randIndex
    rw [Nat.div_lt_iff_lt_mul hE]
    exact hlt
  omega

/-- The product computed by `randIndex` is a correctly rounded double: a significand `k`
of at most 53 bits (`2 ^ 53` itself is the next power of two) times `2 ^ s`, normalised
when `s ≠ 0`, within half a unit `2 ^ s` of the exact product, even on a tie, and the
exact product when that fits 53 bits. -/
theorem product_rounded (r : Rnd) (i : Nat) :
    ∃ k, roundToDouble (i + 1) (r.man * (i + 1))
          = k * 2 ^ excessBits (i + 1) (r.man * (i + 1))
      ∧ k ≤ 2 ^ 53
      ∧ (excessBits (i + 1) (r.man * (i + 1)) ≠ 0 → 2 ^ 52 ≤ k)
      ∧ 2 * roundToDouble (i + 1) (r.man * (i + 1))
          ≤ 2 * (r.man * (i + 1)) + 2 ^ excessBits (i + 1) (r.man * (i + 1))
      ∧ 2 * (r.man * (i + 1))
          ≤ 2 * roundToDouble (i + 1) (r.man * (i + 1)) + 2 ^ excessBits (i + 1) (r.man * (i + 1))
      ∧ (2 * (r.man * (i + 1))
            = 2 * roundToDouble (i + 1) (r.man * (i + 1))
              + 2 ^ excessBits (i + 1) (r.man * (i + 1))
          ∨ 2 * roundToDouble (i + 1) (r.man * (i + 1))
            = 2 * (r.man * (i + 1)) + 2 ^ excessBits (i + 1) (r.man * (i + 1))
          → k % 2 = 0)
      ∧ (r.man * (i + 1) < 2 ^ 53
          → roundToDouble (i + 1) (r.man * (i + 1)) = r.man * (i + 1)) := by
  have hS : 0 < 2 ^ excessBits (i + 1) (r.man * (i + 1)) := Nat.two_pow_pos _
  obtain ⟨s1, s2⟩ := excessBits_spec (i + 1) (r.man * (i + 1)) (product_fuel r i)
  obtain ⟨k, k1, k2, k3, k4, k5⟩ := roundToDouble_near (i + 1) (r.man * (i + 1))
  have hq : r.man * (i + 1) / 2 ^ excessBits (i + 1) (r.man * (i + 1)) < 2 ^ 53 :=
    (Nat.div_lt_iff_lt_mul hS).mpr s1
  refine ⟨k, k1, ?_, ?_, k2, k3, k4, roundToDouble_exact _ _⟩
  · rcases k5 with h | h <;> omega
  · intro h0
    have hq2 : 2 ^ 52 ≤ r.man * (i + 1) / 2 ^ excessBits (i + 1) (r.man * (i + 1)) :=
      (Nat.le_div_iff_mul_le hS).mpr (s2 h0)
    rcases k5 with h | h <;> omega

theorem cons_set_perm {α : Type} (x b : α) :
    ∀ (xs : List α) (j : Nat), xs[j]? = some b → (b :: xs.set j x).Perm (x :: xs)
  | [], j, h => by simp at h
  | y :: t, 0, h => by
    simp at h; subst h
    simpa using List.Perm.swap x y t
  | y :: t, j + 1, h => by
    simp at h
    have ih := cons_set_perm x b t j h
    simp only [List.set_cons_succ]
    exact (List.Perm.swap y b _).trans (((ih.cons y)).trans (List.Perm.swap x y t))

theorem set_set_perm_of_getElem? {α : Type} :
    ∀ (l : List α) (i j : Nat) (a b : α), l[i]? = some a → l[j]? = some b →
      ((l.set i b).set j a).Perm l
  | [], i, j, a, b, hi, _ => by simp at hi
  | x :: xs, 0, 0, a, b, hi, hj => by
    simp at hi hj; subst hi; subst hj; simp
  | x :: xs, 0, j + 1, a, b, hi, hj => by
    simp at hi hj; subst hi
    simpa using cons_set_perm x b xs j hj
  | x :: xs, i + 1, 0, a, b, hi, hj => by
    simp at hi hj; subst hj
    simpa using cons_set_perm x a xs i hi
  | x :: xs, i + 1, j + 1, a, b, hi, hj => by
    simp at hi hj
    simpa using (set_set_perm_of_getElem? xs i j a b hi hj).cons x

theorem swapAt_perm (deck : Pile) (i j : Nat) : (swapAt deck i j).Perm deck := by
  unfold swapAt
  split
  · next a b hi hj => exact set_set_perm_of_getElem? deck i j a b hi hj
  · exact List.Perm.refl _

theorem shuffleFrom_perm (pick : Nat → Rnd) :
    ∀ (n k : Nat) (deck : Pile), (shuffleFrom pick n k deck).Perm deck
  | 0, _, _ => List.Perm.refl _
  | n + 1, k, deck => (shuffleFrom_perm pick n (k + 1) _).trans (swapAt_perm deck _ _)

theorem makeDeck_perm (tape : Tape) : (makeDeck tape).Perm (freshDeck tape.nonce) :=
  shuffleFrom_perm _ _ _ _

theorem freshDeck_key (nonce : Nat → String) : (freshDeck nonce).map Card.key = standardDeck := by
  simp [freshDeck, standardDeck, SUITS, RANKS, List.enum, List.enumFrom, Card.key]

theorem freshDeck_faceUp (nonce : Nat → String) :
    (freshDeck nonce).map Card.faceUp = List.replicate 52 false := by
  simp [freshDeck, SUITS, RANKS, List.enum, List.enumFrom]

theorem freshDeck_length (nonce : Nat → String) : (freshDeck nonce).length = 52 := by
  have := congrArg List.length (freshDeck_faceUp nonce)
  simpa using this

theorem standardDeck_nodup : standardDeck.Nodup := by decide

theorem mem_standardDeck (s : Suit) (r : Int) : (s, r) ∈ standardDeck ↔ 1 ≤ r ∧ r ≤ 13 := by
  cases s <;> simp [standardDeck, SUITS, RANKS] <;> omega

theorem makeDeck_length (tape : Tape) : (makeDeck tape).length = 52 := by
  rw [(makeDeck_perm tape).length_eq, freshDeck_length]

theorem makeDeck_all_faceDown (tape : Tape) : ∀ c ∈ makeDeck tape, c.faceUp = false := by
  intro c hc
  have hc2 : c ∈ freshDeck tape.nonce := (makeDeck_perm tape).mem_iff.mp hc
  have : c.faceUp ∈ (freshDeck tape.nonce).map Card.faceUp := List.mem_map_of_mem _ hc2
  rw [freshDeck_faceUp] at this
  simpa using this

theorem makeDeck_faceUp (tape : Tape) :
    (makeDeck tape).map Card.faceUp = List.replicate 52 false := by
  rw [List.eq_replicate_iff]
  refine ⟨by simp [makeDeck_length], ?_⟩
  intro b hb
  obtain ⟨c, hc, rfl⟩ := List.mem_map.mp hb
  exact makeDeck_all_faceDown tape c hc

/-- Every swap of the shuffle loop of `makeDeck` exchanges two positions of the deck:
both indices are inside the array at each iteration. -/
theorem shuffle_indices_in_range (pick : Nat → Rnd) (i k : Nat) (deck : Pile)
    (h : i < deck.length) :
    ∃ a b, deck[i]? = some a ∧ deck[randIndex (pick k) i]? = some b := by
  have hj : randIndex (pick k) i < deck.length := lt_of_le_of_lt (randIndex_le _ _) h
  exact ⟨deck[i], deck[randIndex (pick k) i], by simp [h], by simp [hj]⟩

set_option maxRecDepth 100000 in
/-- C8. Whatever doubles in `[0, 1)` the random source returns, `makeDeck` yields 52 cards
that are a permutation of the ordered deck, carry each suit-rank pair exactly once and are
all face-down.  Each swap index `j`, the integer part of the double product
`Math.random() * (i + 1)` rounded to nearest, satisfies `j ≤ i`, so each swap exchanges two
positions inside the array.  The product is rounded as IEEE 754 does: at
`0.6666666666666666` and `i = 2` the index is 2, where the exact product would give 1. -/
theorem makeDeck_spec (tape : Tape) :
    (makeDeck tape).length = 52
    ∧ (makeDeck tape).Perm (freshDeck tape.nonce)
    ∧ ((makeDeck tape).map Card.key).Perm standardDeck
    ∧ standardDeck.Nodup ∧ standardDeck.length = 52
    ∧ (∀ (s : Suit) (r : Int), (s, r) ∈ standardDeck ↔ 1 ≤ r ∧ r ≤ 13)
    ∧ (makeDeck tape).map Card.faceUp = List.replicate 52 false
    ∧ (∀ (r : Rnd) (i : Nat), randIndex r i ≤ i)
    ∧ (∀ (i k : Nat) (deck : Pile), i < deck.length →
        ∃ a b, deck[i]? = some a ∧ deck[randIndex (tape.pick k) i]? = some b
          ∧ swapAt deck i (randIndex (tape.pick k) i)
              = (deck.set i b).set (randIndex (tape.pick k) i) a)
    ∧ (∀ (r : Rnd) (i : Nat),
        ∃ k, roundToDouble (i + 1) (r.man * (i + 1))
              = k * 2 ^ excessBits (i + 1) (r.man * (i + 1))
          ∧ k ≤ 2 ^ 53
          ∧ (excessBits (i + 1) (r.man * (i + 1)) ≠ 0 → 2 ^ 52 ≤ k)
          ∧ 2 * roundToDouble (i + 1) (r.man * (i + 1))
              ≤ 2 * (r.man * (i + 1)) + 2 ^ excessBits (i + 1) (r.man * (i + 1))
          ∧ 2 * (r.man * (i + 1))
              ≤ 2 * roundToDouble (i + 1) (r.man * (i + 1))
                + 2 ^ excessBits (i + 1) (r.man * (i + 1))
          ∧ (2 * (r.man * (i + 1))
                = 2 * roundToDouble (i + 1) (r.man * (i + 1))
                  + 2 ^ excessBits (i + 1) (r.man * (i + 1))
              ∨ 2 * roundToDouble (i + 1) (r.man * (i + 1))
                = 2 * (r.man * (i + 1)) + 2 ^ excessBits (i + 1) (r.man * (i + 1))
              → k % 2 = 0)
          ∧ (r.man * (i + 1) < 2 ^ 53
              → roundToDouble (i + 1) (r.man * (i + 1)) = r.man * (i + 1)))
    ∧ randIndex twoThirds 2 = 2
    ∧ twoThirds.man * (2 + 1) / 2 ^ twoThirds.exp = 1 := by
  refine ⟨makeDeck_length tape, makeDeck_perm tape, ?_, standardDeck_nodup, by decide,
    mem_standardDeck, makeDeck_faceUp tape, randIndex_le, ?_, product_rounded, by decide,
    by decide⟩
  · rw [← freshDeck_key tape.nonce]
    exact (makeDeck_perm tape).map _
  · intro i k deck h
    obtain ⟨a, b, ha, hb⟩ := shuffle_indices_in_range tape.pick i k deck h
    exact ⟨a, b, ha, hb, by simp [swapAt, ha, hb]⟩

set_option maxRecDepth 100000 in
/-- C8 at work.  In the first shuffle iteration of `makeDeck` with `zeroTape` (`i = 51`)
the swap exchanges two cards of the deck.  At `0.6666666666666666` and `i = 2` the
product `3 - 2 ^ -53` needs 54 bits and lies halfway between two doubles: it is rounded
to the one with the even significand, which is `2`, and the index is still at most 2. -/
theorem makeDeck_spec_witness :
    51 < (freshDeck zeroTape.nonce).length
    ∧ (∃ a b, (freshDeck zeroTape.nonce)[51]? = some a
        ∧ (freshDeck zeroTape.nonce)[randIndex (zeroTape.pick 0) 51]? = some b
        ∧ swapAt (freshDeck zeroTape.nonce) 51 (randIndex (zeroTape.pick 0) 51)
            = ((freshDeck zeroTape.nonce).set 51 b).set (randIndex (zeroTape.pick 0) 51) a)
    ∧ excessBits (2 + 1) (twoThirds.man * (2 + 1)) ≠ 0
    ∧ 2 * roundToDouble (2 + 1) (twoThirds.man * (2 + 1))
        = 2 * (twoThirds.man * (2 + 1)) + 2 ^ excessBits (2 + 1) (twoThirds.man * (2 + 1))
    ∧ (∃ k, roundToDouble (2 + 1) (twoThirds.man * (2 + 1))
          = k * 2 ^ excessBits (2 + 1) (twoThirds.man * (2 + 1))
        ∧ 2 ^ 52 ≤ k ∧ k % 2 = 0)
    ∧ randIndex twoThirds 2 ≤ 2 :=
  ⟨by decide, (makeDeck_spec zeroTape).2.2.2.2.2.2.2.2.1 51 0 _ (by decide), by decide, by decide,
    ((makeDeck_spec zeroTape).2.2.2.2.2.2.2.2.2.1 twoThirds 2).elim fun k h =>
      ⟨k, h.1, h.2.2.1 (by decide), h.2.2.2.2.2.1 (Or.inr (by decide))⟩,
    (makeDeck_spec zeroTape).2.2.2.2.2.2.2.1 twoThirds 2⟩

/-- The deal of `dealNewGame` on a deck of 52 cards: the face pattern of the columns, the
28 tableau cards in the order they were popped, and the stock. -/
theorem deal_of_length_52 : ∀ (deck : Pile), deck.length = 52 →
    (dealColumns (List.range 7) deck [[], [], [], [], [], [], []]).2.map (List.map Card.faceUp) =
        [[true], [false, true], [false, false, true], [false, false, false, true],
         [false, false, false, false, true], [false, false, false, false, false, true],
         [false, false, false, false, false, false, true]]
      ∧ (dealColumns (List.range 7) deck [[], [], [], [], [], [], []]).2.flatten.map Card.id
          = ((deck.drop 24).reverse).map Card.id
      ∧ (dealColumns (List.range 7) deck [[], [], [], [], [], [], []]).2.flatten.map Card.key
          = ((deck.drop 24).reverse).map Card.key
      ∧ (dealColumns (List.range 7) deck [[], [], [], [], [], [], []]).1 = deck.take 24 := by
  simp only [forall_length_succ, forall_length_zero]
  intros
  refine ⟨?_, ?_, ?_, ?_⟩
  · simp [dealColumns, dealColumn, List.range, List.range.loop, pileAt]
  · simp [dealColumns, dealColumn, List.range, List.range.loop, pileAt]
  · simp [dealColumns, dealColumn, List.range, List.range.loop, pileAt, Card.key]
  · simp [dealColumns, dealColumn, List.range, List.range.loop, pileAt]


@[simp] theorem dealNewGame_tableau (s : State) (now : Int) (tape : Tape) :
    (dealNewGame s now tape).tableau
      = (dealColumns (List.range 7) (makeDeck tape) [[], [], [], [], [], [], []]).2 := rfl

@[simp] theorem dealNewGame_stock (s : State) (now : Int) (tape : Tape) :
    (dealNewGame s now tape).stock
      = (dealColumns (List.range 7) (makeDeck tape) [[], [], [], [], [], [], []]).1.reverse := by
  simp [dealNewGame, startTimer, clearSelections, stopTimer]

@[simp] theorem dealNewGame_waste (s : State) (now : Int) (tape : Tape) :
    (dealNewGame s now tape).waste = [] := rfl

@[simp] theorem dealNewGame_foundations (s : State) (now : Int) (tape : Tape) :
    (dealNewGame s now tape).foundations = [[], [], [], []] := rfl

@[simp] theorem dealNewGame_moves (s : State) (now : Int) (tape : Tape) :
    (dealNewGame s now tape).moves = [] := rfl

@[simp] theorem dealNewGame_moveCount (s : State) (now : Int) (tape : Tape) :
    (dealNewGame s now tape).moveCount = 0 := rfl

@[simp] theorem dealNewGame_selected (s : State) (now : Int) (tape : Tape) :
    (dealNewGame s now tape).selected = none := rfl

/-- C7. After `dealNewGame`, from any prior state and for any deck `makeDeck` returns,
column `i` holds `i + 1` cards of which only the last is face-up (28 in all, the last 28
cards of the deck in the order they are popped), the stock holds the other 24 cards, all
face-down, waste and foundations are empty, the log is empty and the counter is 0. -/
theorem dealNewGame_layout (s : State) (now : Int) (tape : Tape) :
    (dealNewGame s now tape).tableau.map (List.map Card.faceUp) =
        [[true], [false, true], [false, false, true], [false, false, false, true],
         [false, false, false, false, true], [false, false, false, false, false, true],
         [false, false, false, false, false, false, true]]
    ∧ (dealNewGame s now tape).tableau.map List.length = [1, 2, 3, 4, 5, 6, 7]
    ∧ (dealNewGame s now tape).tableau.flatten.length = 28
    ∧ (dealNewGame s now tape).tableau.flatten.map Card.id
        = ((makeDeck tape).drop 24).reverse.map Card.id
    ∧ (dealNewGame s now tape).stock = ((makeDeck tape).take 24).reverse
    ∧ (dealNewGame s now tape).stock.length = 24
    ∧ (dealNewGame s now tape).stock.map Card.faceUp = List.replicate 24 false
    ∧ (dealNewGame s now tape).waste = []
    ∧ (dealNewGame s now tape).foundations = [[], [], [], []]
    ∧ (dealNewGame s now tape).moves = []
    ∧ (dealNewGame s now tape).moveCount = 0 := by
  obtain ⟨h1, h2, _, h4⟩ := deal_of_length_52 (makeDeck tape) (makeDeck_length tape)
  have hlen : (dealNewGame s now tape).tableau.map List.length = [1, 2, 3, 4, 5, 6, 7] := by
    have := congrArg (List.map List.length) h1
    simpa [List.map_map, Function.comp_def] using this
  have hstock : (dealNewGame s now tape).stock = ((makeDeck tape).take 24).reverse := by
    simp [h4]
  refine ⟨h1, hlen, ?_, h2, hstock, ?_, ?_, rfl, rfl, rfl, rfl⟩
  · rw [List.length_flatten, hlen]; rfl
  · rw [hstock]; simp [makeDeck_length]
  · rw [hstock, List.map_reverse, List.map_take, makeDeck_faceUp]
    simp

/-! ## `ensureTopFaceUp`, `checkWin`, `afterAnyMove` -/

theorem set_pileAt_self (ps : List Pile) (t : Nat) : ps.set t (pileAt ps t) = ps := by
  by_cases h : t < ps.length
  · apply List.ext_getElem (by simp)
    intro n h1 h2
    by_cases hn : t = n
    · subst hn; simp [pileAt, List.getElem?_eq_getElem h]
    · simp [List.getElem_set_ne hn]
  · rw [List.set_eq_of_length_le (by omega)]

theorem ensureTopFaceUpAt_of_none (s : State) (t : Nat) (h : topCard (pileAt s.tableau t) = none) :
    ensureTopFaceUpAt s t = s := by
  simp [ensureTopFaceUpAt, h]

theorem ensureTopFaceUpAt_of_up (s : State) (t : Nat) (c : Card)
    (h : topCard (pileAt s.tableau t) = some c) (hc : c.faceUp = true) :
    ensureTopFaceUpAt s t = s := by
  simp [ensureTopFaceUpAt, h, hc]

theorem ensureTopFaceUpAt_of_down (s : State) (t : Nat) (c : Card)
    (h : topCard (pileAt s.tableau t) = some c) (hc : c.faceUp = false) :
    ensureTopFaceUpAt s t =
      { s with tableau := s.tableau.set t (setTopFaceUp true (pileAt s.tableau t)),
               moves := s.moves ++ [Entry.flip t] } := by
  simp [ensureTopFaceUpAt, h, hc]

/-- The three ways an iteration of `ensureTopFaceUp` can go. -/
theorem ensureTopFaceUpAt_cases (s : State) (t : Nat) :
    (ensureTopFaceUpAt s t = s ∧ topOk (pileAt s.tableau t) = true)
    ∨ (ensureTopFaceUpAt s t =
        { s with tableau := s.tableau.set t (setTopFaceUp true (pileAt s.tableau t)),
                 moves := s.moves ++ [Entry.flip t] }
       ∧ topOk (pileAt s.tableau t) = false) := by
  cases h : topCard (pileAt s.tableau t) with
  | none => exact Or.inl ⟨ensureTopFaceUpAt_of_none s t h, by simp [topOk, h]⟩
  | some c =>
    cases hc : c.faceUp with
    | true => exact Or.inl ⟨ensureTopFaceUpAt_of_up s t c h hc, by simp [topOk, h, hc]⟩
    | false => exact Or.inr ⟨ensureTopFaceUpAt_of_down s t c h hc, by simp [topOk, h, hc]⟩

theorem ensureTopFaceUpAt_tableau (s : State) (t : Nat) :
    (ensureTopFaceUpAt s t).tableau = s.tableau.set t (setTopFaceUp true (pileAt s.tableau t)) := by
  rcases ensureTopFaceUpAt_cases s t with ⟨h, hok⟩ | ⟨h, _⟩
  · rw [h, setTopFaceUp_of_topOk _ hok, set_pileAt_self]
  · rw [h]

theorem ensureTopFaceUpAt_eq_of_topOk (s : State) (t : Nat) (h : topOk (pileAt s.tableau t) = true) :
    ensureTopFaceUpAt s t = s := by
  rcases ensureTopFaceUpAt_cases s t with ⟨h1, _⟩ | ⟨_, h2⟩
  · exact h1
  · rw [h] at h2; cases h2

theorem ensureTopFaceUpAt_frame (s : State) (t : Nat) :
    (ensureTopFaceUpAt s t).stock = s.stock ∧ (ensureTopFaceUpAt s t).waste = s.waste
    ∧ (ensureTopFaceUpAt s t).foundations = s.foundations
    ∧ (ensureTopFaceUpAt s t).selected = s.selected
    ∧ (ensureTopFaceUpAt s t).moveCount = s.moveCount
    ∧ (ensureTopFaceUpAt s t).paused = s.paused
    ∧ (ensureTopFaceUpAt s t).drag = s.drag
    ∧ (ensureTopFaceUpAt s t).startTs = s.startTs
    ∧ (ensureTopFaceUpAt s t).pauseAt = s.pauseAt
    ∧ (ensureTopFaceUpAt s t).timer = s.timer
    ∧ (ensureTopFaceUpAt s t).winStatus = s.winStatus := by
  rcases ensureTopFaceUpAt_cases s t with ⟨h, _⟩ | ⟨h, _⟩ <;> simp [h]

theorem ensureTopFaceUpAt_moves (s : State) (t : Nat) :
    ∀ e ∈ (ensureTopFaceUpAt s t).moves, e ∈ s.moves ∨ e = Entry.flip t := by
  intro e he
  rcases ensureTopFaceUpAt_cases s t with ⟨h, _⟩ | ⟨h, _⟩
  · rw [h] at he; exact Or.inl he
  · rw [h] at he; simpa using he

/-- A property kept by every iteration of `ensureTopFaceUp` is kept by the loop. -/
theorem ensureTopFaceUp_induct (P : State → Prop) (h : ∀ s t, P s → P (ensureTopFaceUpAt s t))
    (s : State) (hs : P s) : P (ensureTopFaceUp s) := by
  unfold ensureTopFaceUp
  generalize List.range 7 = l
  induction l generalizing s with
  | nil => exact hs
  | cons t ts ih => exact ih _ (h s t hs)

theorem ensureTopFaceUp_frame (s : State) :
    (ensureTopFaceUp s).stock = s.stock ∧ (ensureTopFaceUp s).waste = s.waste
    ∧ (ensureTopFaceUp s).foundations = s.foundations
    ∧ (ensureTopFaceUp s).selected = s.selected
    ∧ (ensureTopFaceUp s).moveCount = s.moveCount
    ∧ (ensureTopFaceUp s).paused = s.paused
    ∧ (ensureTopFaceUp s).drag = s.drag
    ∧ (ensureTopFaceUp s).startTs = s.startTs
    ∧ (ensureTopFaceUp s).pauseAt = s.pauseAt
    ∧ (ensureTopFaceUp s).timer = s.timer
    ∧ (ensureTopFaceUp s).winStatus = s.winStatus := by
  refine ensureTopFaceUp_induct
    (fun u => u.stock = s.stock ∧ u.waste = s.waste ∧ u.foundations = s.foundations
      ∧ u.selected = s.selected ∧ u.moveCount = s.moveCount ∧ u.paused = s.paused
      ∧ u.drag = s.drag ∧ u.startTs = s.startTs ∧ u.pauseAt = s.pauseAt ∧ u.timer = s.timer
      ∧ u.winStatus = s.winStatus) ?_ s ?_
  · intro u t hu
    obtain ⟨h1, h2, h3, h4, h5, h6, h7, h8, h9, h10, h11⟩ := ensureTopFaceUpAt_frame u t
    obtain ⟨g1, g2, g3, g4, g5, g6, g7, g8, g9, g10, g11⟩ := hu
    exact ⟨h1.trans g1, h2.trans g2, h3.trans g3, h4.trans g4, h5.trans g5, h6.trans g6,
      h7.trans g7, h8.trans g8, h9.trans g9, h10.trans g10, h11.trans g11⟩
  · simp

theorem ensureTopFaceUp_logOk (s : State) (h : ∀ e ∈ s.moves, entryOk e = true) :
    ∀ e ∈ (ensureTopFaceUp s).moves, entryOk e = true := by
  refine ensureTopFaceUp_induct (fun u => ∀ e ∈ u.moves, entryOk e = true) ?_ s h
  intro u t hu e he
  rcases ensureTopFaceUpAt_moves u t e he with h1 | h1
  · exact hu e h1
  · subst h1; rfl

theorem ensureTopFaceUp_eq_of_tops (s : State) (h : TopsFaceUp s) :
    ensureTopFaceUp s = s := by
  refine ensureTopFaceUp_induct (fun u => u = s) ?_ s rfl
  intro u t hu
  subst hu
  apply ensureTopFaceUpAt_eq_of_topOk
  by_cases ht : t < u.tableau.length
  · exact h _ (pileAt_mem _ _ ht)
  · rw [pileAt_of_le _ _ (by omega)]; rfl

theorem foldl_setTop_seven : ∀ (tab : List Pile), tab.length = 7 →
    (List.range 7).foldl (fun tb t => tb.set t (setTopFaceUp true (pileAt tb t))) tab
      = tab.map (setTopFaceUp true) := by
  simp only [forall_length_succ, forall_length_zero]
  intros
  simp [List.range, List.range.loop, pileAt]

theorem ensureTopFaceUp_tableau (s : State) (h7 : s.tableau.length = 7) :
    (ensureTopFaceUp s).tableau = s.tableau.map (setTopFaceUp true) := by
  have key : ∀ (l : List Nat) (u : State),
      (l.foldl ensureTopFaceUpAt u).tableau
        = l.foldl (fun tb t => tb.set t (setTopFaceUp true (pileAt tb t))) u.tableau := by
    intro l
    induction l with
    | nil => intro u; rfl
    | cons t ts ih =>
      intro u
      simp only [List.foldl_cons]
      rw [ih, ensureTopFaceUpAt_tableau]
  unfold ensureTopFaceUp
  rw [key, foldl_setTop_seven _ h7]

theorem pilesCount_map_setTop (k : Suit × Int) (ps : List Pile) :
    pilesCount k (ps.map (setTopFaceUp true)) = pilesCount k ps := by
  induction ps with
  | nil => rfl
  | cons p ps ih =>
    simp only [pilesCount, List.map_cons, List.sum_cons] at ih ⊢
    rw [ih, pileCount_setTopFaceUp]

/-! ## Frame lemmas of `checkWin` and `afterAnyMove` -/

theorem checkWin_frame (s : State) :
    (checkWin s).stock = s.stock ∧ (checkWin s).waste = s.waste
    ∧ (checkWin s).foundations = s.foundations ∧ (checkWin s).tableau = s.tableau
    ∧ (checkWin s).selected = s.selected ∧ (checkWin s).moves = s.moves
    ∧ (checkWin s).moveCount = s.moveCount ∧ (checkWin s).paused = s.paused
    ∧ (checkWin s).drag = s.drag ∧ (checkWin s).startTs = s.startTs
    ∧ (checkWin s).pauseAt = s.pauseAt := by
  unfold checkWin
  split <;> simp [stopTimer]

@[simp] theorem checkWin_stock (s : State) : (checkWin s).stock = s.stock := (checkWin_frame s).1
@[simp] theorem checkWin_waste (s : State) : (checkWin s).waste = s.waste := (checkWin_frame s).2.1
@[simp] theorem checkWin_foundations (s : State) : (checkWin s).foundations = s.foundations :=
  (checkWin_frame s).2.2.1
@[simp] theorem checkWin_tableau (s : State) : (checkWin s).tableau = s.tableau :=
  (checkWin_frame s).2.2.2.1
@[simp] theorem checkWin_selected (s : State) : (checkWin s).selected = s.selected :=
  (checkWin_frame s).2.2.2.2.1
@[simp] theorem checkWin_moves (s : State) : (checkWin s).moves = s.moves :=
  (checkWin_frame s).2.2.2.2.2.1
@[simp] theorem checkWin_moveCount (s : State) : (checkWin s).moveCount = s.moveCount :=
  (checkWin_frame s).2.2.2.2.2.2.1
@[simp] theorem checkWin_paused (s : State) : (checkWin s).paused = s.paused :=
  (checkWin_frame s).2.2.2.2.2.2.2.1
@[simp] theorem checkWin_drag (s : State) : (checkWin s).drag = s.drag :=
  (checkWin_frame s).2.2.2.2.2.2.2.2.1

@[simp] theorem afterAnyMove_stock (s : State) : (afterAnyMove s).stock = s.stock := by
  simp [afterAnyMove, (ensureTopFaceUp_frame s).1]
@[simp] theorem afterAnyMove_waste (s : State) : (afterAnyMove s).waste = s.waste := by
  simp [afterAnyMove, (ensureTopFaceUp_frame s).2.1]
@[simp] theorem afterAnyMove_foundations (s : State) :
    (afterAnyMove s).foundations = s.foundations := by
  simp [afterAnyMove, (ensureTopFaceUp_frame s).2.2.1]
@[simp] theorem afterAnyMove_selected (s : State) : (afterAnyMove s).selected = s.selected := by
  simp [afterAnyMove, (ensureTopFaceUp_frame s).2.2.2.1]
@[simp] theorem afterAnyMove_moveCount (s : State) : (afterAnyMove s).moveCount = s.moveCount := by
  simp [afterAnyMove, (ensureTopFaceUp_frame s).2.2.2.2.1]
@[simp] theorem afterAnyMove_paused (s : State) : (afterAnyMove s).paused = s.paused := by
  simp [afterAnyMove, (ensureTopFaceUp_frame s).2.2.2.2.2.1]
@[simp] theorem afterAnyMove_drag (s : State) : (afterAnyMove s).drag = s.drag := by
  simp [afterAnyMove, (ensureTopFaceUp_frame s).2.2.2.2.2.2.1]

theorem afterAnyMove_tableau (s : State) (h7 : s.tableau.length = 7) :
    (afterAnyMove s).tableau = s.tableau.map (setTopFaceUp true) := by
  simp [afterAnyMove, ensureTopFaceUp_tableau s h7]

/-- On a state whose tableau tops are face-up, `afterAnyMove` changes no pile, no flag,
no log entry and no counter. -/
theorem afterAnyMove_of_tops (s : State) (h : TopsFaceUp s) : afterAnyMove s = checkWin s := by
  simp [afterAnyMove, ensureTopFaceUp_eq_of_tops s h]

theorem topsFaceUp_map_setTop (ps : List Pile) : ∀ p ∈ ps.map (setTopFaceUp true), topOk p = true := by
  intro p hp
  obtain ⟨q, _, rfl⟩ := List.mem_map.mp hp
  exact topOk_setTopFaceUp q

theorem afterAnyMove_tops (s : State) (h7 : s.tableau.length = 7) : TopsFaceUp (afterAnyMove s) := by
  unfold TopsFaceUp
  rw [afterAnyMove_tableau s h7]
  exact topsFaceUp_map_setTop _

theorem countAll_congr (k : Suit × Int) (s u : State) (h1 : u.stock = s.stock)
    (h2 : u.waste = s.waste) (h3 : u.foundations = s.foundations)
    (h4 : pilesCount k u.tableau = pilesCount k s.tableau) : countAll k u = countAll k s := by
  simp [countAll, h1, h2, h3, h4]

theorem afterAnyMove_wf (s : State) (h : Wf s) : Wf (afterAnyMove s) where
  nFound := by simpa using h.nFound
  nTab := by rw [afterAnyMove_tableau s h.nTab]; simpa using h.nTab
  selOk := by simpa using h.selOk
  logOk := by
    simp only [afterAnyMove, checkWin_moves]
    exact ensureTopFaceUp_logOk s h.logOk
  cards := by
    intro k
    rw [← h.cards k]
    apply countAll_congr <;> simp [afterAnyMove_tableau s h.nTab, pilesCount_map_setTop]

theorem afterAnyMove_inv (s : State) (h : Wf s) : Inv (afterAnyMove s) :=
  ⟨afterAnyMove_wf s h, afterAnyMove_tops s h.nTab⟩

/-! ## Moving cards between piles -/

theorem countAll_setSourcePile (k : Suit × Int) (s : State) (frm : PileKind) (i : Nat) (p : Pile)
    (h4 : s.foundations.length = 4) (h7 : s.tableau.length = 7) (hi : pileRefOk frm i = true) :
    countAll k (setSourcePile s frm i p) + pileCount k (sourcePile s frm i)
      = countAll k s + pileCount k p := by
  cases frm with
  | waste => simp only [setSourcePile, sourcePile, countAll]; omega
  | tableau =>
    have := pilesCount_set k p s.tableau i (by simpa [pileRefOk, h7] using hi)
    simp only [setSourcePile, sourcePile, countAll]; omega
  | foundation =>
    have := pilesCount_set k p s.foundations i (by simpa [pileRefOk, h4] using hi)
    simp only [setSourcePile, sourcePile, countAll]; omega

theorem countAll_setDestPile (k : Suit × Int) (s : State) (dest : PileKind) (i : Nat) (p : Pile)
    (h4 : s.foundations.length = 4) (h7 : s.tableau.length = 7) (hi : destRefOk dest i = true) :
    countAll k (setDestPile s dest i p) + pileCount k (destPile s dest i)
      = countAll k s + pileCount k p := by
  by_cases hd : dest = PileKind.foundation
  · have := pilesCount_set k p s.foundations i (by simpa [destRefOk, hd, h4] using hi)
    simp only [setDestPile, destPile, hd, if_true, countAll]; omega
  · have := pilesCount_set k p s.tableau i (by simpa [destRefOk, hd, h7] using hi)
    simp only [setDestPile, destPile, hd, if_false, countAll]; omega

theorem setSourcePile_frame (s : State) (frm : PileKind) (i : Nat) (p : Pile) :
    (setSourcePile s frm i p).foundations.length = s.foundations.length
    ∧ (setSourcePile s frm i p).tableau.length = s.tableau.length
    ∧ (setSourcePile s frm i p).selected = s.selected
    ∧ (setSourcePile s frm i p).moves = s.moves
    ∧ (setSourcePile s frm i p).moveCount = s.moveCount := by
  cases frm <;> simp [setSourcePile]

theorem setDestPile_frame (s : State) (dest : PileKind) (i : Nat) (p : Pile) :
    (setDestPile s dest i p).foundations.length = s.foundations.length
    ∧ (setDestPile s dest i p).tableau.length = s.tableau.length
    ∧ (setDestPile s dest i p).selected = s.selected
    ∧ (setDestPile s dest i p).moves = s.moves
    ∧ (setDestPile s dest i p).moveCount = s.moveCount := by
  unfold setDestPile
  split <;> simp

/-- Taking cards off one pile and appending them to another keeps every card count. -/
theorem countAll_transfer (k : Suit × Int) (s : State) (frm : PileKind) (fi : Nat)
    (dest : PileKind) (ti : Nat) (rest moved : Pile)
    (h4 : s.foundations.length = 4) (h7 : s.tableau.length = 7)
    (hf : pileRefOk frm fi = true) (ht : destRefOk dest ti = true)
    (hcut : pileCount k moved + pileCount k rest = pileCount k (sourcePile s frm fi)) :
    countAll k (setDestPile (setSourcePile s frm fi rest) dest ti
        (destPile (setSourcePile s frm fi rest) dest ti ++ moved)) = countAll k s := by
  have h1 := countAll_setSourcePile k s frm fi rest h4 h7 hf
  obtain ⟨g4, g7, _⟩ := setSourcePile_frame s frm fi rest
  have h2 := countAll_setDestPile k (setSourcePile s frm fi rest) dest ti
    (destPile (setSourcePile s frm fi rest) dest ti ++ moved) (g4.trans h4) (g7.trans h7) ht
  rw [pileCount_append] at h2
  omega

/-- The same transfer in the direction `undo` performs it: off the destination, back on
the source. -/
theorem countAll_transfer_back (k : Suit × Int) (s : State) (frm : PileKind) (fi : Nat)
    (dest : PileKind) (ti : Nat) (rest moved : Pile)
    (h4 : s.foundations.length = 4) (h7 : s.tableau.length = 7)
    (hf : pileRefOk frm fi = true) (ht : destRefOk dest ti = true)
    (hcut : pileCount k moved + pileCount k rest = pileCount k (destPile s dest ti)) :
    countAll k (setSourcePile (setDestPile s dest ti rest) frm fi
        (sourcePile (setDestPile s dest ti rest) frm fi ++ moved)) = countAll k s := by
  have h1 := countAll_setDestPile k s dest ti rest h4 h7 ht
  obtain ⟨g4, g7, _⟩ := setDestPile_frame s dest ti rest
  have h2 := countAll_setSourcePile k (setDestPile s dest ti rest) frm fi
    (sourcePile (setDestPile s dest ti rest) frm fi ++ moved) (g4.trans h4) (g7.trans h7) hf
  rw [pileCount_append] at h2
  omega

theorem doMove_eq (s : State) (frm : PileKind) (fi si : Nat) (dest : PileKind) (ti : Nat)
    (count : Int) : doMove s frm fi si dest ti count = afterAnyMove (movedState s frm fi si dest ti count) :=
  rfl

theorem moved_wf (s : State) (frm : PileKind) (fi si : Nat) (dest : PileKind) (ti : Nat)
    (count : Int) (h : Wf s) (hf : pileRefOk frm fi = true) (ht : destRefOk dest ti = true) :
    Wf (movedState s frm fi si dest ti count) := by
  obtain ⟨a4, a7, a3, a2, a1⟩ := setSourcePile_frame s frm fi
    (splice (sourcePile s frm fi) si count).2
  obtain ⟨b4, b7, b3, b2, b1⟩ := setDestPile_frame
    (setSourcePile s frm fi (splice (sourcePile s frm fi) si count).2) dest ti
    (destPile (setSourcePile s frm fi (splice (sourcePile s frm fi) si count).2) dest ti
      ++ (splice (sourcePile s frm fi) si count).1)
  refine ⟨?_, ?_, ?_, ?_, ?_⟩
  · simp only [movedState, clearSelections]; rw [b4, a4]; exact h.nFound
  · simp only [movedState, clearSelections]; rw [b7, a7]; exact h.nTab
  · intro sel hsel; simp [movedState, clearSelections] at hsel
  · intro e he
    simp only [movedState, clearSelections, List.mem_append, List.mem_singleton] at he
    rcases he with he | he
    · rw [b2, a2] at he; exact h.logOk e he
    · subst he; simp [entryOk, hf, ht]
  · intro k
    rw [← h.cards k]
    have := countAll_transfer k s frm fi dest ti (splice (sourcePile s frm fi) si count).2
      (splice (sourcePile s frm fi) si count).1 h.nFound h.nTab hf ht (pileCount_splice k _ _ _)
    rw [← this]
    simp [movedState, clearSelections, countAll]

theorem doMove_inv (s : State) (frm : PileKind) (fi si : Nat) (dest : PileKind) (ti : Nat)
    (count : Int) (h : Wf s) (hf : pileRefOk frm fi = true) (ht : destRefOk dest ti = true) :
    Inv (doMove s frm fi si dest ti count) :=
  afterAnyMove_inv _ (moved_wf s frm fi si dest ti count h hf ht)

theorem doMove_selected (s : State) (frm : PileKind) (fi si : Nat) (dest : PileKind) (ti : Nat)
    (count : Int) : (doMove s frm fi si dest ti count).selected = none := by
  simp [doMove_eq, movedState, clearSelections]

/-- On a state whose tableau tops are face-up, `postMoveFlipIfNeeded` does nothing. -/
theorem postMoveFlipIfNeeded_of_tops (s : State) (frm : PileKind) (i : Nat) (h : TopsFaceUp s) :
    postMoveFlipIfNeeded s frm i = s := by
  unfold postMoveFlipIfNeeded
  split
  · have hok : topOk (pileAt s.tableau i) = true := by
      by_cases hi : i < s.tableau.length
      · exact h _ (pileAt_mem _ _ hi)
      · rw [pileAt_of_le _ _ (by omega)]; rfl
    cases hc : topCard (pileAt s.tableau i) with
    | none => simp [hc]
    | some c =>
      have : c.faceUp = true := by simpa [topOk, hc] using hok
      simp [hc, this]
  · rfl

theorem commitSelectedTo_inv (s : State) (dest : PileKind) (ti : Nat) (h : Inv s)
    (ht : destRefOk dest ti = true) : Inv (commitSelectedTo s dest ti) := by
  unfold commitSelectedTo
  cases hsel : s.selected with
  | none => exact h
  | some sel =>
    have hi := doMove_inv s sel.frm sel.index sel.start dest ti
      (((sourcePile s sel.frm sel.index).length : Int) - sel.start) h.wf (h.wf.selOk sel hsel) ht
    simp only
    rw [postMoveFlipIfNeeded_of_tops _ _ _ hi.tops]
    exact hi

/-! ## Handlers keep the invariant -/

/-- A state with the same piles and log as a state satisfying the invariant, and a
selection that names an existing pile, satisfies it too. -/
theorem Inv.of_same_piles {s u : State} (h : Inv s) (h1 : u.stock = s.stock)
    (h2 : u.waste = s.waste) (h3 : u.foundations = s.foundations) (h4 : u.tableau = s.tableau)
    (h5 : u.moves = s.moves)
    (h6 : ∀ sel, u.selected = some sel → pileRefOk sel.frm sel.index = true) : Inv u where
  wf :=
    { nFound := by rw [h3]; exact h.wf.nFound
      nTab := by rw [h4]; exact h.wf.nTab
      selOk := h6
      logOk := by rw [h5]; exact h.wf.logOk
      cards := by
        intro k
        rw [← h.wf.cards k]
        simp [countAll, h1, h2, h3, h4] }
  tops := by
    unfold TopsFaceUp
    rw [h4]
    exact h.tops

theorem select_inv (s : State) (sel : Selection) (h : Inv s)
    (hsel : pileRefOk sel.frm sel.index = true) : Inv (select s sel) := by
  refine h.of_same_piles rfl rfl rfl rfl rfl ?_
  intro sel2 h2
  simp only [select, Option.some.injEq] at h2
  subst h2
  exact hsel

theorem findInPiles_ok (kind : PileKind) (piles : List Pile) (cardId : CardId) :
    ∀ (l : List Nat) (loc : Loc), findInPiles kind piles cardId l = some loc →
      loc.whr = kind ∧ loc.idx ∈ l
  | [], loc, h => by simp [findInPiles] at h
  | f :: fs, loc, h => by
    unfold findInPiles at h
    split at h
    · simp only [Option.some.injEq] at h
      subst h
      simp
    · obtain ⟨h1, h2⟩ := findInPiles_ok kind piles cardId fs loc h
      exact ⟨h1, List.mem_cons_of_mem _ h2⟩

theorem findCard_ok (s : State) (cardId : CardId) (loc : Loc) (h : findCard s cardId = some loc) :
    pileRefOk loc.whr loc.idx = true := by
  unfold findCard at h
  split at h
  · simp only [Option.some.injEq] at h
    subst h; rfl
  · split at h
    · next l hl =>
      simp only [Option.some.injEq] at h
      subst h
      obtain ⟨h1, h2⟩ := findInPiles_ok _ _ _ _ _ hl
      rw [h1]
      simpa [pileRefOk] using h2
    · obtain ⟨h1, h2⟩ := findInPiles_ok _ _ _ _ _ h
      rw [h1]
      simpa [pileRefOk] using h2

theorem selectClicked_inv (s : State) (loc : Loc) (h : Inv s)
    (hloc : pileRefOk loc.whr loc.idx = true) : Inv (selectClicked s loc) := by
  unfold selectClicked
  split
  · exact select_inv _ _ h rfl
  · next hw => exact select_inv _ _ h (by simpa [hw] using hloc)
  · next hw =>
    simp only
    split
    · exact h
    · exact select_inv _ _ h (by simpa [hw] using hloc)

theorem onCardClick_inv (s : State) (cardId : CardId) (h : Inv s) : Inv (onCardClick s cardId) := by
  unfold onCardClick
  split
  · exact h
  · split
    · exact h
    · split
      · exact h
      · next loc hloc =>
        have hok := findCard_ok s cardId loc hloc
        split
        · next hc =>
          simp only [Bool.and_eq_true, beq_iff_eq] at hc
          refine commitSelectedTo_inv s _ _ h ?_
          simpa [destRefOk, pileRefOk, hc.1.2] using hok
        · split
          · next hc =>
            simp only [Bool.and_eq_true, beq_iff_eq] at hc
            refine commitSelectedTo_inv s _ _ h ?_
            simpa [destRefOk, pileRefOk, hc.1.2] using hok
          · exact selectClicked_inv s loc h hok

theorem firstFoundation_lt (s : State) (c : Option Card) (f : Nat)
    (h : firstFoundation s c = some f) : destRefOk PileKind.foundation f = true := by
  have := List.mem_of_find?_eq_some h
  simpa [destRefOk] using this

theorem firstTableau_lt (s : State) (c : Option Card) (t : Nat)
    (h : firstTableau s c = some t) : destRefOk PileKind.tableau t = true := by
  have := List.mem_of_find?_eq_some h
  simpa [destRefOk] using this

theorem onCardDoubleClick_inv (s : State) (cardId : CardId) (h : Inv s) :
    Inv (onCardDoubleClick s cardId) := by
  unfold onCardDoubleClick
  split
  · exact h
  · split
    · exact h
    · next loc hloc =>
      have hok := findCard_ok s cardId loc hloc
      simp only
      split
      · exact h
      · split
        · next f hf =>
          have hi := doMove_inv s loc.whr loc.idx loc.iCard PileKind.foundation f 1 h.wf hok
            (firstFoundation_lt s _ f hf)
          rw [postMoveFlipIfNeeded_of_tops _ _ _ hi.tops]
          exact hi
        · split
          · next t ht =>
            have hi := doMove_inv s loc.whr loc.idx loc.iCard PileKind.tableau t 1 h.wf hok
              (firstTableau_lt s _ t ht)
            rw [postMoveFlipIfNeeded_of_tops _ _ _ hi.tops]
            exact hi
          · exact h

theorem onWasteClick_inv (s : State) (h : Inv s) : Inv (onWasteClick s) := by
  unfold onWasteClick
  split
  · exact h
  · split
    · exact select_inv _ _ h rfl
    · exact h

theorem onFoundationClick_inv (s : State) (f : Nat) (hf : f < 4) (h : Inv s) :
    Inv (onFoundationClick s f) := by
  unfold onFoundationClick
  split
  · exact h
  · split
    · exact commitSelectedTo_inv s _ _ h (by simpa [destRefOk] using hf)
    · exact h

theorem onTableauClick_inv (s : State) (t : Nat) (ht : t < 7) (h : Inv s) :
    Inv (onTableauClick s t) := by
  unfold onTableauClick
  split
  · exact h
  · split
    · exact commitSelectedTo_inv s _ _ h (by simpa [destRefOk] using ht)
    · exact h

theorem pointerSelection_ok (s : State) (loc : Loc) (sel : Selection)
    (hloc : pileRefOk loc.whr loc.idx = true) (h : pointerSelection s loc = some sel) :
    pileRefOk sel.frm sel.index = true := by
  unfold pointerSelection at h
  split at h
  · split at h
    · cases h
    · simp only [Option.some.injEq] at h; subst h; rfl
  · next hw =>
    split at h
    · cases h
    · simp only [Option.some.injEq] at h; subst h; simpa [hw] using hloc
  · next hw =>
    simp only at h
    split at h
    · cases h
    · simp only [Option.some.injEq] at h; subst h; simpa [hw] using hloc

theorem onCardPointerDown_inv (s : State) (cardId : CardId) (h : Inv s) :
    Inv (onCardPointerDown s cardId) := by
  unfold onCardPointerDown
  split
  · exact h
  · split
    · exact h
    · next loc hloc =>
      have hok := findCard_ok s cardId loc hloc
      split
      · exact h
      · next sel hsel =>
        have hs := select_inv s sel h (pointerSelection_ok s loc sel hok hsel)
        exact hs.of_same_piles rfl rfl rfl rfl rfl hs.wf.selOk

theorem dropOn_inv (s : State) (target : Option (PileKind × Nat))
    (hv : validTarget target = true) (h : Inv s) : Inv (dropOn s target) := by
  unfold dropOn
  split
  · exact h
  · next t =>
    obtain ⟨kd, i⟩ := t
    simp only
    split
    · next hc =>
      simp only [Bool.and_eq_true, beq_iff_eq] at hc
      refine commitSelectedTo_inv s _ _ h ?_
      have := hc.1
      subst this
      simpa [validTarget, destRefOk] using hv
    · split
      · next hc =>
        simp only [Bool.and_eq_true, beq_iff_eq] at hc
        refine commitSelectedTo_inv s _ _ h ?_
        have := hc.1
        subst this
        simpa [validTarget, destRefOk] using hv
      · exact h

theorem onDragEnd_inv (s : State) (target : Option (PileKind × Nat))
    (hv : validTarget target = true) (h : Inv s) : Inv (onDragEnd s target) := by
  unfold onDragEnd
  split
  · exact h
  · have key := dropOn_inv s target hv h
    exact key.of_same_piles rfl rfl rfl rfl rfl key.wf.selOk

theorem eq_dropLast_append_of_getLast? {α : Type} {l : List α} {a : α} (h : l.getLast? = some a) :
    l = l.dropLast ++ [a] := by
  obtain ⟨ys, rfl⟩ := List.getLast?_eq_some_iff.mp h
  simp

theorem onStockClick_inv (s : State) (h : Inv s) : Inv (onStockClick s) := by
  unfold onStockClick
  split
  · exact h
  · split
    · next c hc =>
      apply afterAnyMove_inv
      have hst := eq_dropLast_append_of_getLast? hc
      refine ⟨h.wf.nFound, h.wf.nTab, h.wf.selOk, ?_, ?_⟩
      · intro e he
        simp only [List.mem_append, List.mem_singleton] at he
        rcases he with he | he
        · exact h.wf.logOk e he
        · subst he; rfl
      · intro k
        rw [← h.wf.cards k]
        have h1 : pileCount k s.stock = pileCount k s.stock.dropLast + pileCount k [c] := by
          conv_lhs => rw [hst]
          rw [pileCount_append]
        have h2 : pileCount k [{ c with faceUp := true }] = pileCount k [c] := rfl
        simp only [countAll, pileCount_append, h2]
        omega
    · split
      · apply afterAnyMove_inv
        refine ⟨h.wf.nFound, h.wf.nTab, h.wf.selOk, ?_, ?_⟩
        · intro e he
          simp only [List.mem_append, List.mem_singleton] at he
          rcases he with he | he
          · exact h.wf.logOk e he
          · subst he; rfl
        · intro k
          rw [← h.wf.cards k]
          simp only [countAll, pileCount_append, pileCount_setFace, pileCount_reverse, pileCount_nil]
          omega
      · exact h

theorem splice_one_length (l : Pile) (a : Int) : (splice l a 1).1.length ≤ 1 := by
  simp only [splice, List.length_take]
  omega

/-- Inverting a well-formed log entry on a state that is well formed up to its selection
keeps lengths, log and card counts. -/
theorem undoEntry_wf (s : State) (e : Entry) (h : Wf s) (he : entryOk e = true) :
    Wf (undoEntry s e) := by
  cases e with
  | deal card =>
    simp only [undoEntry]
    split
    · exact h
    · next idx _ =>
      split
      · next c tl rest hsp =>
        have hlen := splice_one_length s.waste idx
        rw [hsp] at hlen
        have htl : tl = [] := by
          cases tl with
          | nil => rfl
          | cons x xs => simp at hlen
        subst htl
        refine ⟨h.nFound, h.nTab, h.selOk, h.logOk, ?_⟩
        intro k
        rw [← h.cards k]
        have h1 := pileCount_splice k s.waste idx 1
        rw [hsp] at h1
        have h2 : pileCount k [{ c with faceUp := false }] = pileCount k [c] := rfl
        simp only [countAll, pileCount_append, h2]
        simp only at h1
        omega
      · exact h
  | recycle =>
    refine ⟨h.nFound, h.nTab, h.selOk, h.logOk, ?_⟩
    intro k
    rw [← h.cards k]
    simp only [undoEntry, countAll, pileCount_append, pileCount_setFace, pileCount_reverse,
      pileCount_nil]
    omega
  | move frm fi si dest ti count flipped =>
    simp only [entryOk, Bool.and_eq_true] at he
    obtain ⟨hf, ht⟩ := he
    have hbase : Wf (setSourcePile (setDestPile s dest ti
        (splice (destPile s dest ti) (((destPile s dest ti).length : Int) - count) count).2) frm fi
        (sourcePile (setDestPile s dest ti
          (splice (destPile s dest ti) (((destPile s dest ti).length : Int) - count) count).2) frm fi
          ++ (splice (destPile s dest ti) (((destPile s dest ti).length : Int) - count) count).1)) := by
      obtain ⟨a4, a7, a3, a2, _⟩ := setDestPile_frame s dest ti
        (splice (destPile s dest ti) (((destPile s dest ti).length : Int) - count) count).2
      obtain ⟨b4, b7, b3, b2, _⟩ := setSourcePile_frame (setDestPile s dest ti
        (splice (destPile s dest ti) (((destPile s dest ti).length : Int) - count) count).2) frm fi
        (sourcePile (setDestPile s dest ti
          (splice (destPile s dest ti) (((destPile s dest ti).length : Int) - count) count).2) frm fi
          ++ (splice (destPile s dest ti) (((destPile s dest ti).length : Int) - count) count).1)
      refine ⟨?_, ?_, ?_, ?_, ?_⟩
      · rw [b4, a4]; exact h.nFound
      · rw [b7, a7]; exact h.nTab
      · rw [b3, a3]; exact h.selOk
      · rw [b2, a2]; exact h.logOk
      · intro k
        rw [← h.cards k]
        exact countAll_transfer_back k s frm fi dest ti _ _ h.nFound h.nTab hf ht
          (pileCount_splice k _ _ _)
    simp only [undoEntry]
    split
    · refine ⟨hbase.nFound, by simpa using hbase.nTab, hbase.selOk, hbase.logOk, ?_⟩
      intro k
      rw [← hbase.cards k]
      apply countAll_congr <;> try rfl
      exact pilesCount_set_key k _ _ _ (pileCount_setTopFaceUp k false _)
    · exact hbase
  | flip t =>
    refine ⟨h.nFound, by simpa [undoEntry] using h.nTab, h.selOk, h.logOk, ?_⟩
    intro k
    rw [← h.cards k]
    apply countAll_congr <;> try rfl
    exact pilesCount_set_key k _ _ _ (pileCount_setTopFaceUp k false _)

theorem undoEntry_selected (s : State) (e : Entry) : (undoEntry s e).selected = s.selected := by
  cases e with
  | deal card =>
    simp only [undoEntry]
    split
    · rfl
    · split <;> rfl
  | recycle => rfl
  | move frm fi si dest ti count flipped =>
    simp only [undoEntry]
    split
    · simp [(setSourcePile_frame _ _ _ _).2.2.1, (setDestPile_frame _ _ _ _).2.2.1]
    · simp [(setSourcePile_frame _ _ _ _).2.2.1, (setDestPile_frame _ _ _ _).2.2.1]
  | flip t => rfl

theorem undo_inv (s : State) (h : Inv s) : Inv (undo s) := by
  unfold undo
  split
  · exact h
  · split
    · exact h
    · next last hlast =>
      apply afterAnyMove_inv
      have hmem : last ∈ s.moves := List.mem_of_getLast?_eq_some hlast
      have h0 : Wf { s with moves := s.moves.dropLast } :=
        ⟨h.wf.nFound, h.wf.nTab, h.wf.selOk,
          fun e he => h.wf.logOk e (List.dropLast_subset _ he), h.wf.cards⟩
      have h1 := undoEntry_wf _ last h0 (h.wf.logOk last hmem)
      refine ⟨h1.nFound, h1.nTab, ?_, h1.logOk, h1.cards⟩
      intro sel hsel
      simp [clearSelections] at hsel

theorem autoWaste_inv (s u : State) (h : Inv s) (hu : autoWaste s = some u) : Inv u := by
  unfold autoWaste at hu
  split at hu
  · cases hu
  · split at hu
    · next f hf =>
      simp only [Option.some.injEq] at hu
      subst hu
      exact doMove_inv s _ _ _ _ _ _ h.wf rfl (firstFoundation_lt s _ f hf)
    · cases hu

theorem autoTableau_inv (s : State) (h : Inv s) :
    ∀ (l : List Nat) (u : State), (∀ t ∈ l, t < 7) → autoTableau s l = some u → Inv u
  | [], u, _, hu => by simp [autoTableau] at hu
  | t :: ts, u, hl, hu => by
    have ht : t < 7 := hl t (List.mem_cons_self _ _)
    have hts : ∀ x ∈ ts, x < 7 := fun x hx => hl x (List.mem_cons_of_mem _ hx)
    unfold autoTableau at hu
    split at hu
    · split at hu
      · next f hf =>
        simp only [Option.some.injEq] at hu
        subst hu
        exact doMove_inv s _ _ _ _ _ _ h.wf (by simpa [pileRefOk] using ht)
          (firstFoundation_lt s _ f hf)
      · exact autoTableau_inv s h ts u hts hu
    · exact autoTableau_inv s h ts u hts hu

theorem autoPass_inv (s u : State) (h : Inv s) (hu : autoPass s = some u) : Inv u := by
  unfold autoPass at hu
  split at hu
  · next s1 h1 =>
    simp only [Option.some.injEq] at hu
    subst hu
    exact autoWaste_inv s _ h h1
  · exact autoTableau_inv s h _ u (by simp) hu

theorem autoLoop_inv : ∀ (n : Nat) (s : State), Inv s → Inv (autoLoop n s)
  | 0, _, h => h
  | n + 1, s, h => by
    unfold autoLoop
    split
    · next s1 h1 =>
      have hi := autoPass_inv s s1 h h1
      split
      · exact hi
      · exact autoLoop_inv n s1 hi
    · exact h

theorem autoMove_inv (s : State) (h : Inv s) : Inv (autoMove s) := by
  unfold autoMove
  split
  · exact h
  · exact afterAnyMove_inv _ (autoLoop_inv 200 s h).wf

theorem setPaused_inv (s : State) (val : Bool) (now : Int) (h : Inv s) :
    Inv (setPaused s val now) := by
  unfold setPaused
  split
  · exact h
  · split
    · exact h.of_same_piles rfl rfl rfl rfl rfl h.wf.selOk
    · exact h.of_same_piles (by simp [startTimer]) (by simp [startTimer]) (by simp [startTimer])
        (by simp [startTimer]) (by simp [startTimer]) (by simpa [startTimer] using h.wf.selOk)

theorem topOk_eq (p : Pile) : topOk p = ((p.map Card.faceUp).getLast?).getD true := by
  simp only [topOk, topCard, List.getLast?_map]
  cases p.getLast? <;> rfl

theorem dealNewGame_inv (s : State) (now : Int) (tape : Tape) : Inv (dealNewGame s now tape) := by
  obtain ⟨h1, _, h3, h4⟩ := deal_of_length_52 (makeDeck tape) (makeDeck_length tape)
  have hlen : (dealNewGame s now tape).tableau.length = 7 := by
    have := congrArg List.length h1
    simpa using this
  refine ⟨⟨rfl, hlen, ?_, ?_, ?_⟩, ?_⟩
  · intro sel hsel; simp at hsel
  · intro e he; simp at he
  · intro k
    have hperm : ((makeDeck tape).map Card.key).Perm standardDeck := by
      rw [← freshDeck_key tape.nonce]
      exact (makeDeck_perm tape).map _
    have hcount : List.count k ((makeDeck tape).map Card.key) = List.count k standardDeck :=
      hperm.countP_eq _
    rw [← hcount]
    have ht : pilesCount k (dealNewGame s now tape).tableau = pileCount k ((makeDeck tape).drop 24) := by
      rw [← pileCount_flatten, dealNewGame_tableau]
      simp only [pileCount, h3, List.map_reverse, List.count_reverse]
    have hs : pileCount k (dealNewGame s now tape).stock = pileCount k ((makeDeck tape).take 24) := by
      rw [dealNewGame_stock, h4, pileCount_reverse]
    have h5 := pileCount_take_drop k (makeDeck tape) 24
    have h6 : pilesCount k [[], [], [], []] = 0 := rfl
    have h7 : List.count k ((makeDeck tape).map Card.key) = pileCount k (makeDeck tape) := rfl
    rw [h7]
    simp only [countAll, ht, hs, dealNewGame_waste, dealNewGame_foundations, pileCount_nil, h6]
    omega
  · intro p hp
    rw [topOk_eq]
    have : p.map Card.faceUp ∈ (dealNewGame s now tape).tableau.map (List.map Card.faceUp) :=
      List.mem_map_of_mem _ hp
    rw [dealNewGame_tableau, h1] at this
    simp only [List.mem_cons, List.mem_singleton, List.not_mem_nil, or_false] at this
    rcases this with h | h | h | h | h | h | h <;> rw [h] <;> rfl

/-- Every handler keeps the invariant. -/
theorem step_inv (s : State) (e : Event) (h : Inv s) : Inv (step s e) := by
  cases e with
  | stockClick => exact onStockClick_inv s h
  | wasteClick => exact onWasteClick_inv s h
  | cardClick cardId =>
    simp only [step]; split
    · exact onCardClick_inv s cardId h
    · exact h
  | cardDoubleClick cardId =>
    simp only [step]; split
    · exact onCardDoubleClick_inv s cardId h
    · exact h
  | cardPointerDown cardId =>
    simp only [step]; split
    · exact onCardPointerDown_inv s cardId h
    · exact h
  | dragEnd target =>
    simp only [step]; split
    · next hv => exact onDragEnd_inv s target hv h
    · exact h
  | foundationClick f =>
    simp only [step]; split
    · next hf => exact onFoundationClick_inv s f hf h
    · exact h
  | tableauClick t =>
    simp only [step]; split
    · next ht => exact onTableauClick_inv s t ht h
    · exact h
  | undo => exact undo_inv s h
  | autoMove => exact autoMove_inv s h
  | togglePause now => exact setPaused_inv s _ now h
  | newGame now tape => exact dealNewGame_inv s now tape

/-- Every reachable state satisfies the invariant. -/
theorem reachable_inv {s : State} (h : Reachable s) : Inv s := by
  induction h with
  | boot now tape => exact dealNewGame_inv _ now tape
  | step e _ ih => exact step_inv _ e ih

theorem reachable_run {s : State} (h : Reachable s) (es : List Event) : Reachable (run s es) := by
  induction es generalizing s with
  | nil => exact h
  | cons e es ih => exact ih (Reachable.step e h)

/-! ## Invariants of the reachable states -/

theorem count_prod_eq (k : Suit × Int) (l : List (Suit × Int)) :
    @List.count _ instBEqOfDecidableEq k l = List.count k l := by
  simp only [List.count]
  congr 1
  funext x
  obtain ⟨a, b⟩ := x
  obtain ⟨c, d⟩ := k
  simp [BEq.beq]

/-- C3. In every reachable state the cards of stock, waste, foundations and tableau
together carry exactly the 52 suit-rank pairs of the standard deck, each once. -/
theorem card_conservation {s : State} (h : Reachable s) :
    ((allCards s).map Card.key).Perm standardDeck
    ∧ (allCards s).length = 52
    ∧ ((allCards s).map Card.key).Nodup := by
  have hperm : ((allCards s).map Card.key).Perm standardDeck := by
    rw [List.perm_iff_count]
    intro k
    rw [count_prod_eq, count_prod_eq, count_allCards]
    exact (reachable_inv h).wf.cards k
  refine ⟨hperm, ?_, ?_⟩
  · have := hperm.length_eq
    simpa using this
  · exact hperm.nodup_iff.mpr standardDeck_nodup

/-- C3, on the state reached from a boot by a draw, a move with a flip, an undo and an
auto-move. -/
theorem card_conservation_witness :
    Reachable (run zeroGame (Event.stockClick :: queenOntoKing ++ [Event.undo, Event.autoMove]))
    ∧ ((allCards (run zeroGame
          (Event.stockClick :: queenOntoKing ++ [Event.undo, Event.autoMove]))).map Card.key).Perm
        standardDeck :=
  ⟨reachable_run (Reachable.boot 0 zeroTape) _,
    (card_conservation (reachable_run (Reachable.boot 0 zeroTape) _)).1⟩

/-- C5. In every reachable state there are seven tableau piles and the top card of each
non-empty one is face-up. -/
theorem tableau_tops_faceUp {s : State} (h : Reachable s) :
    s.tableau.length = 7
    ∧ ∀ p ∈ s.tableau, ∀ c, topCard p = some c → c.faceUp = true := by
  refine ⟨(reachable_inv h).wf.nTab, ?_⟩
  intro p hp c hc
  have := (reachable_inv h).tops p hp
  simpa [topOk, hc] using this

set_option maxRecDepth 100000 in
/-- C5, on the state reached from a boot by a move that uncovers a face-down card: the
uncovered K♣ is the top of column 1 and is face-up. -/
theorem tableau_tops_faceUp_witness :
    Reachable (run zeroGame queenOntoKing)
    ∧ topCard (pileAt (run zeroGame queenOntoKing).tableau 1)
        = some ⟨⟨Suit.clubs, 13, ""⟩, Suit.clubs, 13, true⟩
    ∧ ∀ p ∈ (run zeroGame queenOntoKing).tableau, ∀ c, topCard p = some c → c.faceUp = true :=
  ⟨reachable_run (Reachable.boot 0 zeroTape) _, by decide,
    (tableau_tops_faceUp (reachable_run (Reachable.boot 0 zeroTape) queenOntoKing)).2⟩

/-! ## Stock clicks -/

/-- C9. On a reachable unpaused state with a non-empty stock, a stock click takes the last
card of the stock, puts it face-up on top of the waste, appends one `deal` entry with its
id to the log, adds 1 to the counter and changes neither foundations nor tableau. -/
theorem draw_spec {s : State} (h : Reachable s) (hp : s.paused = false) (hs : s.stock ≠ []) :
    ∃ c, topCard s.stock = some c
      ∧ s.stock = (step s Event.stockClick).stock ++ [c]
      ∧ (step s Event.stockClick).waste = s.waste ++ [{ c with faceUp := true }]
      ∧ (step s Event.stockClick).moves = s.moves ++ [Entry.deal c.id]
      ∧ (step s Event.stockClick).moveCount = s.moveCount + 1
      ∧ (step s Event.stockClick).foundations = s.foundations
      ∧ (step s Event.stockClick).tableau = s.tableau := by
  have hinv := reachable_inv h
  cases hc : topCard s.stock with
  | none =>
    exfalso
    apply hs
    simpa [topCard] using hc
  | some c =>
    have hstep : step s Event.stockClick = checkWin
        { s with stock := s.stock.dropLast,
                 waste := s.waste ++ [{ c with faceUp := true }],
                 moves := s.moves ++ [Entry.deal c.id],
                 moveCount := s.moveCount + 1 } := by
      simp only [step, onStockClick, hp, hc]
      exact afterAnyMove_of_tops _ hinv.tops
    refine ⟨c, rfl, ?_, ?_, ?_, ?_, ?_, ?_⟩ <;> rw [hstep] <;> simp
    exact eq_dropLast_append_of_getLast? hc

set_option maxRecDepth 100000 in
/-- C9 on the freshly dealt `zeroGame`: the click draws 2♠. -/
theorem draw_spec_witness :
    Reachable zeroGame ∧ zeroGame.paused = false ∧ zeroGame.stock ≠ []
    ∧ ∃ c, topCard zeroGame.stock = some c
      ∧ zeroGame.stock = (step zeroGame Event.stockClick).stock ++ [c]
      ∧ (step zeroGame Event.stockClick).waste = zeroGame.waste ++ [{ c with faceUp := true }]
      ∧ (step zeroGame Event.stockClick).moves = zeroGame.moves ++ [Entry.deal c.id]
      ∧ (step zeroGame Event.stockClick).moveCount = zeroGame.moveCount + 1
      ∧ (step zeroGame Event.stockClick).foundations = zeroGame.foundations
      ∧ (step zeroGame Event.stockClick).tableau = zeroGame.tableau :=
  ⟨Reachable.boot 0 zeroTape, by decide, by decide,
    draw_spec (Reachable.boot 0 zeroTape) (by decide) (by decide)⟩

/-- C10. On a reachable unpaused state with an empty stock and a non-empty waste, a stock
click empties the waste, makes the stock the old waste reversed and face-down, appends
one `recycle` entry to the log and changes neither foundations nor tableau; on any state
whose stock and waste are both empty the click changes nothing. -/
theorem recycle_spec {s : State} (h : Reachable s) (hp : s.paused = false) (hs : s.stock = [])
    (hw : s.waste ≠ []) :
    (step s Event.stockClick).waste = []
    ∧ (step s Event.stockClick).stock = s.waste.reverse.map (fun c => { c with faceUp := false })
    ∧ ((step s Event.stockClick).stock.map Card.faceUp).all (fun b => !b) = true
    ∧ ((step s Event.stockClick).stock.map Card.id).Perm (s.waste.map Card.id)
    ∧ (step s Event.stockClick).moves = s.moves ++ [Entry.recycle]
    ∧ (step s Event.stockClick).moveCount = s.moveCount + 1
    ∧ (step s Event.stockClick).foundations = s.foundations
    ∧ (step s Event.stockClick).tableau = s.tableau
    ∧ (∀ u : State, step { u with stock := [], waste := [] } Event.stockClick
        = { u with stock := [], waste := [] }) := by
  have hinv := reachable_inv h
  have hlen : s.waste.length ≠ 0 := by
    intro h0
    exact hw (List.eq_nil_of_length_eq_zero h0)
  have hstep : step s Event.stockClick = checkWin
      { s with stock := s.stock ++ s.waste.reverse.map (fun c => { c with faceUp := false }),
               waste := [],
               moves := s.moves ++ [Entry.recycle],
               moveCount := s.moveCount + 1 } := by
    simp only [step, onStockClick, hp, topCard, hs, List.getLast?_nil]
    simp only [hlen, bne_iff_ne, ne_eq, not_false_eq_true, if_true, Bool.false_eq_true, if_false]
    exact afterAnyMove_of_tops _ hinv.tops
  have hstock : (step s Event.stockClick).stock
      = s.waste.reverse.map (fun c => { c with faceUp := false }) := by
    rw [hstep]; simp [hs]
  refine ⟨by rw [hstep]; simp, hstock, ?_, ?_, by rw [hstep]; simp, by rw [hstep]; simp,
    by rw [hstep]; simp, by rw [hstep]; simp, ?_⟩
  · rw [hstock]; simp [List.all_eq_true]
  · rw [hstock]
    simp only [List.map_map]
    exact (List.reverse_perm _).map _
  · intro u
    cases hpu : u.paused <;> simp [step, onStockClick, topCard, hpu]

set_option maxRecDepth 100000 in
/-- C10 on the state reached from `zeroGame` by 24 draws: the stock is empty, the waste
holds the 24 cards, and the click recycles them. -/
theorem recycle_spec_witness :
    Reachable (run zeroGame (List.replicate 24 Event.stockClick))
    ∧ (run zeroGame (List.replicate 24 Event.stockClick)).stock = []
    ∧ (run zeroGame (List.replicate 24 Event.stockClick)).waste.length = 24
    ∧ (step (run zeroGame (List.replicate 24 Event.stockClick)) Event.stockClick).waste = []
    ∧ (step (run zeroGame (List.replicate 24 Event.stockClick)) Event.stockClick).stock
        = zeroGame.stock :=
  ⟨reachable_run (Reachable.boot 0 zeroTape) _, by decide, by decide,
    (recycle_spec (reachable_run (Reachable.boot 0 zeroTape) (List.replicate 24 Event.stockClick))
      (by decide) (by decide) (by decide)).1, by decide⟩

/-! ## Where the code leaves the rules -/

set_option maxRecDepth 100000 in
/-- C4. The foundation invariant fails on a reachable state: after A♥ is drawn and
selected on the waste, a second draw puts 2♠ on top of it while the selection stays, and
a click on the empty foundation 0 moves both cards there (only A♥ is checked); the pile
A♥, 2♠ is not a same-suit run. -/
theorem foundation_run_broken :
    Reachable (run aceGame aceThenDraw)
    ∧ (run aceGame aceThenDraw).foundations.map (List.map Card.key)
        = [[(Suit.hearts, 1), (Suit.spades, 2)], [], [], []]
    ∧ (run aceGame aceThenDraw).moves
        = [Entry.deal ⟨Suit.hearts, 1, ""⟩, Entry.deal ⟨Suit.spades, 2, ""⟩,
           Entry.move PileKind.waste 0 0 PileKind.foundation 0 2 false]
    ∧ ¬ FoundationsOk (run aceGame aceThenDraw) := by
  refine ⟨reachable_run (Reachable.boot 0 aceTape) _, by decide, by decide, ?_⟩
  intro h
  have h0 := h (pileAt (run aceGame aceThenDraw).foundations 0) (by decide)
  revert h0
  decide

set_option maxRecDepth 100000 in
/-- C6. Undo does not take back a move that uncovered a face-down card: after Q♣ is moved
from column 1 onto K♦ (one move, counter 1), the log ends with the `flip` entry written
by `ensureTopFaceUp`; `undo` pops it and turns K♣ face-down, and its own `afterAnyMove`
turns it face-up and logs the flip again.  Whatever the number of undos, the piles never
return to those before the move. -/
theorem undo_round_trip_broken :
    Reachable zeroGame ∧ zeroGame.paused = false
    ∧ (run zeroGame queenOntoKing).moveCount = zeroGame.moveCount + 1
    ∧ (run zeroGame queenOntoKing).moves
        = [Entry.move PileKind.tableau 1 1 PileKind.tableau 4 1 false, Entry.flip 1]
    ∧ (undo (run zeroGame queenOntoKing)).moves = (run zeroGame queenOntoKing).moves
    ∧ (undo (run zeroGame queenOntoKing)).tableau = (run zeroGame queenOntoKing).tableau
    ∧ board (undo (run zeroGame queenOntoKing)) ≠ board zeroGame
    ∧ ∀ n : Nat, board (undo^[n] (run zeroGame queenOntoKing)) ≠ board zeroGame := by
  have hfix : undo (undo (run zeroGame queenOntoKing)) = undo (run zeroGame queenOntoKing) := by
    decide
  have h1 : board (undo (run zeroGame queenOntoKing)) ≠ board zeroGame := by decide
  refine ⟨Reachable.boot 0 zeroTape, by decide, by decide, by decide, by decide, by decide, h1, ?_⟩
  intro n
  cases n with
  | zero => decide
  | succ n =>
    rw [Function.iterate_succ_apply, Function.iterate_fixed hfix]
    exact h1

/-! ## Rejections -/

/-- C13. On a state whose move log is empty, `undo` returns the state as it is: no pile,
face-up flag, log entry or counter changes, and no step of it can fail. -/
theorem undo_empty_log (s : State) (h : s.moves = []) : undo s = s := by
  unfold undo
  split
  · rfl
  · rw [h]; rfl

/-- C13 on the freshly dealt `zeroGame`, whose log is empty. -/
theorem undo_empty_log_witness : zeroGame.moves = [] ∧ undo zeroGame = zeroGame :=
  ⟨rfl, undo_empty_log zeroGame rfl⟩

/-- C15. On a paused state a stock click, a card click, a card double-click, a click on a
foundation or tableau pile, `undo` and `autoMove` each return the state as it is. -/
theorem paused_rejects (s : State) (hp : s.paused = true) (cardId : CardId) (f t : Nat) :
    onStockClick s = s
    ∧ onCardClick s cardId = s
    ∧ onCardDoubleClick s cardId = s
    ∧ onFoundationClick s f = s
    ∧ onTableauClick s t = s
    ∧ undo s = s
    ∧ autoMove s = s
    ∧ step s Event.stockClick = s
    ∧ step s (Event.cardClick cardId) = s
    ∧ step s (Event.cardDoubleClick cardId) = s
    ∧ step s (Event.foundationClick f) = s
    ∧ step s (Event.tableauClick t) = s
    ∧ step s Event.undo = s
    ∧ step s Event.autoMove = s := by
  have h1 : onStockClick s = s := by simp [onStockClick, hp]
  have h2 : onCardClick s cardId = s := by simp [onCardClick, hp]
  have h3 : onCardDoubleClick s cardId = s := by simp [onCardDoubleClick, hp]
  have h4 : onFoundationClick s f = s := by simp [onFoundationClick, hp]
  have h5 : onTableauClick s t = s := by simp [onTableauClick, hp]
  have h6 : undo s = s := by simp [undo, hp]
  have h7 : autoMove s = s := by simp [autoMove, hp]
  refine ⟨h1, h2, h3, h4, h5, h6, h7, h1, ?_, ?_, ?_, ?_, h6, h7⟩
  · simp only [step, h2, ite_self]
  · simp only [step, h3, ite_self]
  · simp only [step, h4, ite_self]
  · simp only [step, h5, ite_self]

set_option maxRecDepth 100000 in
/-- C15 on `pausedGame`: a click on the stock and a double-click on A♠ change nothing. -/
theorem paused_rejects_witness :
    pausedGame.paused = true
    ∧ step pausedGame Event.stockClick = pausedGame
    ∧ step pausedGame (Event.cardDoubleClick ⟨Suit.spades, 1, ""⟩) = pausedGame :=
  ⟨by decide,
    (paused_rejects pausedGame (by decide) ⟨Suit.spades, 1, ""⟩ 0 0).2.2.2.2.2.2.2.1,
    (paused_rejects pausedGame (by decide) ⟨Suit.spades, 1, ""⟩ 0 0).2.2.2.2.2.2.2.2.2.1⟩

theorem selectClicked_board (s : State) (loc : Loc) :
    board (selectClicked s loc) = board s ∧ (selectClicked s loc).moves = s.moves := by
  unfold selectClicked
  split
  · exact ⟨rfl, rfl⟩
  · exact ⟨rfl, rfl⟩
  · simp only
    split
    · exact ⟨rfl, rfl⟩
    · exact ⟨rfl, rfl⟩

/-- Each click handler taken alone rejects an illegal placement.  With a selection in
place and a foundation or tableau pile whose legality test fails on the pile top and the
first selected card, the click handler of the pile element returns the state as it is,
and the click handler of a card of the pile changes neither a pile, a face-up flag, the
log nor the counter (it only replaces the selection).  The page runs the card handler
and then, as the click bubbles, the pile handler; this is about each of them alone. -/
theorem single_handler_rejects (s : State) (sel : Selection) (hsel : s.selected = some sel) :
    (∀ f, legalOn s PileKind.foundation f (selectionFirst s sel) = false → onFoundationClick s f = s)
    ∧ (∀ t, legalOn s PileKind.tableau t (selectionFirst s sel) = false → onTableauClick s t = s)
    ∧ (∀ cardId loc, findCard s cardId = some loc →
        legalOn s loc.whr loc.idx (selectionFirst s sel) = false →
        board (onCardClick s cardId) = board s ∧ (onCardClick s cardId).moves = s.moves)
    ∧ (∀ f, legalOn s PileKind.foundation f (selectionFirst s sel) = false → step s (Event.foundationClick f) = s)
    ∧ (∀ t, legalOn s PileKind.tableau t (selectionFirst s sel) = false → step s (Event.tableauClick t) = s)
    ∧ (∀ cardId loc, findCard s cardId = some loc →
        legalOn s loc.whr loc.idx (selectionFirst s sel) = false →
        board (step s (Event.cardClick cardId)) = board s
        ∧ (step s (Event.cardClick cardId)).moves = s.moves) := by
  have hm : getSelectedTop s = selectionFirst s sel := by
    simp [getSelectedTop, selectionFirst, hsel]
  have hF : ∀ f, legalOn s PileKind.foundation f (selectionFirst s sel) = false → onFoundationClick s f = s := by
    intro f hf
    simp only [legalOn] at hf
    unfold onFoundationClick
    split
    · rfl
    · simp [hm, hf]
  have hT : ∀ t, legalOn s PileKind.tableau t (selectionFirst s sel) = false → onTableauClick s t = s := by
    intro t ht
    simp only [legalOn] at ht
    unfold onTableauClick
    split
    · rfl
    · simp [hm, ht]
  have hC : ∀ cardId loc, findCard s cardId = some loc →
      legalOn s loc.whr loc.idx (selectionFirst s sel) = false →
      board (onCardClick s cardId) = board s ∧ (onCardClick s cardId).moves = s.moves := by
    intro cardId loc hloc hl
    unfold onCardClick
    split
    · exact ⟨rfl, rfl⟩
    · split
      · exact ⟨rfl, rfl⟩
      · rw [hloc]
        simp only
        cases hk : loc.whr with
        | waste =>
          have h1 : (PileKind.waste == PileKind.foundation) = false := by decide
          have h2 : (PileKind.waste == PileKind.tableau) = false := by decide
          simp only [h1, h2, Bool.and_false, Bool.false_and, Bool.false_eq_true, if_false]
          exact selectClicked_board s loc
        | foundation =>
          rw [hk] at hl
          simp only [legalOn] at hl
          simp only [hm, hl, Bool.and_false, Bool.false_eq_true, if_false]
          have : (PileKind.foundation == PileKind.tableau) = false := by decide
          simp only [this, Bool.and_false, Bool.false_and, Bool.false_eq_true, if_false]
          exact selectClicked_board s loc
        | tableau =>
          rw [hk] at hl
          simp only [legalOn] at hl
          have : (PileKind.tableau == PileKind.foundation) = false := by decide
          simp only [hm, hl, this, Bool.and_false, Bool.false_and, Bool.false_eq_true, if_false]
          exact selectClicked_board s loc
  refine ⟨hF, hT, hC, ?_, ?_, ?_⟩
  · intro f hf
    simp only [step, hF f hf, ite_self]
  · intro t ht
    simp only [step, hT t ht, ite_self]
  · intro cardId loc hloc hl
    simp only [step]
    split
    · exact hC cardId loc hloc hl
    · exact ⟨rfl, rfl⟩

set_option maxRecDepth 100000 in
/-- The handlers taken alone on `queenSelected`, where Q♣ is selected: a click on the
empty foundation 0, on column 2 (top 9♣) and on the 9♣ card itself move nothing. -/
theorem single_handler_rejects_queenSelected :
    queenSelected.selected = some ⟨PileKind.tableau, 1, 1⟩
    ∧ step queenSelected (Event.foundationClick 0) = queenSelected
    ∧ step queenSelected (Event.tableauClick 2) = queenSelected
    ∧ board (step queenSelected (Event.cardClick ⟨Suit.clubs, 9, ""⟩)) = board queenSelected :=
  ⟨by decide,
    (single_handler_rejects queenSelected ⟨PileKind.tableau, 1, 1⟩ (by decide)).2.2.2.1 0
      (by decide),
    (single_handler_rejects queenSelected ⟨PileKind.tableau, 1, 1⟩ (by decide)).2.2.2.2.1 2
      (by decide),
    ((single_handler_rejects queenSelected ⟨PileKind.tableau, 1, 1⟩ (by decide)).2.2.2.2.2
      ⟨Suit.clubs, 9, ""⟩ ⟨PileKind.tableau, 2, 2⟩ (by decide) (by decide)).1⟩

set_option maxRecDepth 100000 in
/-- C16. An illegal placement attempted through a card of the pile is not always without
effect.  On the reachable `queenOverBrokenPile` Q♣ is selected and foundation 1 holds
A♥, 3♠, 2♠, so `canPlaceOnFoundation` refuses Q♣ on the top 2♠.  A mouse click on the 3♠
node (its `mousedown` and `mouseup` do nothing, 3♠ is not the top) runs `onCardClick`,
which finds the placement illegal and makes 3♠ the selection, and then, by bubbling, the
click handler of foundation 1, which tests the new selection against the top 2♠, accepts
and commits: 3♠, 2♠ are spliced off foundation 1 and pushed back on it.  The piles are as
before, but the log has a new `move` entry, the counter is one higher and the selection
is gone.  The pile handler alone, and the card handler alone, log nothing. -/
theorem card_click_logs_null_move :
    Reachable queenOverBrokenPile
    ∧ queenOverBrokenPile.paused = false ∧ queenOverBrokenPile.drag = false
    ∧ queenOverBrokenPile.selected = some ⟨PileKind.tableau, 1, 1⟩
    ∧ (selectionFirst queenOverBrokenPile ⟨PileKind.tableau, 1, 1⟩).map Card.key
        = some (Suit.clubs, 12)
    ∧ (pileAt queenOverBrokenPile.foundations 1).map Card.key
        = [(Suit.hearts, 1), (Suit.spades, 3), (Suit.spades, 2)]
    ∧ legalOn queenOverBrokenPile PileKind.foundation 1
        (selectionFirst queenOverBrokenPile ⟨PileKind.tableau, 1, 1⟩) = false
    ∧ hasListeners queenOverBrokenPile ⟨Suit.spades, 3, ""⟩ = true
    ∧ findCard queenOverBrokenPile ⟨Suit.spades, 3, ""⟩ = some ⟨PileKind.foundation, 1, 1⟩
    ∧ step queenOverBrokenPile (Event.cardPointerDown ⟨Suit.spades, 3, ""⟩) = queenOverBrokenPile
    ∧ (∀ target, step queenOverBrokenPile (Event.dragEnd target) = queenOverBrokenPile)
    ∧ step queenOverBrokenPile (Event.foundationClick 1) = queenOverBrokenPile
    ∧ step queenOverBrokenPile (Event.cardClick ⟨Suit.spades, 3, ""⟩)
        = { queenOverBrokenPile with selected := some ⟨PileKind.foundation, 1, 1⟩ }
    ∧ (run queenOverBrokenPile (clickOnFoundationCard ⟨Suit.spades, 3, ""⟩ 1)).moves
        = queenOverBrokenPile.moves
          ++ [Entry.move PileKind.foundation 1 1 PileKind.foundation 1 2 false]
    ∧ (run queenOverBrokenPile (clickOnFoundationCard ⟨Suit.spades, 3, ""⟩ 1)).moveCount
        = queenOverBrokenPile.moveCount + 1
    ∧ (run queenOverBrokenPile (clickOnFoundationCard ⟨Suit.spades, 3, ""⟩ 1)).selected = none
    ∧ (run queenOverBrokenPile (clickOnFoundationCard ⟨Suit.spades, 3, ""⟩ 1)).moves
        ≠ queenOverBrokenPile.moves
    ∧ (run queenOverBrokenPile (clickOnFoundationCard ⟨Suit.spades, 3, ""⟩ 1)).moveCount
        ≠ queenOverBrokenPile.moveCount
    ∧ (run queenOverBrokenPile (clickOnFoundationCard ⟨Suit.spades, 3, ""⟩ 1)).stock
        = queenOverBrokenPile.stock
    ∧ (run queenOverBrokenPile (clickOnFoundationCard ⟨Suit.spades, 3, ""⟩ 1)).waste
        = queenOverBrokenPile.waste
    ∧ (run queenOverBrokenPile (clickOnFoundationCard ⟨Suit.spades, 3, ""⟩ 1)).foundations
        = queenOverBrokenPile.foundations
    ∧ (run queenOverBrokenPile (clickOnFoundationCard ⟨Suit.spades, 3, ""⟩ 1)).tableau
        = queenOverBrokenPile.tableau := by
  refine ⟨reachable_run (Reachable.boot 0 aceTape) _, ?_, ?_, ?_, ?_, ?_, ?_, ?_, ?_, ?_, ?_, ?_,
    ?_, ?_, ?_, ?_, ?_, ?_, ?_, ?_, ?_, ?_⟩
  case refine_10 =>
    intro target
    have hd : queenOverBrokenPile.drag = false := by decide
    simp only [step, onDragEnd, hd, Bool.not_false, if_true, ite_self]
  all_goals decide

/-! ## `autoMove` -/

theorem firstFoundation_none (s : State) (card : Option Card)
    (h : ∀ f, f < 4 → canPlaceOnFoundation (topCard (pileAt s.foundations f)) card = false) :
    firstFoundation s card = none := by
  unfold firstFoundation
  rw [List.find?_eq_none]
  intro f hf
  rw [h f (by simpa using hf)]
  simp

theorem autoWaste_none (s : State) (h : NothingPlayable s) : autoWaste s = none := by
  unfold autoWaste
  cases hw : topCard s.waste with
  | none => rfl
  | some w =>
    have := firstFoundation_none s (some w) (by intro f hf; rw [← hw]; exact h.1 f hf)
    simp [this]

theorem autoTableau_none (s : State) (h : NothingPlayable s) :
    ∀ l : List Nat, (∀ t ∈ l, t < 7) → autoTableau s l = none
  | [], _ => rfl
  | t :: ts, hl => by
    have ht : t < 7 := hl t (List.mem_cons_self _ _)
    have ih := autoTableau_none s h ts (fun x hx => hl x (List.mem_cons_of_mem _ hx))
    unfold autoTableau
    cases htop : topCard (pileAt s.tableau t) with
    | none => simpa using ih
    | some tt =>
      have := firstFoundation_none s (some tt) (by intro f hf; rw [← htop]; exact h.2 t ht f hf)
      simpa [this] using ih

theorem autoPass_none (s : State) (h : NothingPlayable s) : autoPass s = none := by
  unfold autoPass
  rw [autoWaste_none s h]
  exact autoTableau_none s h _ (by simp)

/-- C14. On a reachable unpaused state where no top card can go to a foundation, the
first pass of `autoMove` moves nothing, the loop stops there, and `autoMove` leaves all
piles, face-up flags, the log, the counter and the selection as they were. -/
theorem autoMove_no_progress {s : State} (h : Reachable s) (hp : s.paused = false)
    (hn : NothingPlayable s) :
    autoPass s = none
    ∧ (∀ n : Nat, autoLoop (n + 1) s = s)
    ∧ board (autoMove s) = board s
    ∧ (autoMove s).moves = s.moves
    ∧ (autoMove s).selected = s.selected
    ∧ autoMove s = checkWin s := by
  have hpass := autoPass_none s hn
  have hloop : ∀ n : Nat, autoLoop (n + 1) s = s := by
    intro n
    simp [autoLoop, hpass]
  have hauto : autoMove s = checkWin s := by
    simp only [autoMove, hp, Bool.false_eq_true, if_false, hloop 199]
    exact afterAnyMove_of_tops s (reachable_inv h).tops
  refine ⟨hpass, hloop, ?_, ?_, ?_, hauto⟩
  · rw [hauto]; simp [board]
  · rw [hauto]; simp
  · rw [hauto]; simp

set_option maxRecDepth 100000 in
/-- C14 on `aceHome`: with A♠ on its foundation no top card is playable, and a second
`autoMove` changes nothing. -/
theorem autoMove_no_progress_witness :
    Reachable aceHome ∧ aceHome.paused = false ∧ NothingPlayable aceHome
    ∧ board (autoMove aceHome) = board aceHome
    ∧ (autoMove aceHome).moves = aceHome.moves :=
  ⟨Reachable.step _ (Reachable.boot 0 zeroTape), by decide, ⟨by decide, by decide⟩,
    (autoMove_no_progress (Reachable.step _ (Reachable.boot 0 zeroTape)) (by decide)
      ⟨by decide, by decide⟩).2.2.1,
    (autoMove_no_progress (Reachable.step _ (Reachable.boot 0 zeroTape)) (by decide)
      ⟨by decide, by decide⟩).2.2.2.1⟩

/-! ## Moving a run -/

theorem splice_tail (l : Pile) (start : Nat) (h : start ≤ l.length) :
    splice l start ((l.length : Int) - start) = (l.drop start, l.take start) := by
  have ha : (if (start : Int) < 0 then max ((l.length : Int) + start) 0
      else min (start : Int) l.length).toNat = start := by
    rw [if_neg (by omega)]
    omega
  simp only [splice, ha]
  have hdc : (min (max ((l.length : Int) - start) 0) ((l.length : Int) - start)).toNat
      = l.length - start := by omega
  rw [hdc]
  have h1 : List.take (l.length - start) (List.drop start l) = List.drop start l := by
    apply List.take_of_length_le
    simp
  have h2 : List.drop (start + (l.length - start)) l = [] := by
    apply List.drop_of_length_le
    omega
  rw [h1, h2, List.append_nil]

theorem pileAt_set_ne (ps : List Pile) (i j : Nat) (p : Pile) (h : i ≠ j) :
    pileAt (ps.set i p) j = pileAt ps j := by
  simp [pileAt, List.getElem?_set_ne h]

theorem pileAt_map_setTop (ps : List Pile) (i : Nat) :
    pileAt (ps.map (setTopFaceUp true)) i = setTopFaceUp true (pileAt ps i) := by
  simp only [pileAt, List.getD_eq_getElem?_getD, List.getElem?_map]
  cases ps[i]? <;> rfl

theorem topOk_append (p q : Pile) (hq : q ≠ []) (h : topOk q = true) : topOk (p ++ q) = true := by
  obtain ⟨c, hc⟩ : ∃ c, q.getLast? = some c := by
    cases hq' : q.getLast? with
    | none => exact absurd (List.getLast?_eq_none_iff.mp hq') hq
    | some c => exact ⟨c, rfl⟩
  simp only [topOk, topCard, List.getLast?_append, hc, Option.or_some] at h ⊢
  exact h

theorem topOk_drop (p : Pile) (n : Nat) (hn : n < p.length) (h : topOk p = true) :
    topOk (p.drop n) = true := by
  have : p = p.take n ++ p.drop n := (List.take_append_drop n p).symm
  have hne : p.drop n ≠ [] := by
    intro h0
    have := congrArg List.length h0
    simp at this
    omega
  obtain ⟨c, hc⟩ : ∃ c, (p.drop n).getLast? = some c := by
    cases hq' : (p.drop n).getLast? with
    | none => exact absurd (List.getLast?_eq_none_iff.mp hq') hne
    | some c => exact ⟨c, rfl⟩
  have h2 : p.getLast? = some c := by
    rw [this, List.getLast?_append, hc, Option.or_some]
  simp only [topOk, topCard, h2] at h
  simp only [topOk, topCard, hc]
  exact h

/-- Committing a tableau selection to another column, on a state that satisfies the
invariant: the destination gets the selected tail appended, the source keeps the cards
below it, its new top turned face-up. -/
theorem commit_tableau_run (s : State) (h : Inv s) (pi d start : Nat) (hd : d < 7)
    (hne : d ≠ pi) (hsel : s.selected = some ⟨PileKind.tableau, pi, start⟩)
    (hstart : start < (pileAt s.tableau pi).length) :
    pileAt (commitSelectedTo s PileKind.tableau d).tableau d
        = pileAt s.tableau d ++ (pileAt s.tableau pi).drop start
    ∧ pileAt (commitSelectedTo s PileKind.tableau d).tableau pi
        = setTopFaceUp true ((pileAt s.tableau pi).take start) := by
  have hpi : pi < 7 := by
    have := h.wf.selOk _ hsel
    simpa [pileRefOk] using this
  have h7 := h.wf.nTab
  have hdo := doMove_inv s PileKind.tableau pi start PileKind.tableau d
    (((pileAt s.tableau pi).length : Int) - start) h.wf (by simpa [pileRefOk] using hpi)
    (by simpa [destRefOk] using hd)
  have hcommit : commitSelectedTo s PileKind.tableau d
      = doMove s PileKind.tableau pi start PileKind.tableau d
          (((pileAt s.tableau pi).length : Int) - start) := by
    simp only [commitSelectedTo, hsel, sourcePile]
    exact postMoveFlipIfNeeded_of_tops _ _ _ hdo.tops
  have hmt : (movedState s PileKind.tableau pi start PileKind.tableau d
      (((pileAt s.tableau pi).length : Int) - start)).tableau
      = (s.tableau.set pi ((pileAt s.tableau pi).take start)).set d
          (pileAt s.tableau d ++ (pileAt s.tableau pi).drop start) := by
    have hk : (PileKind.tableau = PileKind.foundation) = False := by simp
    simp only [movedState, clearSelections, sourcePile, setSourcePile, setDestPile, destPile,
      splice_tail _ _ (le_of_lt hstart), hk, if_false]
    rw [pileAt_set_ne _ _ _ _ (Ne.symm hne)]
  have hlen : (movedState s PileKind.tableau pi start PileKind.tableau d
      (((pileAt s.tableau pi).length : Int) - start)).tableau.length = 7 := by
    rw [hmt]; simpa using h7
  have htab : (commitSelectedTo s PileKind.tableau d).tableau
      = ((s.tableau.set pi ((pileAt s.tableau pi).take start)).set d
          (pileAt s.tableau d ++ (pileAt s.tableau pi).drop start)).map (setTopFaceUp true) := by
    rw [hcommit, doMove_eq, afterAnyMove_tableau _ hlen, hmt]
  have hptop : topOk (pileAt s.tableau pi) = true :=
    h.tops _ (pileAt_mem _ _ (by omega))
  constructor
  · rw [htab, pileAt_map_setTop, pileAt_set_self _ _ _ (by simp; omega)]
    apply setTopFaceUp_of_topOk
    apply topOk_append
    · intro h0
      have := congrArg List.length h0
      simp at this
      omega
    · exact topOk_drop _ _ hstart hptop
  · rw [htab, pileAt_map_setTop, pileAt_set_ne _ _ _ _ hne, pileAt_set_self _ _ _ (by omega)]

theorem id_setTopFaceUp (b : Bool) : ∀ p : Pile, (setTopFaceUp b p).map Card.id = p.map Card.id
  | [] => rfl
  | [_] => rfl
  | c :: d :: cs => by
    simp only [setTopFaceUp, List.map_cons, id_setTopFaceUp b (d :: cs)]

theorem dropLast_setTopFaceUp (b : Bool) : ∀ p : Pile, (setTopFaceUp b p).dropLast = p.dropLast
  | [] => rfl
  | [_] => rfl
  | c :: d :: cs => by
    have ih := dropLast_setTopFaceUp b (d :: cs)
    cases h : setTopFaceUp b (d :: cs) with
    | nil => cases cs <;> simp [setTopFaceUp] at h
    | cons x xs =>
      rw [h] at ih
      simp only [setTopFaceUp, h, List.dropLast_cons₂, ih]

/-- C17. On a reachable unpaused state whose selection is the tail of tableau column `pi`
from offset `start`, a click on another column `d` that accepts the first selected card
commits the selection: column `d` becomes its old contents followed by the selected
cards, in order and with their face-up flags, and column `pi` keeps exactly its first
`start` cards, in order (the card that becomes its top is turned face-up, the flags
below it are unchanged). -/
theorem run_moves_as_unit {s : State} (h : Reachable s) (hp : s.paused = false)
    (pi d start : Nat) (hd : d < 7) (hne : d ≠ pi)
    (hsel : s.selected = some ⟨PileKind.tableau, pi, start⟩)
    (hlegal : canPlaceOnTableau (topCard (pileAt s.tableau d)) ((pileAt s.tableau pi)[start]?)
      = true) :
    step s (Event.tableauClick d) = commitSelectedTo s PileKind.tableau d
    ∧ pileAt (step s (Event.tableauClick d)).tableau d
        = pileAt s.tableau d ++ (pileAt s.tableau pi).drop start
    ∧ (pileAt (step s (Event.tableauClick d)).tableau pi).map Card.id
        = ((pileAt s.tableau pi).take start).map Card.id
    ∧ (pileAt (step s (Event.tableauClick d)).tableau pi).length = start
    ∧ (pileAt (step s (Event.tableauClick d)).tableau pi).dropLast
        = ((pileAt s.tableau pi).take start).dropLast
    ∧ pileAt (step s (Event.tableauClick d)).tableau pi
        = setTopFaceUp true ((pileAt s.tableau pi).take start) := by
  have hstart : start < (pileAt s.tableau pi).length := by
    by_contra hcon
    rw [List.getElem?_eq_none (by omega)] at hlegal
    simp [canPlaceOnTableau] at hlegal
  have hstep : step s (Event.tableauClick d) = commitSelectedTo s PileKind.tableau d := by
    have hm : getSelectedTop s = (pileAt s.tableau pi)[start]? := by
      simp [getSelectedTop, hsel, sourcePile]
    simp [step, hd, onTableauClick, hp, hsel, hm, hlegal]
  obtain ⟨h1, h2⟩ := commit_tableau_run s (reachable_inv h) pi d start hd hne hsel hstart
  rw [hstep]
  refine ⟨rfl, h1, ?_, ?_, ?_, h2⟩
  · rw [h2, id_setTopFaceUp]
  · have := congrArg List.length (id_setTopFaceUp true ((pileAt s.tableau pi).take start))
    rw [h2]
    simp only [List.length_map, List.length_take] at this
    omega
  · rw [h2, dropLast_setTopFaceUp]

set_option maxRecDepth 100000 in
/-- C17 on `kingRunSelected`: the run K♦, Q♣ selected at offset 4 of column 4 goes to the
empty column 0 as a unit; column 4 keeps its first four cards, and A♣, now its top, is
face-up. -/
theorem run_moves_as_unit_witness :
    Reachable kingRunSelected
    ∧ kingRunSelected.selected = some ⟨PileKind.tableau, 4, 4⟩
    ∧ ((pileAt kingRunSelected.tableau 4).drop 4).map Card.key
        = [(Suit.diamonds, 13), (Suit.clubs, 12)]
    ∧ pileAt (step kingRunSelected (Event.tableauClick 0)).tableau 0
        = pileAt kingRunSelected.tableau 0 ++ (pileAt kingRunSelected.tableau 4).drop 4
    ∧ (pileAt (step kingRunSelected (Event.tableauClick 0)).tableau 4).map Card.id
        = ((pileAt kingRunSelected.tableau 4).take 4).map Card.id :=
  ⟨reachable_run (Reachable.boot 0 zeroTape) _, by decide, by decide,
    (run_moves_as_unit (reachable_run (Reachable.boot 0 zeroTape) _) (by decide) 4 0 4
      (by decide) (by decide) (by decide) (by decide)).2.1,
    (run_moves_as_unit (reachable_run (Reachable.boot 0 zeroTape) _) (by decide) 4 0 4
      (by decide) (by decide) (by decide) (by decide)).2.2.1⟩

/-! ## Win detection -/

theorem ascendsFrom_last : ∀ (cs : Pile) (prev c : Card), ascendsFrom prev cs = true →
    cs.getLast? = some c → c.rank = prev.rank + cs.length
  | [], _, _, _, h => by simp at h
  | [x], prev, c, ha, h => by
    simp only [ascendsFrom, Bool.and_eq_true, beq_iff_eq] at ha
    simp only [List.getLast?_singleton, Option.some.injEq] at h
    subst h
    simp [ha.1.2]
  | x :: y :: cs, prev, c, ha, h => by
    simp only [ascendsFrom, Bool.and_eq_true, beq_iff_eq] at ha
    have hy : ascendsFrom x (y :: cs) = true := by
      simp only [ascendsFrom, Bool.and_eq_true, beq_iff_eq]
      exact ha.2
    rw [List.getLast?_cons_cons] at h
    have ih := ascendsFrom_last (y :: cs) x c hy h
    rw [ih, ha.1.2]
    simp only [List.length_cons]
    push_cast
    omega

/-- The top card of a foundation run carries the number of cards of the pile as rank. -/
theorem foundationRun_top (p : Pile) (c : Card) (h : foundationRun p = true)
    (hc : topCard p = some c) : c.rank = p.length := by
  cases p with
  | nil => simp [topCard] at hc
  | cons x cs =>
    simp only [foundationRun, Bool.and_eq_true, beq_iff_eq] at h
    cases cs with
    | nil =>
      simp only [topCard, List.getLast?_singleton, Option.some.injEq] at hc
      subst hc
      simp [h.1]
    | cons y ys =>
      simp only [topCard, List.getLast?_cons_cons] at hc
      have := ascendsFrom_last (y :: ys) x c h.2 hc
      rw [this, h.1]
      simp only [List.length_cons]
      push_cast
      omega

theorem isDone_iff (s : State) :
    isDone s = true ↔ ∀ p ∈ s.foundations, ∃ c, topCard p = some c ∧ c.rank = 13 := by
  simp only [isDone, List.all_eq_true]
  constructor
  · intro h p hp
    have := h p hp
    cases hc : topCard p with
    | none => simp [hc] at this
    | some c => exact ⟨c, rfl, by simpa [hc] using this⟩
  · intro h p hp
    obtain ⟨c, hc, h13⟩ := h p hp
    simp [hc, h13]

theorem checkWin_winStatus (s : State) :
    (checkWin s).winStatus = WinStatus.youWin ↔ isDone s = true := by
  unfold checkWin
  split
  · next h => simp [stopTimer, h]
  · next h => simp [h]

theorem allCards_length (s : State) :
    (allCards s).length
      = s.stock.length + s.waste.length + s.foundations.flatten.length
        + s.tableau.flatten.length := by
  simp [allCards, Nat.add_assoc]

theorem flatten_eq_nil_iff_all (ps : List Pile) : ps.flatten = [] ↔ ∀ p ∈ ps, p = [] := by
  induction ps with
  | nil => simp
  | cons p ps ih => simp [List.flatten, ih]

/-- In a state with four foundation runs over the 52 cards of the deck, every foundation
holds at most 13 cards. -/
theorem foundation_length_le (s : State)
    (hperm : ((allCards s).map Card.key).Perm standardDeck) (hf : FoundationsOk s)
    (p : Pile) (hp : p ∈ s.foundations) : p.length ≤ 13 := by
  cases hc : topCard p with
  | none =>
    have : p = [] := by simpa [topCard] using hc
    simp [this]
  | some c =>
    have hr := foundationRun_top p c (hf p hp) hc
    have hcp : c ∈ p := List.mem_of_getLast?_eq_some hc
    have hca : c ∈ allCards s := by
      simp only [allCards, List.mem_append, List.mem_flatten]
      exact Or.inl (Or.inr ⟨p, hp, hcp⟩)
    have hk : c.key ∈ standardDeck := hperm.mem_iff.mp (List.mem_map_of_mem _ hca)
    have := (mem_standardDeck c.suit c.rank).mp hk
    omega

theorem perm_of_inv {s : State} (h : Inv s) : ((allCards s).map Card.key).Perm standardDeck := by
  rw [List.perm_iff_count]
  intro k
  rw [count_prod_eq, count_prod_eq, count_allCards]
  exact h.wf.cards k

/-- C18. The status `checkWin` writes is the win exactly when every foundation is
non-empty with a rank-13 card on top, in every state; the timer is stopped when it is.
In a state with four foundations that are same-suit runs from rank 1 and with the 52
cards of the deck over all piles, the win is declared exactly when stock, waste and every
tableau pile are empty, that is when the foundations hold all 52 cards. -/
theorem win_detection (s : State) :
    ((checkWin s).winStatus = WinStatus.youWin
      ↔ ∀ p ∈ s.foundations, ∃ c, topCard p = some c ∧ c.rank = 13)
    ∧ ((checkWin s).timer = false ∨ (checkWin s).winStatus = WinStatus.gameOn)
    ∧ (((allCards s).map Card.key).Perm standardDeck → FoundationsOk s →
        s.foundations.length = 4 →
        ((checkWin s).winStatus = WinStatus.youWin
          ↔ s.stock = [] ∧ s.waste = [] ∧ ∀ p ∈ s.tableau, p = [])
        ∧ ((checkWin s).winStatus = WinStatus.youWin ↔ s.foundations.flatten.length = 52)) := by
  have hdone := (checkWin_winStatus s).trans (isDone_iff s)
  refine ⟨hdone, ?_, ?_⟩
  · unfold checkWin
    split
    · left; rfl
    · right; rfl
  intro hperm hf h4
  have hlen : (allCards s).length = 52 := by
    have := hperm.length_eq
    simpa using this
  rw [allCards_length] at hlen
  -- the four foundations
  obtain ⟨a, b, c, d, hfs⟩ : ∃ a b c d, s.foundations = [a, b, c, d] := by
    match hfo : s.foundations, h4 with
    | [a, b, c, d], _ => exact ⟨a, b, c, d, rfl⟩
  have ha := foundation_length_le s hperm hf a (by simp [hfs])
  have hb := foundation_length_le s hperm hf b (by simp [hfs])
  have hc := foundation_length_le s hperm hf c (by simp [hfs])
  have hd := foundation_length_le s hperm hf d (by simp [hfs])
  have hflat : s.foundations.flatten.length = a.length + b.length + c.length + d.length := by
    simp [hfs, Nat.add_assoc]
  -- a pile of the run has a rank-13 top exactly when it has 13 cards
  have hpile : ∀ p ∈ s.foundations, ((∃ c, topCard p = some c ∧ c.rank = 13) ↔ p.length = 13) := by
    intro p hp
    constructor
    · rintro ⟨c, hc, h13⟩
      have := foundationRun_top p c (hf p hp) hc
      omega
    · intro hl
      cases hc : topCard p with
      | none =>
        have : p = [] := by simpa [topCard] using hc
        simp [this] at hl
      | some c =>
        have := foundationRun_top p c (hf p hp) hc
        exact ⟨c, rfl, by omega⟩
  have hfull : (∀ p ∈ s.foundations, ∃ c, topCard p = some c ∧ c.rank = 13)
      ↔ s.foundations.flatten.length = 52 := by
    constructor
    · intro h
      have h1 := (hpile a (by simp [hfs])).mp (h a (by simp [hfs]))
      have h2 := (hpile b (by simp [hfs])).mp (h b (by simp [hfs]))
      have h3 := (hpile c (by simp [hfs])).mp (h c (by simp [hfs]))
      have h5 := (hpile d (by simp [hfs])).mp (h d (by simp [hfs]))
      omega
    · intro h p hp
      apply (hpile p hp).mpr
      rw [hfs] at hp
      simp only [List.mem_cons, List.mem_singleton, List.not_mem_nil, or_false] at hp
      rcases hp with rfl | rfl | rfl | rfl <;> omega
  have hrest : s.foundations.flatten.length = 52
      ↔ s.stock = [] ∧ s.waste = [] ∧ ∀ p ∈ s.tableau, p = [] := by
    rw [← flatten_eq_nil_iff_all]
    constructor
    · intro h
      refine ⟨List.eq_nil_of_length_eq_zero (by omega), List.eq_nil_of_length_eq_zero (by omega),
        List.eq_nil_of_length_eq_zero (by omega)⟩
    · rintro ⟨h1, h2, h3⟩
      rw [h1, h2, h3] at hlen
      simpa using hlen
  exact ⟨hdone.trans (hfull.trans hrest), hdone.trans hfull⟩

set_option maxRecDepth 1000000 in
/-- C18 on the reachable `wonGame`, the end of a won play: the deck is complete and the
foundations are four full runs; `checkWin` declares the win, so every foundation has a
King on top, stock, waste and all columns are empty and the foundations hold 52 cards.
On the reachable `queenOverBrokenPile`, whose foundation 1 is not a run, and on the fresh
`zeroGame` no win is declared. -/
theorem win_detection_witness :
    Reachable wonGame
    ∧ ((allCards wonGame).map Card.key).Perm standardDeck
    ∧ FoundationsOk wonGame ∧ wonGame.foundations.length = 4
    ∧ (checkWin wonGame).winStatus = WinStatus.youWin
    ∧ (checkWin wonGame).timer = false
    ∧ (∀ p ∈ wonGame.foundations, ∃ c, topCard p = some c ∧ c.rank = 13)
    ∧ (wonGame.stock = [] ∧ wonGame.waste = [] ∧ ∀ p ∈ wonGame.tableau, p = [])
    ∧ wonGame.foundations.flatten.length = 52
    ∧ ¬ FoundationsOk queenOverBrokenPile
    ∧ ((checkWin queenOverBrokenPile).winStatus = WinStatus.youWin
        ↔ ∀ p ∈ queenOverBrokenPile.foundations, ∃ c, topCard p = some c ∧ c.rank = 13)
    ∧ (checkWin queenOverBrokenPile).winStatus = WinStatus.gameOn
    ∧ ((checkWin zeroGame).winStatus = WinStatus.youWin
        ↔ zeroGame.stock = [] ∧ zeroGame.waste = [] ∧ ∀ p ∈ zeroGame.tableau, p = [])
    ∧ (checkWin zeroGame).winStatus = WinStatus.gameOn :=
  ⟨reachable_run (Reachable.boot 0 zeroTape) _,
    perm_of_inv (reachable_inv (reachable_run (Reachable.boot 0 zeroTape) _)),
    by unfold FoundationsOk; decide, by decide, by decide, by decide,
    (win_detection wonGame).1.mp (by decide),
    ((win_detection wonGame).2.2
      (perm_of_inv (reachable_inv (reachable_run (Reachable.boot 0 zeroTape) _)))
      (by unfold FoundationsOk; decide) (by decide)).1.mp (by decide),
    ((win_detection wonGame).2.2
      (perm_of_inv (reachable_inv (reachable_run (Reachable.boot 0 zeroTape) _)))
      (by unfold FoundationsOk; decide) (by decide)).2.mp (by decide),
    by unfold FoundationsOk; decide,
    (win_detection queenOverBrokenPile).1,
    by decide,
    ((win_detection zeroGame).2.2 (perm_of_inv (reachable_inv (Reachable.boot 0 zeroTape)))
      (by unfold FoundationsOk; decide) rfl).1,
    by decide⟩

/-! ## Where the code leaves the rules: flips, undo, clock, selections -/

set_option maxRecDepth 100000 in
/-- C11. A move that uncovers a face-down card does turn it face-up, but never marks the
move entry: on `queenSelected` the click on K♦ moves Q♣ off the face-down K♣;
`afterAnyMove` inside `doMove` turns K♣ face-up and logs a separate `flip` entry, so
`postMoveFlipIfNeeded` finds nothing to flip and `flippedOnSource` stays `false`.  A
double-click on Q♣ gives the same log. -/
theorem flip_not_recorded_on_move :
    Reachable queenSelected
    ∧ pileAt queenSelected.tableau 1
        = [⟨⟨Suit.clubs, 13, ""⟩, Suit.clubs, 13, false⟩, ⟨⟨Suit.clubs, 12, ""⟩, Suit.clubs, 12, true⟩]
    ∧ queenSelected.selected = some ⟨PileKind.tableau, 1, 1⟩
    ∧ legalOn queenSelected PileKind.tableau 4 (selectionFirst queenSelected ⟨PileKind.tableau, 1, 1⟩)
        = true
    ∧ step queenSelected (Event.cardClick ⟨Suit.diamonds, 13, ""⟩)
        = commitSelectedTo queenSelected PileKind.tableau 4
    ∧ pileAt (commitSelectedTo queenSelected PileKind.tableau 4).tableau 1
        = [⟨⟨Suit.clubs, 13, ""⟩, Suit.clubs, 13, true⟩]
    ∧ (commitSelectedTo queenSelected PileKind.tableau 4).moves
        = [Entry.move PileKind.tableau 1 1 PileKind.tableau 4 1 false, Entry.flip 1]
    ∧ (step zeroGame (Event.cardDoubleClick ⟨Suit.clubs, 12, ""⟩)).moves
        = [Entry.move PileKind.tableau 1 1 PileKind.tableau 4 1 false, Entry.flip 1] := by
  refine ⟨reachable_run (Reachable.boot 0 zeroTape) _, ?_, ?_, ?_, ?_, ?_, ?_, ?_⟩ <;> decide

set_option maxRecDepth 100000 in
/-- C12. Undo does not consume a `flip` entry: on the reachable unpaused state after
`queenOntoKing` the log is a move followed by `flip 1`; `undo` pops the flip, turns K♣
face-down, and its own `afterAnyMove` turns K♣ up and appends `flip 1` again, so the log
after `undo` is the log before it, not the log without its last entry. -/
theorem undo_keeps_flip_entry :
    Reachable (run zeroGame queenOntoKing)
    ∧ (run zeroGame queenOntoKing).paused = false
    ∧ (run zeroGame queenOntoKing).moves
        = [Entry.move PileKind.tableau 1 1 PileKind.tableau 4 1 false, Entry.flip 1]
    ∧ (undoEntry { run zeroGame queenOntoKing with
          moves := (run zeroGame queenOntoKing).moves.dropLast } (Entry.flip 1)).moves
        = [Entry.move PileKind.tableau 1 1 PileKind.tableau 4 1 false]
    ∧ (undo (run zeroGame queenOntoKing)).moves
        = [Entry.move PileKind.tableau 1 1 PileKind.tableau 4 1 false, Entry.flip 1]
    ∧ (undo (run zeroGame queenOntoKing)).moves ≠ (run zeroGame queenOntoKing).moves.dropLast := by
  refine ⟨reachable_run (Reachable.boot 0 zeroTape) _, ?_, ?_, ?_, ?_, ?_⟩ <;> decide

theorem setPaused_pause (g : State) (h : g.paused = false) (p : Int) :
    (setPaused g true p).paused = true ∧ (setPaused g true p).startTs = g.startTs
    ∧ (setPaused g true p).pauseAt = p := by
  unfold setPaused
  rw [if_neg (by simp [h]), if_pos rfl]
  exact ⟨rfl, rfl, rfl⟩

theorem setPaused_resume (u : State) (h : u.paused = true) (r : Int) :
    (setPaused u false r).startTs = r ∧ (setPaused u false r).paused = false := by
  unfold setPaused
  rw [if_neg (by simp [h]), if_neg (by simp)]
  constructor
  · rw [(checkWin_frame _).2.2.2.2.2.2.2.2.2.1]; rfl
  · rw [checkWin_paused]; rfl

/-- Pausing an unpaused state at `p` and resuming it at `r` leaves `startTs = r`. -/
theorem pause_resume_startTs (g : State) (h : g.paused = false) (p r : Int) :
    (step g (Event.togglePause p)).paused = true
    ∧ (step (step g (Event.togglePause p)) (Event.togglePause r)).paused = false
    ∧ (step (step g (Event.togglePause p)) (Event.togglePause r)).startTs = r := by
  have h2 : step g (Event.togglePause p) = setPaused g true p := by
    simp only [step, h, Bool.not_false]
  have h3 := (setPaused_pause g h p).1
  have h4 : step (step g (Event.togglePause p)) (Event.togglePause r)
      = setPaused (setPaused g true p) false r := by
    rw [h2]
    simp only [step, h3, Bool.not_true]
  rw [h4, h2]
  exact ⟨h3, (setPaused_resume _ h3 r).2, (setPaused_resume _ h3 r).1⟩

/-- C19. Resuming overwrites the re-baselined start: for a game started at `start`, paused
at `p` and resumed at `r`, `setPaused(false)` adds `r - p` to `startTs` and then calls
`startTimer`, which stores the clock, so `startTs` ends as `r` and the time played before
the pause is lost.  The value the claim names, `start + (r - p)`, is reached only when
`p = start`; with start 0, pause 10 and resume 25 the elapsed time at 30 is 5, not 15. -/
theorem resume_overwrites_start :
    (∀ (start p r : Int) (tape : Tape),
      (dealNewGame initialState start tape).startTs = start
      ∧ (dealNewGame initialState start tape).paused = false
      ∧ (step (dealNewGame initialState start tape) (Event.togglePause p)).paused = true
      ∧ (step (step (dealNewGame initialState start tape) (Event.togglePause p))
          (Event.togglePause r)).paused = false
      ∧ (step (step (dealNewGame initialState start tape) (Event.togglePause p))
          (Event.togglePause r)).startTs = r
      ∧ ((step (step (dealNewGame initialState start tape) (Event.togglePause p))
          (Event.togglePause r)).startTs = start + (r - p) ↔ p = start)
      ∧ ∀ t : Int, elapsedMs (step (step (dealNewGame initialState start tape)
          (Event.togglePause p)) (Event.togglePause r)) t = t - r)
    ∧ elapsedMs (step (step zeroGame (Event.togglePause 10)) (Event.togglePause 25)) 30 = 5
    ∧ (10 - 0) + (30 - 25) = (15 : Int) := by
  refine ⟨?_, ?_, by decide⟩
  · intro start p r tape
    obtain ⟨k1, k2, k3⟩ := pause_resume_startTs (dealNewGame initialState start tape) rfl p r
    refine ⟨rfl, rfl, k1, k2, k3, ?_, ?_⟩
    · rw [k3]
      constructor <;> intro h <;> omega
    · intro t
      simp only [elapsedMs, k3]
  · have k3 := (pause_resume_startTs zeroGame rfl 10 25).2.2
    simp only [elapsedMs, k3]
    decide

set_option maxRecDepth 100000 in
/-- C20. A move from the waste can take more than one card, and not the top one: on
`aceSelectedThenDraw` the waste is A♥, 2♠ with the selection still at offset 0 (it was
made before 2♠ was drawn); the click on the empty foundation 0 checks A♥ only and
`commitSelectedTo` moves `waste.length - start = 2` cards, the first of which is not the
waste top. -/
theorem waste_move_takes_two :
    Reachable aceSelectedThenDraw
    ∧ aceSelectedThenDraw.selected = some ⟨PileKind.waste, 0, 0⟩
    ∧ aceSelectedThenDraw.waste.map Card.key = [(Suit.hearts, 1), (Suit.spades, 2)]
    ∧ (topCard aceSelectedThenDraw.waste).map Card.key = some (Suit.spades, 2)
    ∧ (getSelectedTop aceSelectedThenDraw).map Card.key = some (Suit.hearts, 1)
    ∧ (step aceSelectedThenDraw (Event.foundationClick 0)).moves.getLast?
        = some (Entry.move PileKind.waste 0 0 PileKind.foundation 0 2 false)
    ∧ (step aceSelectedThenDraw (Event.foundationClick 0)).waste = []
    ∧ (pileAt (step aceSelectedThenDraw (Event.foundationClick 0)).foundations 0).map Card.key
        = [(Suit.hearts, 1), (Suit.spades, 2)] := by
  refine ⟨reachable_run (Reachable.boot 0 aceTape) _, ?_, ?_, ?_, ?_, ?_, ?_, ?_⟩ <;> decide

/-! ## The stock cycle -/

theorem onStockClick_draw (s : State) (hp : s.paused = false) (init : Pile) (c : Card)
    (hst : s.stock = init ++ [c]) :
    (onStockClick s).stock = init
    ∧ (onStockClick s).waste = s.waste ++ [{ c with faceUp := true }]
    ∧ (onStockClick s).paused = false := by
  have htop : topCard s.stock = some c := by simp [topCard, hst]
  simp only [onStockClick, hp, htop, Bool.false_eq_true, if_false]
  refine ⟨?_, ?_, ?_⟩
  · simp [hst]
  · simp
  · simp

theorem onStockClick_recycle (s : State) (hp : s.paused = false) (hs : s.stock = [])
    (hw : s.waste ≠ []) :
    (onStockClick s).stock = s.waste.reverse.map (fun c => { c with faceUp := false })
    ∧ (onStockClick s).waste = []
    ∧ (onStockClick s).paused = false := by
  have htop : topCard s.stock = none := by simp [topCard, hs]
  have hlen : s.waste.length ≠ 0 := fun h0 => hw (List.eq_nil_of_length_eq_zero h0)
  simp only [onStockClick, hp, htop, Bool.false_eq_true, if_false]
  simp only [hlen, bne_iff_ne, ne_eq, not_false_eq_true, if_true]
  refine ⟨?_, ?_, ?_⟩
  · simp [hs]
  · simp
  · simp

theorem run_cons (s : State) (e : Event) (es : List Event) : run s (e :: es) = run (step s e) es :=
  rfl

theorem run_append (s : State) (es fs : List Event) : run s (es ++ fs) = run (run s es) fs := by
  simp [run, List.foldl_append]

theorem stockClicks_succ (n : Nat) : stockClicks (n + 1) = Event.stockClick :: stockClicks n := rfl

theorem stockClicks_succ_end (n : Nat) : stockClicks (n + 1) = stockClicks n ++ [Event.stockClick] := by
  simp only [stockClicks, List.replicate_succ']

/-- Clicking the stock as many times as it has cards, on an unpaused state, empties it
and puts its cards on the waste, face-up, the old top first. -/
theorem draw_all : ∀ (st : Pile) (s : State), s.paused = false → s.stock = st →
    (run s (stockClicks st.length)).stock = []
    ∧ (run s (stockClicks st.length)).waste
        = s.waste ++ st.reverse.map (fun c => { c with faceUp := true })
    ∧ (run s (stockClicks st.length)).paused = false := by
  intro st
  induction st using List.reverseRecOn with
  | nil =>
    intro s hp hst
    exact ⟨hst, by simp [stockClicks, run], hp⟩
  | append_singleton init c ih =>
    intro s hp hst
    obtain ⟨h1, h2, h3⟩ := onStockClick_draw s hp init c hst
    have hlen : (init ++ [c]).length = init.length + 1 := by simp
    rw [hlen, stockClicks_succ, run_cons]
    obtain ⟨k1, k2, k3⟩ := ih (step s Event.stockClick) h3 h1
    refine ⟨k1, ?_, k3⟩
    rw [k2]
    show (onStockClick s).waste ++ _ = _
    rw [h2]
    simp

theorem map_down_up (p : Pile) :
    (p.map (fun c : Card => { c with faceUp := true })).map (fun c => { c with faceUp := false })
      = p.map (fun c => { c with faceUp := false }) := by
  simp [List.map_map, Function.comp_def]

theorem map_down_of_all_down (p : Pile) (h : ∀ c ∈ p, c.faceUp = false) :
    p.map (fun c => { c with faceUp := false }) = p := by
  induction p with
  | nil => rfl
  | cons c cs ih =>
    have hc := h c (List.mem_cons_self _ _)
    have := ih (fun x hx => h x (List.mem_cons_of_mem _ hx))
    simp only [List.map_cons, this]
    congr 1
    cases c
    simp_all

/-- Drawing the whole stock of an unpaused state with an empty waste and clicking once
more gives back the stock, card by card in the same order, every card face-down, and an
empty waste. -/
theorem draw_all_then_recycle (s : State) (hp : s.paused = false) (hw : s.waste = [])
    (hn : s.stock ≠ []) :
    (run s (stockClicks (s.stock.length + 1))).stock
        = s.stock.map (fun c => { c with faceUp := false })
    ∧ (run s (stockClicks (s.stock.length + 1))).waste = []
    ∧ (run s (stockClicks (s.stock.length + 1))).paused = false := by
  obtain ⟨k1, k2, k3⟩ := draw_all s.stock s hp rfl
  rw [hw, List.nil_append] at k2
  have hne : (run s (stockClicks s.stock.length)).waste ≠ [] := by
    rw [k2]
    intro h0
    have := congrArg List.length h0
    simp at this
    exact hn this
  obtain ⟨r1, r2, r3⟩ := onStockClick_recycle _ k3 k1 hne
  rw [stockClicks_succ_end, run_append]
  refine ⟨?_, r2, r3⟩
  show (onStockClick _).stock = _
  rw [r1, k2, ← List.map_reverse, List.reverse_reverse, map_down_up]

/-! ## The stock stays face-down -/

theorem setSourcePile_stock (s : State) (frm : PileKind) (i : Nat) (p : Pile) :
    (setSourcePile s frm i p).stock = s.stock := by
  cases frm <;> rfl

theorem setDestPile_stock (s : State) (dest : PileKind) (i : Nat) (p : Pile) :
    (setDestPile s dest i p).stock = s.stock := by
  unfold setDestPile
  split <;> rfl

theorem doMove_stock (s : State) (frm : PileKind) (fi si : Nat) (dest : PileKind) (ti : Nat)
    (count : Int) : (doMove s frm fi si dest ti count).stock = s.stock := by
  rw [doMove_eq, afterAnyMove_stock]
  simp only [movedState, clearSelections, setDestPile_stock, setSourcePile_stock]

theorem postMoveFlipIfNeeded_stock (s : State) (frm : PileKind) (i : Nat) :
    (postMoveFlipIfNeeded s frm i).stock = s.stock := by
  unfold postMoveFlipIfNeeded
  split
  · simp only
    split
    · split <;> rfl
    · rfl
  · rfl

theorem commitSelectedTo_stock (s : State) (dest : PileKind) (ti : Nat) :
    (commitSelectedTo s dest ti).stock = s.stock := by
  unfold commitSelectedTo
  split
  · rfl
  · simp only [postMoveFlipIfNeeded_stock, doMove_stock]

theorem selectClicked_stock (s : State) (loc : Loc) : (selectClicked s loc).stock = s.stock := by
  unfold selectClicked
  split
  · rfl
  · rfl
  · simp only
    split <;> rfl

theorem onCardClick_stock (s : State) (cardId : CardId) : (onCardClick s cardId).stock = s.stock := by
  unfold onCardClick
  split
  · rfl
  · split
    · rfl
    · split
      · rfl
      · split
        · exact commitSelectedTo_stock _ _ _
        · split
          · exact commitSelectedTo_stock _ _ _
          · exact selectClicked_stock _ _

theorem onCardDoubleClick_stock (s : State) (cardId : CardId) :
    (onCardDoubleClick s cardId).stock = s.stock := by
  unfold onCardDoubleClick
  split
  · rfl
  · split
    · rfl
    · simp only
      split
      · rfl
      · split
        · simp only [postMoveFlipIfNeeded_stock, doMove_stock]
        · split
          · simp only [postMoveFlipIfNeeded_stock, doMove_stock]
          · rfl

theorem onWasteClick_stock (s : State) : (onWasteClick s).stock = s.stock := by
  unfold onWasteClick
  split
  · rfl
  · split <;> rfl

theorem onFoundationClick_stock (s : State) (f : Nat) : (onFoundationClick s f).stock = s.stock := by
  unfold onFoundationClick
  split
  · rfl
  · split
    · exact commitSelectedTo_stock _ _ _
    · rfl

theorem onTableauClick_stock (s : State) (t : Nat) : (onTableauClick s t).stock = s.stock := by
  unfold onTableauClick
  split
  · rfl
  · split
    · exact commitSelectedTo_stock _ _ _
    · rfl

theorem onCardPointerDown_stock (s : State) (cardId : CardId) :
    (onCardPointerDown s cardId).stock = s.stock := by
  unfold onCardPointerDown
  split
  · rfl
  · split
    · rfl
    · split <;> rfl

theorem onDragEnd_stock (s : State) (target : Option (PileKind × Nat)) :
    (onDragEnd s target).stock = s.stock := by
  unfold onDragEnd
  split
  · rfl
  · show (dropOn s target).stock = s.stock
    unfold dropOn
    split
    · rfl
    · split
      · exact commitSelectedTo_stock _ _ _
      · split
        · exact commitSelectedTo_stock _ _ _
        · rfl

theorem autoWaste_stock (s u : State) (h : autoWaste s = some u) : u.stock = s.stock := by
  unfold autoWaste at h
  split at h
  · cases h
  · split at h
    · simp only [Option.some.injEq] at h
      subst h
      exact doMove_stock _ _ _ _ _ _ _
    · cases h

theorem autoTableau_stock (s : State) :
    ∀ (l : List Nat) (u : State), autoTableau s l = some u → u.stock = s.stock
  | [], u, h => by simp [autoTableau] at h
  | t :: ts, u, h => by
    unfold autoTableau at h
    split at h
    · split at h
      · simp only [Option.some.injEq] at h
        subst h
        exact doMove_stock _ _ _ _ _ _ _
      · exact autoTableau_stock s ts u h
    · exact autoTableau_stock s ts u h

theorem autoPass_stock (s u : State) (h : autoPass s = some u) : u.stock = s.stock := by
  unfold autoPass at h
  split at h
  · next s1 h1 =>
    simp only [Option.some.injEq] at h
    subst h
    exact autoWaste_stock s _ h1
  · exact autoTableau_stock s _ u h

theorem autoLoop_stock : ∀ (n : Nat) (s : State), (autoLoop n s).stock = s.stock
  | 0, _ => rfl
  | n + 1, s => by
    unfold autoLoop
    split
    · next s1 h1 =>
      have := autoPass_stock s s1 h1
      split
      · exact this
      · rw [autoLoop_stock n s1, this]
    · rfl

theorem autoMove_stock (s : State) : (autoMove s).stock = s.stock := by
  unfold autoMove
  split
  · rfl
  · rw [afterAnyMove_stock, autoLoop_stock]

theorem setPaused_stock (s : State) (val : Bool) (now : Int) :
    (setPaused s val now).stock = s.stock := by
  unfold setPaused
  split
  · rfl
  · split
    · rfl
    · simp [startTimer]

theorem undoEntry_stockDown (s : State) (e : Entry) (h : StockDown s) : StockDown (undoEntry s e) := by
  cases e with
  | deal card =>
    simp only [undoEntry]
    split
    · exact h
    · split
      · intro c hc
        simp only [List.mem_append, List.mem_singleton] at hc
        rcases hc with hc | hc
        · exact h c hc
        · subst hc; rfl
      · exact h
  | recycle =>
    intro c hc
    simp [undoEntry] at hc
  | move frm fi si dest ti count flipped =>
    intro c hc
    simp only [undoEntry] at hc
    split at hc
    · simp only [setSourcePile_stock, setDestPile_stock] at hc
      exact h c hc
    · simp only [setSourcePile_stock, setDestPile_stock] at hc
      exact h c hc
  | flip t => exact h

theorem undo_stockDown (s : State) (h : StockDown s) : StockDown (undo s) := by
  unfold undo
  split
  · exact h
  · split
    · exact h
    · next last _ =>
      have h1 : StockDown (undoEntry { s with moves := s.moves.dropLast } last) :=
        undoEntry_stockDown _ last h
      intro c hc
      rw [afterAnyMove_stock] at hc
      exact h1 c hc

theorem onStockClick_stockDown (s : State) (h : StockDown s) : StockDown (onStockClick s) := by
  unfold onStockClick
  split
  · exact h
  · split
    · intro c hc
      rw [afterAnyMove_stock] at hc
      exact h c (List.mem_of_mem_dropLast hc)
    · split
      · intro c hc
        rw [afterAnyMove_stock] at hc
        simp only [List.mem_append, List.mem_map] at hc
        rcases hc with hc | ⟨x, _, rfl⟩
        · exact h c hc
        · rfl
      · exact h

theorem dealNewGame_stockDown (s : State) (now : Int) (tape : Tape) :
    StockDown (dealNewGame s now tape) := by
  obtain ⟨_, _, _, h4⟩ := deal_of_length_52 (makeDeck tape) (makeDeck_length tape)
  intro c hc
  rw [dealNewGame_stock, h4, List.mem_reverse] at hc
  exact makeDeck_all_faceDown tape c (List.mem_of_mem_take hc)

theorem StockDown.of_stock_eq {s u : State} (h : StockDown s) (hu : u.stock = s.stock) :
    StockDown u := by
  intro c hc
  rw [hu] at hc
  exact h c hc

theorem step_stockDown (s : State) (e : Event) (h : StockDown s) : StockDown (step s e) := by
  cases e with
  | stockClick => exact onStockClick_stockDown s h
  | wasteClick => exact h.of_stock_eq (onWasteClick_stock s)
  | cardClick cardId =>
    simp only [step]; split
    · exact h.of_stock_eq (onCardClick_stock s cardId)
    · exact h
  | cardDoubleClick cardId =>
    simp only [step]; split
    · exact h.of_stock_eq (onCardDoubleClick_stock s cardId)
    · exact h
  | cardPointerDown cardId =>
    simp only [step]; split
    · exact h.of_stock_eq (onCardPointerDown_stock s cardId)
    · exact h
  | dragEnd target =>
    simp only [step]; split
    · exact h.of_stock_eq (onDragEnd_stock s target)
    · exact h
  | foundationClick f =>
    simp only [step]; split
    · exact h.of_stock_eq (onFoundationClick_stock s f)
    · exact h
  | tableauClick t =>
    simp only [step]; split
    · exact h.of_stock_eq (onTableauClick_stock s t)
    · exact h
  | undo => exact undo_stockDown s h
  | autoMove => exact h.of_stock_eq (autoMove_stock s)
  | togglePause now => exact h.of_stock_eq (setPaused_stock s _ now)
  | newGame now tape => exact dealNewGame_stockDown s now tape

/-- In every reachable state all stock cards are face-down. -/
theorem reachable_stockDown {s : State} (h : Reachable s) : StockDown s := by
  induction h with
  | boot now tape => exact dealNewGame_stockDown _ now tape
  | step e _ ih => exact step_stockDown _ e ih

/-- C21. On a reachable unpaused state with an empty waste and a stock of `n ≥ 1` cards,
`n` stock clicks draw every card (the stock is then empty and the waste holds the cards
face-up, the old top first) and one more click recycles them: the stock is again the
original stock, the same cards in the same order, all face-down, and the waste is
empty, so that `n` further clicks put the same cards on the waste in the same order. -/
theorem recycle_reproduces_stock {s : State} (h : Reachable s) (hp : s.paused = false)
    (hw : s.waste = []) (hn : s.stock ≠ []) :
    (run s (stockClicks s.stock.length)).stock = []
    ∧ (run s (stockClicks s.stock.length)).waste
        = s.stock.reverse.map (fun c => { c with faceUp := true })
    ∧ (run s (stockClicks (s.stock.length + 1))).stock = s.stock
    ∧ ((run s (stockClicks (s.stock.length + 1))).stock.map Card.faceUp).all (fun b => !b) = true
    ∧ (run s (stockClicks (s.stock.length + 1))).waste = []
    ∧ (run s (stockClicks (s.stock.length + 1))).paused = false
    ∧ (run s (stockClicks (s.stock.length + 1) ++ stockClicks s.stock.length)).waste
        = (run s (stockClicks s.stock.length)).waste := by
  obtain ⟨k1, k2, _⟩ := draw_all s.stock s hp rfl
  rw [hw, List.nil_append] at k2
  obtain ⟨r1, r2, r3⟩ := draw_all_then_recycle s hp hw hn
  have hdown := map_down_of_all_down s.stock (reachable_stockDown h)
  rw [hdown] at r1
  refine ⟨k1, k2, r1, ?_, r2, r3, ?_⟩
  · rw [r1, List.all_eq_true]
    intro b hb
    obtain ⟨c, hc, rfl⟩ := List.mem_map.mp hb
    simp [reachable_stockDown h c hc]
  · obtain ⟨_, d2, _⟩ := draw_all s.stock (run s (stockClicks (s.stock.length + 1))) r3 r1
    rw [run_append, d2, r2, List.nil_append, k2]

set_option maxRecDepth 100000 in
/-- C21 on the freshly dealt `zeroGame`: 24 clicks draw the stock, the 25th gives it
back. -/
theorem recycle_reproduces_stock_witness :
    Reachable zeroGame ∧ zeroGame.paused = false ∧ zeroGame.waste = []
    ∧ zeroGame.stock.length = 24
    ∧ (run zeroGame (stockClicks (zeroGame.stock.length + 1))).stock = zeroGame.stock
    ∧ (run zeroGame (stockClicks (zeroGame.stock.length + 1))).waste = [] :=
  ⟨Reachable.boot 0 zeroTape, by decide, by decide, by decide,
    (recycle_reproduces_stock (Reachable.boot 0 zeroTape) (by decide) (by decide)
      (by decide)).2.2.1,
    (recycle_reproduces_stock (Reachable.boot 0 zeroTape) (by decide) (by decide)
      (by decide)).2.2.2.2.1⟩

/-! ## Where the code leaves the rules: undo of a recycle, moves from the middle -/

/-- On a state that satisfies the invariant, unpaused, with an empty stock and a
non-empty waste, a recycle followed by `undo` leaves the stock empty and the waste in the
reverse of its original order. -/
theorem recycle_then_undo (s : State) (h : Inv s) (hp : s.paused = false) (hs : s.stock = [])
    (hw : s.waste ≠ []) :
    (undo (onStockClick s)).stock = []
    ∧ (undo (onStockClick s)).waste = s.waste.reverse.map (fun c => { c with faceUp := true }) := by
  have hlen : s.waste.length ≠ 0 := fun h0 => hw (List.eq_nil_of_length_eq_zero h0)
  have hstep : onStockClick s = checkWin
      { s with stock := s.stock ++ s.waste.reverse.map (fun c => { c with faceUp := false }),
               waste := [],
               moves := s.moves ++ [Entry.recycle],
               moveCount := s.moveCount + 1 } := by
    simp only [onStockClick, hp, topCard, hs, List.getLast?_nil]
    simp only [hlen, bne_iff_ne, ne_eq, not_false_eq_true, if_true, Bool.false_eq_true, if_false]
    exact afterAnyMove_of_tops _ h.tops
  have hpaused : (onStockClick s).paused = false := by rw [hstep]; simpa using hp
  have hmoves : (onStockClick s).moves = s.moves ++ [Entry.recycle] := by rw [hstep]; simp
  have hstock : (onStockClick s).stock = s.waste.reverse.map (fun c => { c with faceUp := false }) := by
    rw [hstep]; simp [hs]
  have hwaste : (onStockClick s).waste = [] := by rw [hstep]; simp
  simp only [undo, hpaused, hmoves, List.getLast?_concat, Bool.false_eq_true, if_false,
    afterAnyMove_stock, afterAnyMove_waste, clearSelections, undoEntry, hstock, hwaste,
    List.reverse_reverse, List.nil_append, List.map_map]
  refine ⟨trivial, ?_⟩
  rfl

set_option maxRecDepth 100000 in
/-- C22. Undo of a recycle does not restore the waste: on `allDrawn` (stock empty, waste
2♠ ... Q♥ from bottom to top) the stock click recycles and logs `recycle`; `undo` pops
the stock into `temp`, reverses `temp` and pushes it, so the waste comes back in the
reverse order, Q♥ at the bottom and 2♠ on top. -/
theorem recycle_undo_reverses_waste :
    Reachable allDrawn ∧ allDrawn.paused = false ∧ allDrawn.stock = []
    ∧ allDrawn.waste.length = 24
    ∧ (allDrawn.waste.head?).map Card.key = some (Suit.spades, 2)
    ∧ (step allDrawn Event.stockClick).moves.getLast? = some Entry.recycle
    ∧ (undo (step allDrawn Event.stockClick)).stock = []
    ∧ (undo (step allDrawn Event.stockClick)).waste = allDrawn.waste.reverse
    ∧ ((undo (step allDrawn Event.stockClick)).waste.head?).map Card.key = some (Suit.hearts, 12)
    ∧ (undo (step allDrawn Event.stockClick)).waste ≠ allDrawn.waste := by
  refine ⟨reachable_run (Reachable.boot 0 zeroTape) _, ?_, ?_, ?_, ?_, ?_, ?_, ?_, ?_, ?_⟩ <;> decide

set_option maxRecDepth 100000 in
/-- C23. A double-click moves a card out of the middle of its pile: on `twoUnderThree` the
waste is 2♠, 3♠ and foundation 0 ends with A♠; the double-click on 2♠ calls `doMove` with
`startIndex = 0` and `count = 1` on a source of 2 cards, so the logged move has
`startIndex + count = 1`, not the source length, and the moved 2♠ is not the last card.
`undo` then appends 2♠ at the end of the waste, above 3♠, not where it was. -/
theorem double_click_takes_middle_card :
    Reachable twoUnderThree
    ∧ twoUnderThree.waste.map Card.key = [(Suit.spades, 2), (Suit.spades, 3)]
    ∧ twoUnderThree.waste.length = 2
    ∧ (step twoUnderThree (Event.cardDoubleClick ⟨Suit.spades, 2, ""⟩)).moves.getLast?
        = some (Entry.move PileKind.waste 0 0 PileKind.foundation 0 1 false)
    ∧ (0 : Nat) + 1 ≠ twoUnderThree.waste.length
    ∧ (topCard (pileAt (step twoUnderThree
          (Event.cardDoubleClick ⟨Suit.spades, 2, ""⟩)).foundations 0)).map Card.key
        = some (Suit.spades, 2)
    ∧ (step twoUnderThree (Event.cardDoubleClick ⟨Suit.spades, 2, ""⟩)).waste.map Card.key
        = [(Suit.spades, 3)]
    ∧ (undo (step twoUnderThree (Event.cardDoubleClick ⟨Suit.spades, 2, ""⟩))).waste.map Card.key
        = [(Suit.spades, 3), (Suit.spades, 2)]
    ∧ (undo (step twoUnderThree (Event.cardDoubleClick ⟨Suit.spades, 2, ""⟩))).waste
        ≠ twoUnderThree.waste := by
  refine ⟨reachable_run (Reachable.step _ (Reachable.boot 0 zeroTape)) _, ?_, ?_, ?_, ?_, ?_, ?_,
    ?_, ?_⟩ <;> decide

/-! ## `autoMove` as a greedy fixpoint -/

/-- Splicing one card at the last index of a non-empty pile removes its top card. -/
theorem splice_top (l : Pile) (c : Card) (h : topCard l = some c) :
    splice l ((l.length - 1 : Nat) : Int) 1 = ([c], l.dropLast) := by
  obtain ⟨ys, rfl⟩ := List.getLast?_eq_some_iff.mp h
  have hs := splice_tail (ys ++ [c]) ys.length (by simp)
  have h1 : (((ys ++ [c]).length : Nat) : Int) - (ys.length : Int) = 1 := by
    simp
  rw [h1] at hs
  have h2 : (ys ++ [c]).length - 1 = ys.length := by simp
  rw [h2, hs]
  simp

theorem flatten_length_set (p : Pile) :
    ∀ (ps : List Pile) (i : Nat), i < ps.length →
      (ps.set i p).flatten.length + (pileAt ps i).length = ps.flatten.length + p.length
  | [], i, h => by simp at h
  | q :: qs, 0, _ => by
    simp [pileAt]; omega
  | q :: qs, i + 1, h => by
    have ih := flatten_length_set p qs i (by simpa using h)
    simp [pileAt] at ih ⊢
    omega

/-- In a state that satisfies the invariant the foundations hold at most 52 cards. -/
theorem onFoundations_le {s : State} (h : Inv s) : onFoundations s ≤ 52 := by
  have hl := (perm_of_inv h).length_eq
  have h52 : standardDeck.length = 52 := by decide
  rw [List.length_map, allCards_length, h52] at hl
  unfold onFoundations
  omega

theorem firstFoundation_some (s : State) (c : Option Card) (f : Nat)
    (h : firstFoundation s c = some f) :
    f < 4 ∧ canPlaceOnFoundation (topCard (pileAt s.foundations f)) c = true := by
  have h1 := List.find?_some h
  have h2 := List.mem_of_find?_eq_some h
  exact ⟨by simpa using h2, h1⟩

theorem doMove_waste_top (s : State) (c : Card) (f : Nat) (hc : topCard s.waste = some c) :
    (doMove s PileKind.waste 0 (s.waste.length - 1) PileKind.foundation f 1).foundations
        = s.foundations.set f (pileAt s.foundations f ++ [c])
    ∧ (doMove s PileKind.waste 0 (s.waste.length - 1) PileKind.foundation f 1).waste
        = s.waste.dropLast
    ∧ (doMove s PileKind.waste 0 (s.waste.length - 1) PileKind.foundation f 1).moveCount
        = s.moveCount + 1 := by
  have hcut := splice_top s.waste c hc
  simp [doMove, movedState, sourcePile, setSourcePile, setDestPile, destPile, clearSelections,
    hcut]

theorem doMove_tableau_top (s : State) (c : Card) (t f : Nat) (h7 : s.tableau.length = 7)
    (ht : t < 7) (hc : topCard (pileAt s.tableau t) = some c) :
    (doMove s PileKind.tableau t ((pileAt s.tableau t).length - 1) PileKind.foundation f 1).foundations
        = s.foundations.set f (pileAt s.foundations f ++ [c])
    ∧ (pileAt (doMove s PileKind.tableau t ((pileAt s.tableau t).length - 1)
          PileKind.foundation f 1).tableau t).map Card.id
        = ((pileAt s.tableau t).dropLast).map Card.id
    ∧ (doMove s PileKind.tableau t ((pileAt s.tableau t).length - 1) PileKind.foundation f 1).moveCount
        = s.moveCount + 1 := by
  have hcut := splice_top (pileAt s.tableau t) c hc
  have hlen : (movedState s PileKind.tableau t ((pileAt s.tableau t).length - 1)
      PileKind.foundation f 1).tableau.length = 7 := by
    simp [movedState, sourcePile, setSourcePile, setDestPile, destPile, clearSelections, h7]
  refine ⟨?_, ?_, ?_⟩
  · simp [doMove, movedState, sourcePile, setSourcePile, setDestPile, destPile, clearSelections,
      hcut]
  · rw [doMove_eq, afterAnyMove_tableau _ hlen, pileAt_map_setTop, id_setTopFaceUp]
    simp only [movedState, sourcePile, setSourcePile, setDestPile, destPile, clearSelections,
      hcut, if_true]
    rw [pileAt_set_self _ _ _ (by omega)]
  · simp [doMove, movedState, sourcePile, setSourcePile, setDestPile, destPile, clearSelections]

/-- What one moving pass does to the number of cards on the foundations. -/
theorem onFoundations_set (s b : State) (c : Card) (f : Nat) (h4 : s.foundations.length = 4)
    (hf : f < 4) (hb : b.foundations = s.foundations.set f (pileAt s.foundations f ++ [c])) :
    onFoundations b = onFoundations s + 1 := by
  have := flatten_length_set (pileAt s.foundations f ++ [c]) s.foundations f (by omega)
  simp only [onFoundations, hb]
  simp only [List.length_append, List.length_singleton] at this
  omega

theorem autoWaste_some (s u : State) (h : Inv s) (hu : autoWaste s = some u) :
    TopCardToFoundation s u ∧ onFoundations u = onFoundations s + 1
      ∧ u.moveCount = s.moveCount + 1 := by
  unfold autoWaste at hu
  split at hu
  · cases hu
  · next w hw =>
    split at hu
    · next f hf =>
      simp only [Option.some.injEq] at hu
      subst hu
      obtain ⟨hf4, hcan⟩ := firstFoundation_some s _ f hf
      obtain ⟨h1, h2, h3⟩ := doMove_waste_top s w f hw
      exact ⟨⟨w, f, hf4, hcan, h1, Or.inl ⟨hw, rfl, h2⟩⟩,
        onFoundations_set s _ w f h.wf.nFound hf4 h1, h3⟩
    · cases hu

theorem autoTableau_some (s : State) (h : Inv s) :
    ∀ (l : List Nat) (u : State), (∀ t ∈ l, t < 7) → autoTableau s l = some u →
      TopCardToFoundation s u ∧ onFoundations u = onFoundations s + 1
        ∧ u.moveCount = s.moveCount + 1
  | [], u, _, hu => by simp [autoTableau] at hu
  | t :: ts, u, hl, hu => by
    have ht : t < 7 := hl t (List.mem_cons_self _ _)
    have hts : ∀ x ∈ ts, x < 7 := fun x hx => hl x (List.mem_cons_of_mem _ hx)
    unfold autoTableau at hu
    split at hu
    · next tt htt =>
      split at hu
      · next f hf =>
        simp only [Option.some.injEq] at hu
        subst hu
        obtain ⟨hf4, hcan⟩ := firstFoundation_some s _ f hf
        obtain ⟨h1, h2, h3⟩ := doMove_tableau_top s tt t f h.wf.nTab ht htt
        exact ⟨⟨tt, f, hf4, hcan, h1, Or.inr ⟨t, ht, htt, rfl, h2⟩⟩,
          onFoundations_set s _ tt f h.wf.nFound hf4 h1, h3⟩
      · exact autoTableau_some s h ts u hts hu
    · exact autoTableau_some s h ts u hts hu

/-- A pass of `autoMove` that moves puts the top card of the waste or of a tableau column
on a foundation that accepts it: one more card on the foundations, one more move. -/
theorem autoPass_some (s u : State) (h : Inv s) (hu : autoPass s = some u) :
    TopCardToFoundation s u ∧ onFoundations u = onFoundations s + 1
      ∧ u.moveCount = s.moveCount + 1 := by
  unfold autoPass at hu
  split at hu
  · next s1 h1 =>
    simp only [Option.some.injEq] at hu
    subst hu
    exact autoWaste_some s _ h h1
  · exact autoTableau_some s h _ u (by simp) hu

theorem firstFoundation_eq_none (s : State) (card : Option Card)
    (h : firstFoundation s card = none) :
    ∀ f, f < 4 → canPlaceOnFoundation (topCard (pileAt s.foundations f)) card = false := by
  unfold firstFoundation at h
  rw [List.find?_eq_none] at h
  intro f hf
  have := h f (by simpa using hf)
  simpa using this

theorem autoWaste_eq_none (s : State) (h : autoWaste s = none) :
    ∀ f, f < 4 → canPlaceOnFoundation (topCard (pileAt s.foundations f)) (topCard s.waste) = false := by
  unfold autoWaste at h
  split at h
  · next hw =>
    intro f _
    rw [hw]
    cases topCard (pileAt s.foundations f) <;> rfl
  · next w hw =>
    split at h
    · cases h
    · next hf =>
      rw [hw]
      exact firstFoundation_eq_none s _ hf

theorem autoTableau_eq_none (s : State) :
    ∀ l : List Nat, autoTableau s l = none → ∀ t ∈ l, ∀ f, f < 4 →
      canPlaceOnFoundation (topCard (pileAt s.foundations f)) (topCard (pileAt s.tableau t)) = false
  | [], _ => by simp
  | t :: ts, h => by
    unfold autoTableau at h
    intro x hx f hf
    rcases List.mem_cons.mp hx with rfl | hx
    · split at h
      · next tt htt =>
        split at h
        · cases h
        · next hnone =>
          rw [htt]
          exact firstFoundation_eq_none s _ hnone f hf
      · next hnone =>
        rw [hnone]
        cases topCard (pileAt s.foundations f) <;> rfl
    · split at h
      · split at h
        · cases h
        · exact autoTableau_eq_none s ts h x hx f hf
      · exact autoTableau_eq_none s ts h x hx f hf

/-- A pass of `autoMove` that moves nothing: no top card can go to a foundation. -/
theorem autoPass_eq_none (s : State) (h : autoPass s = none) : NothingPlayable s := by
  unfold autoPass at h
  split at h
  · cases h
  · next hw =>
    refine ⟨autoWaste_eq_none s hw, ?_⟩
    intro t ht f hf
    exact autoTableau_eq_none s _ h t (by simpa using ht) f hf

theorem autoPasses_succ : ∀ (k : Nat) (s : State),
    autoPasses (k + 1) s = (autoPasses k s).bind autoPass
  | 0, s => by
    cases h : autoPass s <;> simp [autoPasses, h]
  | k + 1, s => by
    cases h : autoPass s with
    | none => simp [autoPasses, h]
    | some s1 =>
      have ih := autoPasses_succ k s1
      rw [show autoPasses (k + 1 + 1) s = autoPasses (k + 1) s1 by
        simp only [autoPasses, h]]
      rw [ih, show autoPasses (k + 1) s = autoPasses k s1 by simp only [autoPasses, h]]

theorem autoPasses_prefix : ∀ (k : Nat) (s u : State), autoPasses k s = some u →
    ∀ j, j ≤ k → ∃ a, autoPasses j s = some a
  | 0, s, u, h, j, hj => by
    have : j = 0 := by omega
    subst this
    exact ⟨u, h⟩
  | k + 1, s, u, h, j, hj => by
    rcases Nat.lt_or_ge j (k + 1) with hlt | hge
    · rw [autoPasses_succ] at h
      cases hk : autoPasses k s with
      | none => simp [hk] at h
      | some a => exact autoPasses_prefix k s a hk j (by omega)
    · have : j = k + 1 := by omega
      subst this
      exact ⟨u, h⟩

/-- After `k` moving passes: the invariant holds, `k` more cards lie on the foundations
and the counter has grown by `k`. -/
theorem autoPasses_inv : ∀ (k : Nat) (s u : State), Inv s → autoPasses k s = some u →
    Inv u ∧ onFoundations u = onFoundations s + k ∧ u.moveCount = s.moveCount + k
  | 0, s, u, h, hu => by
    simp only [autoPasses, Option.some.injEq] at hu
    subst hu
    exact ⟨h, rfl, rfl⟩
  | k + 1, s, u, h, hu => by
    cases hp : autoPass s with
    | none => simp [autoPasses, hp] at hu
    | some s1 =>
      have hu1 : autoPasses k s1 = some u := by simpa only [autoPasses, hp] using hu
      obtain ⟨_, hF, hM⟩ := autoPass_some s s1 h hp
      obtain ⟨hi, hF1, hM1⟩ := autoPasses_inv k s1 u (autoPass_inv s s1 h hp) hu1
      exact ⟨hi, by omega, by omega⟩

/-- The passes come to an end: from a state that satisfies the invariant some number of
moving passes leads to a state whose pass moves nothing. -/
theorem autoPasses_stop : ∀ (n : Nat) (s : State), Inv s → 52 < onFoundations s + n →
    ∃ k u, autoPasses k s = some u ∧ autoPass u = none
  | 0, s, h, hn => absurd (onFoundations_le h) (by omega)
  | n + 1, s, h, hn => by
    cases hp : autoPass s with
    | none => exact ⟨0, s, rfl, hp⟩
    | some s1 =>
      obtain ⟨_, hF, _⟩ := autoPass_some s s1 h hp
      obtain ⟨k, u, hk, hu⟩ := autoPasses_stop n s1 (autoPass_inv s s1 h hp) (by omega)
      exact ⟨k + 1, u, by simpa only [autoPasses, hp] using hk, hu⟩

/-- With more passes allowed than moving passes are made, the loop of `autoMove` ends in
the state whose pass moves nothing. -/
theorem autoLoop_of_passes : ∀ (k : Nat) (s u : State), autoPasses k s = some u →
    autoPass u = none → ∀ n, k < n → autoLoop n s = u
  | 0, s, u, hk, hu, n, hn => by
    simp only [autoPasses, Option.some.injEq] at hk
    subst hk
    obtain ⟨m, rfl⟩ : ∃ m, n = m + 1 := ⟨n - 1, by omega⟩
    simp [autoLoop, hu]
  | k + 1, s, u, hk, hu, n, hn => by
    obtain ⟨m, rfl⟩ : ∃ m, n = m + 1 := ⟨n - 1, by omega⟩
    cases hp : autoPass s with
    | none => simp [autoPasses, hp] at hk
    | some s1 =>
      have hk1 : autoPasses k s1 = some u := by simpa only [autoPasses, hp] using hk
      have hm : m ≠ 0 := by omega
      have ih := autoLoop_of_passes k s1 u hk1 hu m (by omega)
      simp [autoLoop, hp, hm, ih]

theorem nothingPlayable_checkWin (s : State) (h : NothingPlayable s) :
    NothingPlayable (checkWin s) := by
  unfold NothingPlayable at h ⊢
  simpa using h

/-- C24. On a reachable unpaused state `autoMove` makes `k ≤ 52` moving passes and then a
pass that moves nothing, ending in `u`: the loop returns `u` for every cap above 52 (so
for 200), each moving pass is a `doMove` of exactly the top card of the waste or of a
tableau column onto a foundation for which `canPlaceOnFoundation` holds, the counter
grows by `k`, and on return no waste top or tableau top can be placed on a foundation. -/
theorem autoMove_greedy_fixpoint {s : State} (h : Reachable s) (hp : s.paused = false) :
    ∃ (k : Nat) (u : State), k ≤ 52 ∧ k + onFoundations s ≤ 52
      ∧ autoPasses k s = some u ∧ autoPass u = none
      ∧ (∀ n, 52 < n → autoLoop n s = u)
      ∧ autoLoop 200 s = u
      ∧ autoMove s = checkWin u
      ∧ (autoMove s).moveCount = s.moveCount + k
      ∧ (∀ j, j < k → ∃ a b, autoPasses j s = some a ∧ autoPass a = some b
          ∧ autoPasses (j + 1) s = some b ∧ TopCardToFoundation a b)
      ∧ NothingPlayable (autoMove s) := by
  have hinv := reachable_inv h
  obtain ⟨k, u, hk, hu⟩ := autoPasses_stop 53 s hinv (by omega)
  obtain ⟨hiu, hF, hM⟩ := autoPasses_inv k s u hinv hk
  have hle := onFoundations_le hiu
  have hloop : ∀ n, 52 < n → autoLoop n s = u :=
    fun n hn => autoLoop_of_passes k s u hk hu n (by omega)
  have hauto : autoMove s = checkWin u := by
    simp only [autoMove, hp, Bool.false_eq_true, if_false, hloop 200 (by omega)]
    exact afterAnyMove_of_tops u hiu.tops
  refine ⟨k, u, by omega, by omega, hk, hu, hloop, hloop 200 (by omega), hauto, ?_, ?_, ?_⟩
  · rw [hauto]; simpa using hM
  · intro j hj
    obtain ⟨a, ha⟩ := autoPasses_prefix k s u hk j (by omega)
    obtain ⟨b, hb⟩ := autoPasses_prefix k s u hk (j + 1) (by omega)
    have hab : autoPass a = some b := by
      rw [autoPasses_succ, ha] at hb
      simpa using hb
    exact ⟨a, b, ha, hab, hb, (autoPass_some a b (autoPasses_inv j s a hinv ha).1 hab).1⟩
  · rw [hauto]
    exact nothingPlayable_checkWin u (autoPass_eq_none u hu)

set_option maxRecDepth 100000 in
/-- C24 on `zeroGame`: the deal has A♠ on top of the first column; `autoMove` moves it to
foundation 0 in one moving pass, the next pass moves nothing, and no top card is
playable afterwards. -/
theorem autoMove_greedy_fixpoint_witness :
    Reachable zeroGame ∧ zeroGame.paused = false
    ∧ (∃ a, autoPass zeroGame = some a ∧ autoPass a = none)
    ∧ (autoMove zeroGame).moveCount = 1
    ∧ ∃ (k : Nat) (u : State), k ≤ 52 ∧ k + onFoundations zeroGame ≤ 52
      ∧ autoPasses k zeroGame = some u ∧ autoPass u = none
      ∧ (∀ n, 52 < n → autoLoop n zeroGame = u)
      ∧ autoLoop 200 zeroGame = u
      ∧ autoMove zeroGame = checkWin u
      ∧ (autoMove zeroGame).moveCount = zeroGame.moveCount + k
      ∧ (∀ j, j < k → ∃ a b, autoPasses j zeroGame = some a ∧ autoPass a = some b
          ∧ autoPasses (j + 1) zeroGame = some b ∧ TopCardToFoundation a b)
      ∧ NothingPlayable (autoMove zeroGame) :=
  ⟨Reachable.boot 0 zeroTape, by decide, by decide, by decide,
    autoMove_greedy_fixpoint (Reachable.boot 0 zeroTape) (by decide)⟩

end Solitaire
